import Mathlib

/-!
# FinancialAnalyst dashboard client: stream decoder and derived metrics

A shallow embedding of two parts of `static/app.js`:

* the decoding loop of `sendMessage` (lines 1669-1748), which accumulates the
  chunks of a streamed chat answer in `buffer`, cuts an embedded payload
  delimited by `__JSON_START__` / `__JSON_END__` out of it and appends the
  surrounding text to `fullText`;
* `calculateRiskScores` (lines 125-153), the four clamped and rounded risk
  scores computed from a metrics record;
* `getColorByScore` (lines 93-99), `formatPercent` (lines 102-110) and
  `formatLargeNumber` (lines 113-121);
* the scores and bar colours of `drawStabilityBenchmarking` (lines 1371-1408).

Conventions of the embedding.

* A JavaScript string is a `List Char`.
* `indexOf` returns `none` where JavaScript returns `-1`.
* `JSON.parse` and the DOM/Chart rendering block are host facilities and not
  part of the source; they are the two fields of `JsonHost`.
* A JavaScript number is a rational (exact arithmetic, finite values only);
  `NaN` is `none`. The scan that `parseFloat` makes of a string is the host's
  and is a parameter of `parseFloat`; so is the text that `String` gives for
  a number, and the text of `toLocaleString`. Inside `formatPercent` and
  `formatLargeNumber` the scanned text holds digits, `.` and `-` only, and the
  scan is `scanDecimal`.
* `calculateRiskScores` and `formatPercent` are embedded a second time, as
  `Binary64.calculateRiskScores` and `Binary64.formatPercent`, over the type
  `Number` of binary64 values, where every arithmetic result is rounded as
  the program rounds it. Statements about the exact integer or the exact
  digits that these two functions return are made of the second embedding.
-/

namespace FinancialAnalyst

/-! ## Strings -/

/-- The literal `'__JSON_START__'` searched for at line 1682 (14 characters). -/
def START_MARKER : List Char := "__JSON_START__".toList

/-- The literal `'__JSON_END__'` searched for at line 1683 (12 characters). -/
def END_MARKER : List Char := "__JSON_END__".toList

/-- `s.indexOf(pat)`: the least index at which `pat` occurs in `s`;
`none` stands for the result `-1`. -/
def indexOf (pat : List Char) : List Char → Option Nat
  | [] => if pat.isPrefixOf [] then some 0 else none
  | c :: cs =>
    if pat.isPrefixOf (c :: cs) then some 0
    else (indexOf pat cs).map (fun i => i + 1)

/-- `s.substring(a, b)`: both indices are clamped to the length of `s`, and
they are swapped when the first exceeds the second. -/
def substring (s : List Char) (a b : Nat) : List Char :=
  let a1 := min a s.length
  let b1 := min b s.length
  (s.drop (min a1 b1)).take (max a1 b1 - min a1 b1)

/-- `s.substring(a)`: the end index defaults to the length of `s`. -/
def substringFrom (s : List Char) (a : Nat) : List Char :=
  substring s a s.length

/-! ## Stream decoder -/

/-- The host facilities used inside the decoding loop.
`parse` is `JSON.parse` (`none` when it throws a `SyntaxError`).
`renderThrows v` tells whether lines 1693-1736, run on the parsed value `v`,
throw; they do for `null`, where reading `jsonObj.chart_data` is a
`TypeError`. -/
structure JsonHost (J : Type) where
  parse : List Char → Option J
  renderThrows : J → Bool

/-- What the loop makes visible, in order: a piece of text appended to
`fullText`, or a parsed payload whose rendering block has run to its end. -/
inductive StreamEvent (J : Type) where
  | textDelta (text : List Char)
  | structuredPayload (payload : J)
  deriving DecidableEq, Repr

/-- The variables `fullText` and `buffer` of `sendMessage`, with the log of
events produced so far. -/
structure DecoderState (J : Type) where
  fullText : List Char
  buffer : List Char
  events : List (StreamEvent J)
  deriving DecidableEq, Repr

/-- The state at line 1670: `fullText = ""`, `buffer = ""`. -/
def DecoderState.init (J : Type) : DecoderState J :=
  { fullText := [], buffer := [], events := [] }

/-- One iteration of the `while` loop (lines 1679-1747) on a decoded chunk. -/
def step {J : Type} (h : JsonHost J) (st : DecoderState J) (chunk : List Char) :
    DecoderState J :=
  let buffer := st.buffer ++ chunk
  match indexOf START_MARKER buffer, indexOf END_MARKER buffer with
  | some jsonStart, some jsonEnd =>
    let jsonStr := substring buffer (jsonStart + 14) jsonEnd
    match h.parse jsonStr with
    | some jsonObj =>
      let shown := substring buffer 0 jsonStart
      if h.renderThrows jsonObj then
        -- the exception is caught at line 1739: line 1738 is not reached
        { fullText := st.fullText ++ shown
          buffer := buffer
          events := st.events ++ [StreamEvent.textDelta shown] }
      else
        { fullText := st.fullText ++ shown
          buffer := substringFrom buffer (jsonEnd + 12)
          events := st.events ++
            [StreamEvent.textDelta shown, StreamEvent.structuredPayload jsonObj] }
    | none =>
      -- `JSON.parse` threw: caught and logged at line 1740
      { st with buffer := buffer }
  | none, _ =>
    { fullText := st.fullText ++ buffer
      buffer := []
      events := st.events ++ [StreamEvent.textDelta buffer] }
  | some _, none =>
    { st with buffer := buffer }

/-- The loop run from a given state over the chunks read until `done`. -/
def runFrom {J : Type} (h : JsonHost J) (st : DecoderState J)
    (chunks : List (List Char)) : DecoderState J :=
  chunks.foldl (step h) st

/-- The decoding loop of `sendMessage`: the state when the reader reports
`done`, after one iteration per chunk from the empty state. -/
def sendMessage {J : Type} (h : JsonHost J) (chunks : List (List Char)) :
    DecoderState J :=
  runFrom h (DecoderState.init J) chunks

/-- The parsed payloads of an event log, in order. -/
def payloadsOf {J : Type} : List (StreamEvent J) → List J
  | [] => []
  | StreamEvent.textDelta _ :: es => payloadsOf es
  | StreamEvent.structuredPayload v :: es => v :: payloadsOf es

/-- Values of the host used for concrete runs. -/
inductive JsonLit where
  | null
  | number (n : Nat)
  deriving DecidableEq, Repr

/-- Reads an unsigned decimal integer literal; `none` on any other text. -/
def readDigits : List Char → Option Nat
  | [] => none
  | c :: cs =>
    if (c :: cs).all Char.isDigit then
      some ((c :: cs).foldl (fun n d => 10 * n + (d.toNat - 48)) 0)
    else none

/-- A host for concrete runs. Its `parse` accepts the literal `null` and
unsigned decimal integers and rejects every other text; `JSON.parse` gives
the same answer on each text it is applied to in the runs below. Rendering
throws exactly on `null`. -/
def literalHost : JsonHost JsonLit where
  parse := fun s =>
    if s = "null".toList then some JsonLit.null
    else (readDigits s).map JsonLit.number
  renderThrows := fun v => decide (v = JsonLit.null)


/-- The text has no END marker lying after one of its START markers: whenever
it is split around an occurrence of START, what follows holds no END. -/
def NoEndAfterStart (t : List Char) : Prop :=
  ∀ x y : List Char, t = x ++ START_MARKER ++ y → ¬ END_MARKER <:+: y

/-! ## Risk scores -/

/-- A value found in a field of the metrics record: `undefined` for an
absent field, `null`, a number, or a string. -/
inductive JSValue where
  | undefined
  | null
  | number (q : ℚ)
  | string (s : List Char)
  deriving DecidableEq

/-- `parseFloat(v)`, with `none` for `NaN`. The argument is converted to a
string first: `undefined` and `null` give `NaN`, a number gives itself. The
scan of a string for a leading decimal literal is the host's, `scan`. -/
def parseFloat (scan : List Char → Option ℚ) : JSValue → Option ℚ
  | JSValue.undefined => none
  | JSValue.null => none
  | JSValue.number q => some q
  | JSValue.string s => scan s

/-- `x || d` for a number `x`: `NaN` and `0` are falsy and give `d`. -/
def orDefault (x : Option ℚ) (d : ℚ) : ℚ :=
  match x with
  | none => d
  | some q => if q = 0 then d else q

/-- `Math.round(x)`: the nearest integer, a tie going up. -/
def mathRound (x : ℚ) : ℤ := ⌊x + 1 / 2⌋

/-- The metrics record: the four fields read by `calculateRiskScores` and the
remaining fields by name. -/
structure Metrics where
  current_ratio : JSValue
  beta : JSValue
  debt_equity : JSValue
  ownership : JSValue
  others : List (List Char × JSValue)

/-- The object returned by `calculateRiskScores`. -/
structure RiskScores where
  liquidity_risk : ℤ
  market_risk : ℤ
  credit_risk : ℤ
  governance_risk : ℤ
  deriving DecidableEq

/-- `calculateRiskScores(metrics)`, lines 125-153. -/
def calculateRiskScores (scan : List Char → Option ℚ) (metrics : Metrics) : RiskScores :=
  let cr := orDefault (parseFloat scan metrics.current_ratio) 0
  let beta := orDefault (parseFloat scan metrics.beta) 1
  let de := orDefault (parseFloat scan metrics.debt_equity) 0
  let own := orDefault (parseFloat scan metrics.ownership) 0
  let liquidityRisk := max 0 (min 100 (100 - (cr / 1.5) * 100))
  let marketRisk := max 0 (min 100 (beta * 50))
  let creditRisk := max 0 (min 100 ((de / 3) * 100))
  let governanceRisk := max 0 (min 100 (100 - (own / 20) * 100))
  { liquidity_risk := mathRound liquidityRisk
    market_risk := mathRound marketRisk
    credit_risk := mathRound creditRisk
    governance_risk := mathRound governanceRisk }

/-- A scan for concrete runs that finds no number in any string. -/
def scanNothing : List Char → Option ℚ := fun _ => none

/-- A record with the four numeric fields given as numbers and no other field. -/
def numericMetrics (cr beta de own : ℚ) : Metrics :=
  { current_ratio := JSValue.number cr
    beta := JSValue.number beta
    debt_equity := JSValue.number de
    ownership := JSValue.number own
    others := [] }

/-- The constant `beta` of `calculateRiskScores` (line 127), the beta value
that enters the market risk. -/
def calculateRiskScores_beta (scan : List Char → Option ℚ) (metrics : Metrics) : ℚ :=
  orDefault (parseFloat scan metrics.beta) 1

/-! ## Colours -/

/-- `getColorByScore(score)`, lines 93-99. -/
def getColorByScore (scan : List Char → Option ℚ) (score : JSValue) : List Char :=
  match parseFloat scan score with
  | none => "#94a3b8".toList
  | some s =>
    if s ≤ 40 then "#10b981".toList
    else if s ≤ 70 then "#f59e0b".toList
    else "#ef4444".toList

/-- The `backgroundColor` callback of the stability bars (lines 1403-1408),
applied to the bar value `ctx.raw`. -/
def backgroundColor (val : ℚ) : List Char :=
  if val ≥ 60 then "#10b981".toList
  else if val ≥ 40 then "#f59e0b".toList
  else "#ef4444".toList

/-! ## Stability scores -/

/-- What `drawStabilityBenchmarking` computes before it builds the chart: the
four raw values of lines 1371-1374 and the four scores of lines 1377-1388. -/
structure StabilityData where
  cr : ℚ
  de : ℚ
  beta : ℚ
  own : ℚ
  crScore : ℚ
  deScore : ℚ
  betaScore : ℚ
  ownScore : ℚ
  deriving DecidableEq

/-- `drawStabilityBenchmarking(m)`, lines 1371-1388: the data handed to the
chart when the canvas element exists. -/
def drawStabilityBenchmarking (scan : List Char → Option ℚ) (m : Metrics) : StabilityData :=
  let cr := orDefault (parseFloat scan m.current_ratio) 0
  let de := orDefault (parseFloat scan m.debt_equity) 0
  let beta := orDefault (parseFloat scan m.beta) 0
  let own := orDefault (parseFloat scan m.ownership) 0
  let crScore := max 5 (min 100 ((cr / 1.2) * 60))
  let deScore :=
    if de ≤ 2.0 then 60 + ((2.0 - de) / 2.0) * 40
    else max 5 (60 - ((de - 2.0) / 2.0) * 60)
  let betaScore :=
    if beta ≤ 1.3 then 60 + ((1.3 - beta) / 1.3) * 40
    else max 5 (60 - ((beta - 1.3) / 1.3) * 60)
  let ownScore := max 5 (min 100 ((own / 10) * 60))
  { cr := cr, de := de, beta := beta, own := own
    crScore := crScore, deScore := deScore, betaScore := betaScore, ownScore := ownScore }

/-! ## Percentages -/

/-- `String(val)`; the rendering of a number is the host's, `numToString`. -/
def toStr (numToString : ℚ → List Char) : JSValue → List Char
  | JSValue.undefined => "undefined".toList
  | JSValue.null => "null".toList
  | JSValue.number q => numToString q
  | JSValue.string s => s

/-- `s.replace(/[^0-9.-]/g, '')`: only digits, `.` and `-` are kept. -/
def stripNonNumeric (s : List Char) : List Char :=
  s.filter (fun c => c.isDigit || c == '.' || c == '-')

/-- The number written by a run of decimal digits. -/
def digitsValue (ds : List Char) : ℕ :=
  ds.foldl (fun n d => 10 * n + (d.toNat - 48)) 0

/-- `parseFloat` on a text made of digits, `.` and `-` only, as left by
`stripNonNumeric`: the longest leading decimal literal, an optional `-`, then
digits with an optional fraction, at least one digit in all; `none` is `NaN`. -/
def scanDecimal (t : List Char) : Option ℚ :=
  let negative := t.head? = some '-'
  let r := if negative then t.tail else t
  let ip := r.takeWhile Char.isDigit
  let r2 := r.dropWhile Char.isDigit
  let fp := if r2.head? = some '.' then r2.tail.takeWhile Char.isDigit else []
  if ip.isEmpty && fp.isEmpty then none
  else
    let magnitude : ℚ := (digitsValue ip : ℚ) + (digitsValue fp : ℚ) / 10 ^ fp.length
    some (if negative then -magnitude else magnitude)

/-- `x.toFixed(f)` for `|x| < 1e21`: the sign, then the integer nearest to
`|x| * 10^f` (a tie going up) written with at least `f + 1` digits and a point
before the last `f`. -/
def toFixed (x : ℚ) (f : ℕ) : List Char :=
  let n : ℕ := ⌊|x| * 10 ^ f + 1 / 2⌋.toNat
  let m := Nat.toDigits 10 n
  let m := List.replicate (f + 1 - m.length) '0' ++ m
  let body := if f = 0 then m else m.take (m.length - f) ++ '.' :: m.drop (m.length - f)
  if x < 0 then '-' :: body else body

/-- `formatPercent(val, addPlus)`, lines 102-110. -/
def formatPercent (numToString : ℚ → List Char) (val : JSValue) (addPlus : Bool) :
    List Char :=
  if val = JSValue.null ∨ val = JSValue.undefined ∨ val = JSValue.string "N/A".toList then
    "N/A".toList
  else
    match scanDecimal (stripNonNumeric (toStr numToString val)) with
    | none => toStr numToString val
    | some num0 =>
      let num := if |num0| < 2 ∧ ¬ '%' ∈ toStr numToString val then num0 * 100 else num0
      let sign := if addPlus ∧ num > 0 then "+".toList else []
      sign ++ toFixed num 1 ++ "%".toList

/-- The least `j` below the fuel with `den` dividing `10^j`, counted from `j`. -/
def decimalPlaces (den : ℕ) : ℕ → ℕ → Option ℕ
  | 0, _ => none
  | fuel + 1, j => if den ∣ 10 ^ j then some j else decimalPlaces den fuel (j + 1)

/-- Removes the trailing zeros of a digit run and counts them. -/
def dropTrailingZeros (ds : List Char) : List Char × ℕ :=
  let kept := (ds.reverse.dropWhile (fun c => c == '0')).reverse
  (kept, ds.length - kept.length)

/-- ECMAScript `Number::toString` on a positive number with decimal digits
`ds` (no trailing zero) and exponent `n`, the value being `0.ds * 10^n`. -/
def renderDigits (ds : List Char) (n : ℤ) : List Char :=
  let k : ℤ := ds.length
  if k ≤ n ∧ n ≤ 21 then ds ++ List.replicate (n - k).toNat '0'
  else if 0 < n ∧ n ≤ 21 then ds.take n.toNat ++ '.' :: ds.drop n.toNat
  else if -6 < n ∧ n ≤ 0 then '0' :: '.' :: List.replicate (-n).toNat '0' ++ ds
  else
    let e := n - 1
    let exponent := (if e < 0 then '-' else '+') :: Nat.toDigits 10 e.natAbs
    if ds.length = 1 then ds ++ 'e' :: exponent
    else ds.take 1 ++ '.' :: ds.drop 1 ++ 'e' :: exponent

/-- A `Number::toString` for concrete runs: the ECMAScript rendering of a
number that is a finite decimal. A rational that is no finite decimal is the
value of no such text and gets the empty text. -/
def decimalToString (q : ℚ) : List Char :=
  if q = 0 then "0".toList
  else
    match decimalPlaces q.den (q.den + 1) 0 with
    | none => []
    | some j =>
      let all := Nat.toDigits 10 (q.num.natAbs * (10 ^ j / q.den))
      let (ds, z) := dropTrailingZeros all
      let body := renderDigits ds ((ds.length : ℤ) + z - j)
      if q < 0 then '-' :: body else body

/-- The text of a decimal numeral: an optional `-`, the integer digits `ip`
and, when there are fraction digits `fp`, a point followed by them. -/
def decimalNumeral (negative : Bool) (ip fp : List Char) : List Char :=
  (if negative then ['-'] else []) ++ (ip ++ (if fp.isEmpty then [] else '.' :: fp))

/-- The number that the decimal numeral with these digits denotes. -/
def decimalNumeralValue (negative : Bool) (ip fp : List Char) : ℚ :=
  let magnitude : ℚ := (digitsValue ip : ℚ) + (digitsValue fp : ℚ) / 10 ^ fp.length
  if negative then -magnitude else magnitude

/-! ## Large numbers -/

/-- `formatLargeNumber(val)`, lines 113-121. The rendering of a number by
`String` and by `toLocaleString` is the host's. -/
def formatLargeNumber (numToString toLocaleString : ℚ → List Char) (val : JSValue) :
    List Char :=
  if val = JSValue.null ∨ val = JSValue.undefined ∨ val = JSValue.string "N/A".toList then
    "N/A".toList
  else
    match scanDecimal (stripNonNumeric (toStr numToString val)) with
    | none => toStr numToString val
    | some num =>
      if num ≥ 1e12 then toFixed (num / 1e12) 2 ++ "T".toList
      else if num ≥ 1e9 then toFixed (num / 1e9) 2 ++ "B".toList
      else if num ≥ 1e6 then toFixed (num / 1e6) 2 ++ "M".toList
      else toLocaleString num

/-! ## Events and the text they account for -/

/-- The part of the received text that an event accounts for: a text piece
accounts for itself, a payload for the START marker, a span that parses to
it, and the END marker. -/
def Contributes {J : Type} (h : JsonHost J) : StreamEvent J → List Char → Prop
  | StreamEvent.textDelta t, piece => piece = t
  | StreamEvent.structuredPayload v, piece =>
    ∃ span : List Char, h.parse span = some v ∧
      piece = START_MARKER ++ span ++ END_MARKER

/-! ## Binary64 numbers

The definitions above compute with exact rationals. The ones below compute as
the program does, in IEEE 754 binary64: the result of every arithmetic
operation is rounded to the nearest representable value, a tie going to the
even significand. -/

/-- A Number value: `NaN`, an infinity, or a finite value, given by the
rational it denotes. The two zeros are one value: the functions embedded
below divide by non-zero constants only, and their comparisons, `Math.min`,
`Math.max`, `Math.round`, `||` and `toFixed` give the same number and the same
text on both zeros. -/
inductive Number where
  | nan
  | infinity (negative : Bool)
  | finite (q : ℚ)
  deriving DecidableEq

/-- `2^e` for an integer `e`. -/
def pow2 (e : ℤ) : ℚ :=
  if 0 ≤ e then ((2 ^ e.toNat : ℕ) : ℚ) else 1 / ((2 ^ (-e).toNat : ℕ) : ℚ)

/-- The number of binary digits of `n`, counted with `fuel` halvings. -/
def bitLengthAux : ℕ → ℕ → ℕ
  | 0, _ => 0
  | fuel + 1, n => if n = 0 then 0 else bitLengthAux fuel (n / 2) + 1

/-- The number of binary digits of `n`; `0` for `n = 0`. -/
def bitLength (n : ℕ) : ℕ := bitLengthAux n n

/-- `⌊log2 x⌋` for a positive rational `x`. -/
def floorLog2 (x : ℚ) : ℤ :=
  let k : ℤ := (bitLength x.num.natAbs : ℤ) - (bitLength x.den : ℤ)
  if pow2 k ≤ x then k else k - 1

/-- The integer nearest to `x`, a tie going to the even one. -/
def roundHalfEven (x : ℚ) : ℤ :=
  let n := ⌊x⌋
  if x - n < 1 / 2 then n
  else if 1 / 2 < x - n then n + 1
  else if n % 2 = 0 then n else n + 1

/-- The Number value for a real number `x`: the binary64 value nearest to
`x`, a tie going to the even significand. The significand has 53 bits and
the least exponent is `-1074`; a magnitude that rounds to `2^1024` gives an
infinity. -/
def numberValue (x : ℚ) : Number :=
  if x = 0 then Number.finite 0
  else
    let e : ℤ := max (floorLog2 |x| - 52) (-1074)
    let m : ℤ := roundHalfEven (x / pow2 e)
    if pow2 1024 ≤ |(m : ℚ) * pow2 e| then Number.infinity (decide (x < 0))
    else Number.finite (m * pow2 e)

/-- `a / d` for a Number `a` and a finite constant `d` other than zero. -/
def Number.divideBy (a : Number) (d : ℚ) : Number :=
  match a with
  | Number.nan => Number.nan
  | Number.infinity s => Number.infinity (s != decide (d < 0))
  | Number.finite q => numberValue (q / d)

/-- `a * c` for a Number `a` and a finite constant `c` other than zero. -/
def Number.times (a : Number) (c : ℚ) : Number :=
  match a with
  | Number.nan => Number.nan
  | Number.infinity s => Number.infinity (s != decide (c < 0))
  | Number.finite q => numberValue (q * c)

/-- `c - a` for a finite constant `c` and a Number `a`. -/
def Number.subtractedFrom (a : Number) (c : ℚ) : Number :=
  match a with
  | Number.nan => Number.nan
  | Number.infinity s => Number.infinity (!s)
  | Number.finite q => numberValue (c - q)

/-- `Math.min(c, a)` for a finite constant `c`. -/
def Number.mathMin (c : ℚ) (a : Number) : Number :=
  match a with
  | Number.nan => Number.nan
  | Number.infinity true => Number.infinity true
  | Number.infinity false => Number.finite c
  | Number.finite q => Number.finite (min c q)

/-- `Math.max(c, a)` for a finite constant `c`. -/
def Number.mathMax (c : ℚ) (a : Number) : Number :=
  match a with
  | Number.nan => Number.nan
  | Number.infinity true => Number.finite c
  | Number.infinity false => Number.infinity false
  | Number.finite q => Number.finite (max c q)

/-- `Math.round(a)`: the nearest integer, a tie going up; an integer of a
finite Number is a Number. -/
def Number.mathRound (a : Number) : Number :=
  match a with
  | Number.nan => Number.nan
  | Number.infinity s => Number.infinity s
  | Number.finite q => Number.finite (FinancialAnalyst.mathRound q : ℤ)

/-- `a || d` for a Number `a` and a finite constant `d`: `NaN` and zero are
falsy and give `d`. -/
def Number.orDefault (a : Number) (d : ℚ) : Number :=
  match a with
  | Number.nan => Number.finite d
  | Number.infinity s => Number.infinity s
  | Number.finite q => if q = 0 then Number.finite d else Number.finite q

/-- The Number `w` stands for the exact value `x`: a finite `w` lies within
`E * (|x| + 1000)` of `x`, and an infinity stands for an `x` beyond `T` on its
side. -/
def Tracks (w : Number) (x E T : ℚ) : Prop :=
  match w with
  | Number.nan => False
  | Number.infinity s => if s then x ≤ -T else T ≤ x
  | Number.finite v => |v - x| ≤ E * (|x| + 1000)

/-- `Math.round(Math.max(0, Math.min(100, w)))` on an exact value. -/
def clampRound (x : ℚ) : ℤ := mathRound (max 0 (min 100 x))

namespace Binary64

/-- `parseFloat(v)` as a Number. A number of the record is the binary64 value
of the numeral that wrote it; the scan of a string is the host's. -/
def parseFloat (scan : List Char → Number) : JSValue → Number
  | JSValue.undefined => Number.nan
  | JSValue.null => Number.nan
  | JSValue.number q => numberValue q
  | JSValue.string s => scan s

/-- The object returned by `calculateRiskScores`. -/
structure RiskScores where
  liquidity_risk : Number
  market_risk : Number
  credit_risk : Number
  governance_risk : Number
  deriving DecidableEq

/-- `calculateRiskScores(metrics)`, lines 125-153, in binary64. -/
def calculateRiskScores (scan : List Char → Number) (metrics : Metrics) : RiskScores :=
  let cr := (parseFloat scan metrics.current_ratio).orDefault 0
  let beta := (parseFloat scan metrics.beta).orDefault 1
  let de := (parseFloat scan metrics.debt_equity).orDefault 0
  let own := (parseFloat scan metrics.ownership).orDefault 0
  let liquidityRisk :=
    Number.mathMax 0 (Number.mathMin 100 (((cr.divideBy 1.5).times 100).subtractedFrom 100))
  let marketRisk := Number.mathMax 0 (Number.mathMin 100 (beta.times 50))
  let creditRisk := Number.mathMax 0 (Number.mathMin 100 ((de.divideBy 3).times 100))
  let governanceRisk :=
    Number.mathMax 0 (Number.mathMin 100 (((own.divideBy 20).times 100).subtractedFrom 100))
  { liquidity_risk := liquidityRisk.mathRound
    market_risk := marketRisk.mathRound
    credit_risk := creditRisk.mathRound
    governance_risk := governanceRisk.mathRound }

/-- A scan for concrete runs that finds no number in any string. -/
def scanNothing : List Char → Number := fun _ => Number.nan

/-- `x.toFixed(f)` for a Number `x`: the text of `String(x)` for `NaN`, the
infinities and from `1e21` up in magnitude, with the sign first; below `1e21`
the digits of the exact value of `x`. -/
def toFixed (numToString : ℚ → List Char) (x : Number) (f : ℕ) : List Char :=
  match x with
  | Number.nan => "NaN".toList
  | Number.infinity s => if s then "-Infinity".toList else "Infinity".toList
  | Number.finite q =>
    if |q| ≥ 1e21 then (if q < 0 then '-' :: numToString |q| else numToString |q|)
    else FinancialAnalyst.toFixed q f

/-- `formatPercent(val, addPlus)`, lines 102-110, in binary64. -/
def formatPercent (numToString : ℚ → List Char) (val : JSValue) (addPlus : Bool) :
    List Char :=
  if val = JSValue.null ∨ val = JSValue.undefined ∨ val = JSValue.string "N/A".toList then
    "N/A".toList
  else
    match scanDecimal (stripNonNumeric (toStr numToString val)) with
    | none => toStr numToString val
    | some mv =>
      let num0 := numberValue mv
      let small : Bool :=
        match num0 with
        | Number.finite q => decide (|q| < 2)
        | _ => false
      let num := if small ∧ ¬ '%' ∈ toStr numToString val then num0.times 100 else num0
      let positive : Bool :=
        match num with
        | Number.finite q => decide (q > 0)
        | Number.infinity s => !s
        | Number.nan => false
      let sign := if addPlus ∧ positive then "+".toList else []
      sign ++ toFixed numToString num 1 ++ "%".toList

end Binary64

/-! ## Facts about `indexOf` and `substring` -/

theorem indexOf_none_iff (pat s : List Char) :
    indexOf pat s = none ↔ ¬ pat <:+: s := by
  induction s with
  | nil =>
    simp only [indexOf]
    by_cases hp : pat.isPrefixOf [] = true
    · have hp2 : pat <+: [] := List.isPrefixOf_iff_prefix.mp hp
      simp [hp, hp2.isInfix]
    · have : ¬ pat <:+: [] := by
        intro hi
        have : pat = [] := List.eq_nil_of_infix_nil hi
        subst this
        simp at hp
      simp [hp, this]
  | cons c cs ih =>
    simp only [indexOf]
    by_cases hp : pat.isPrefixOf (c :: cs) = true
    · have hp2 : pat <+: c :: cs := List.isPrefixOf_iff_prefix.mp hp
      simp [hp, hp2.isInfix]
    · have hp2 : ¬ pat <+: c :: cs := fun hh => hp (List.isPrefixOf_iff_prefix.mpr hh)
      simp only [hp, Bool.false_eq_true, if_false, Option.map_eq_none', ih]
      rw [List.infix_cons_iff]
      tauto

theorem indexOf_some_iff (pat s : List Char) (i : Nat) :
    indexOf pat s = some i ↔
      (pat <+: s.drop i ∧ i ≤ s.length ∧ ∀ j, j < i → ¬ pat <+: s.drop j) := by
  induction s generalizing i with
  | nil =>
    simp only [indexOf]
    by_cases hp : pat.isPrefixOf [] = true
    · have hp2 : pat <+: [] := List.isPrefixOf_iff_prefix.mp hp
      simp only [hp, if_true, Option.some.injEq, List.drop_nil, List.length_nil, Nat.le_zero]
      constructor
      · rintro rfl
        exact ⟨hp2, rfl, fun j hj => absurd hj (Nat.not_lt_zero j)⟩
      · rintro ⟨_, h0, _⟩
        exact h0.symm
    · have hp2 : ¬ pat <+: [] := fun hh => hp (List.isPrefixOf_iff_prefix.mpr hh)
      simp [hp, hp2]
  | cons c cs ih =>
    simp only [indexOf]
    by_cases hp : pat.isPrefixOf (c :: cs) = true
    · have hp2 : pat <+: c :: cs := List.isPrefixOf_iff_prefix.mp hp
      simp only [hp, if_true, Option.some.injEq]
      constructor
      · rintro rfl
        exact ⟨by simpa using hp2, Nat.zero_le _, fun j hj => absurd hj (Nat.not_lt_zero j)⟩
      · rintro ⟨_, _, h3⟩
        by_contra hne
        have hpos : 0 < i := Nat.pos_of_ne_zero (fun h0 => hne h0.symm)
        exact h3 0 hpos (by simpa using hp2)
    · have hp2 : ¬ pat <+: c :: cs := fun hh => hp (List.isPrefixOf_iff_prefix.mpr hh)
      simp only [hp, Bool.false_eq_true, if_false, Option.map_eq_some']
      constructor
      · rintro ⟨k, hk, rfl⟩
        obtain ⟨h1, h2, h3⟩ := (ih k).mp hk
        refine ⟨by simpa using h1, by simpa using h2, ?_⟩
        intro j hj
        cases j with
        | zero => simpa using hp2
        | succ j => simpa using h3 j (by omega)
      · rintro ⟨h1, h2, h3⟩
        cases i with
        | zero => exact absurd (by simpa using h1) hp2
        | succ k =>
          refine ⟨k, (ih k).mpr ⟨by simpa using h1, by simpa using h2, ?_⟩, rfl⟩
          intro j hj
          simpa using h3 (j + 1) (by omega)

theorem substringFrom_eq (s : List Char) (a : Nat) : substringFrom s a = s.drop a := by
  simp only [substringFrom, substring, Nat.min_self]
  by_cases h : a ≤ s.length
  · simp [Nat.min_eq_left h, Nat.max_eq_right h]
  · have h2 : s.length ≤ a := by omega
    simp [Nat.min_eq_right h2, List.drop_eq_nil_of_le h2]

theorem substring_of_le (s : List Char) (a b : Nat) (h : a ≤ b) :
    substring s a b = (s.take b).drop a := by
  simp only [substring]
  have h1 : min a s.length ≤ min b s.length := by
    simp only [Nat.min_def]; split <;> split <;> omega
  rw [Nat.min_eq_left h1, Nat.max_eq_right h1]
  rw [List.drop_take]
  by_cases ha : a ≤ s.length
  · rw [Nat.min_eq_left ha]
    by_cases hb : b ≤ s.length
    · rw [Nat.min_eq_left hb]
    · have hb2 : s.length ≤ b := by omega
      rw [Nat.min_eq_right hb2]
      rw [List.take_eq_take]
      simp; omega
  · have ha2 : s.length ≤ a := by omega
    rw [List.drop_eq_nil_of_le ha2, List.drop_eq_nil_of_le (by simp [Nat.min_def]; split <;> omega)]
    simp

theorem substring_zero (s : List Char) (n : Nat) : substring s 0 n = s.take n := by
  rw [substring_of_le s 0 n (Nat.zero_le n), List.drop_zero]

theorem substring_of_ge (s : List Char) (a b : Nat) (h : b ≤ a) :
    substring s a b = (s.take a).drop b := by
  have : substring s a b = substring s b a := by
    simp only [substring, Nat.min_comm, Nat.max_comm]
  rw [this, substring_of_le s b a h]


theorem prefix_drop_append_iff (pat s t : List Char) (j : Nat)
    (hj : j + pat.length ≤ s.length) :
    pat <+: (s ++ t).drop j ↔ pat <+: s.drop j := by
  have hjs : j ≤ s.length := by omega
  rw [List.drop_append_of_le_length hjs]
  constructor
  · intro hp
    rw [List.prefix_iff_eq_take] at hp ⊢
    rw [List.take_append_of_le_length (by rw [List.length_drop]; omega)] at hp
    exact hp
  · intro hp
    exact hp.trans (List.prefix_append _ _)

theorem indexOf_append_of_some (pat s t : List Char) (i : Nat)
    (h : indexOf pat s = some i) : indexOf pat (s ++ t) = some i := by
  obtain ⟨h1, h2, h3⟩ := (indexOf_some_iff pat s i).mp h
  have hlen : i + pat.length ≤ s.length := by
    have := h1.length_le
    rw [List.length_drop] at this
    omega
  refine (indexOf_some_iff pat (s ++ t) i).mpr ⟨?_, ?_, ?_⟩
  · exact (prefix_drop_append_iff pat s t i hlen).mpr h1
  · rw [List.length_append]; omega
  · intro j hj hp
    exact h3 j hj ((prefix_drop_append_iff pat s t j (by omega)).mp hp)

theorem indexOf_some_bound (pat s : List Char) (i : Nat)
    (h : indexOf pat s = some i) : i + pat.length ≤ s.length := by
  obtain ⟨h1, h2, _⟩ := (indexOf_some_iff pat s i).mp h
  have := h1.length_le
  rw [List.length_drop] at this
  omega

theorem substring_append_left (s t : List Char) (a b : Nat)
    (ha : a ≤ s.length) (hb : b ≤ s.length) :
    substring (s ++ t) a b = substring s a b := by
  have key : ∀ x y : Nat, x ≤ y → y ≤ s.length →
      substring (s ++ t) x y = substring s x y := by
    intro x y hxy hy
    rw [substring_of_le _ _ _ hxy, substring_of_le _ _ _ hxy,
      List.take_append_of_le_length hy]
  rcases Nat.le_total a b with hab | hab
  · exact key a b hab hb
  · have e1 : substring (s ++ t) a b = substring (s ++ t) b a := by
      simp only [substring, Nat.min_comm, Nat.max_comm]
    have e2 : substring s a b = substring s b a := by
      simp only [substring, Nat.min_comm, Nat.max_comm]
    rw [e1, e2]
    exact key b a hab ha

/-! ## Single iterations -/

theorem step_without_start {J : Type} (h : JsonHost J) (st : DecoderState J)
    (chunk : List Char) (hs : indexOf START_MARKER (st.buffer ++ chunk) = none) :
    step h st chunk =
      { fullText := st.fullText ++ (st.buffer ++ chunk)
        buffer := []
        events := st.events ++ [StreamEvent.textDelta (st.buffer ++ chunk)] } := by
  simp only [step, hs]

theorem step_stuck {J : Type} (h : JsonHost J) (st : DecoderState J)
    (chunk : List Char) (s : Nat)
    (hs : indexOf START_MARKER (st.buffer ++ chunk) = some s)
    (hp : ∀ e, indexOf END_MARKER (st.buffer ++ chunk) = some e →
      h.parse (substring (st.buffer ++ chunk) (s + 14) e) = none) :
    step h st chunk = { st with buffer := st.buffer ++ chunk } := by
  cases he : indexOf END_MARKER (st.buffer ++ chunk) with
  | none => simp only [step, hs, he]
  | some e => simp only [step, hs, he, hp e he]

theorem step_payload {J : Type} (h : JsonHost J) (st : DecoderState J)
    (chunk : List Char) (s e : Nat) (v : J)
    (hs : indexOf START_MARKER (st.buffer ++ chunk) = some s)
    (he : indexOf END_MARKER (st.buffer ++ chunk) = some e)
    (hp : h.parse (substring (st.buffer ++ chunk) (s + 14) e) = some v)
    (hr : h.renderThrows v = false) :
    step h st chunk =
      { fullText := st.fullText ++ (st.buffer ++ chunk).take s
        buffer := (st.buffer ++ chunk).drop (e + 12)
        events := st.events ++
          [StreamEvent.textDelta ((st.buffer ++ chunk).take s),
           StreamEvent.structuredPayload v] } := by
  simp only [step, hs, he, hp, hr, substring_zero, substringFrom_eq]
  simp

theorem runFrom_nil {J : Type} (h : JsonHost J) (st : DecoderState J) :
    runFrom h st [] = st := rfl

theorem runFrom_cons {J : Type} (h : JsonHost J) (st : DecoderState J)
    (c : List Char) (cs : List (List Char)) :
    runFrom h st (c :: cs) = runFrom h (step h st c) cs := rfl

theorem runFrom_append {J : Type} (h : JsonHost J) (st : DecoderState J)
    (cs ds : List (List Char)) :
    runFrom h st (cs ++ ds) = runFrom h (runFrom h st cs) ds := by
  simp [runFrom, List.foldl_append]

theorem payloadsOf_append {J : Type} (es fs : List (StreamEvent J)) :
    payloadsOf (es ++ fs) = payloadsOf es ++ payloadsOf fs := by
  induction es with
  | nil => rfl
  | cons e es ih =>
    cases e with
    | textDelta t => simpa [payloadsOf] using ih
    | structuredPayload v => simpa [payloadsOf] using ih

theorem payloadsOf_map_textDelta {J : Type} (ts : List (List Char)) :
    payloadsOf (ts.map (StreamEvent.textDelta : List Char → StreamEvent J)) = [] := by
  induction ts with
  | nil => rfl
  | cons t ts ih => simpa [payloadsOf] using ih

/-! ## Streams without a complete START marker in any buffer -/

theorem runFrom_without_start {J : Type} (h : JsonHost J) (cs : List (List Char))
    (st : DecoderState J) (hb : st.buffer = [])
    (hfree : ¬ START_MARKER <:+: cs.flatten) :
    runFrom h st cs =
      { fullText := st.fullText ++ cs.flatten
        buffer := []
        events := st.events ++ cs.map StreamEvent.textDelta } := by
  induction cs generalizing st with
  | nil =>
    cases st
    simp_all [runFrom]
  | cons c cs ih =>
    rw [runFrom_cons]
    have hc : ¬ START_MARKER <:+: c := fun hi =>
      hfree (hi.trans ⟨[], cs.flatten, by simp⟩)
    have hcs : ¬ START_MARKER <:+: cs.flatten := fun hi =>
      hfree (hi.trans ⟨c, [], by simp⟩)
    have hs : indexOf START_MARKER (st.buffer ++ c) = none := by
      rw [hb, List.nil_append]
      exact (indexOf_none_iff _ _).mpr hc
    rw [step_without_start h st c hs, ih _ rfl hcs]
    simp [hb, List.append_assoc]


theorem START_MARKER_length : START_MARKER.length = 14 := rfl

theorem END_MARKER_length : END_MARKER.length = 12 := rfl

theorem split_at_occurrence (pat b : List Char) (s : Nat) (hp : pat <+: b.drop s) :
    b = b.take s ++ pat ++ b.drop (s + pat.length) := by
  obtain ⟨r, hr⟩ := hp
  have h1 : b.drop (s + pat.length) = r := by
    rw [← List.drop_drop, ← hr, List.drop_left]
  rw [h1, List.append_assoc, hr, List.take_append_drop]

theorem substring_swapped_head (b rest : List Char) (a e : Nat) (c : Char)
    (hlt : e < a) (hd : b.drop e = c :: rest) :
    ∃ t, substring b a e = c :: t := by
  rw [substring_of_ge b a e (Nat.le_of_lt hlt), List.drop_take, hd]
  obtain ⟨k, hk⟩ : ∃ k, a - e = k + 1 := ⟨a - e - 1, by omega⟩
  rw [hk, List.take_succ_cons]
  exact ⟨_, rfl⟩

theorem step_unterminated {J : Type} (h : JsonHost J)
    (hrej : ∀ s, h.parse ('_' :: s) = none)
    (st : DecoderState J) (c rest : List Char)
    (hno : NoEndAfterStart (st.fullText ++ (st.buffer ++ c) ++ rest)) :
    (step h st c).fullText ++ (step h st c).buffer = st.fullText ++ (st.buffer ++ c) ∧
      payloadsOf (step h st c).events = payloadsOf st.events := by
  cases hs : indexOf START_MARKER (st.buffer ++ c) with
  | none =>
    rw [step_without_start h st c hs]
    simp [payloadsOf_append, payloadsOf]
  | some s =>
    have hstuck : step h st c = { st with buffer := st.buffer ++ c } := by
      apply step_stuck h st c s hs
      intro e he
      obtain ⟨hs1, _, _⟩ := (indexOf_some_iff _ _ _).mp hs
      obtain ⟨he1, _, _⟩ := (indexOf_some_iff _ _ _).mp he
      rcases Nat.lt_or_ge e (s + 14) with hlt | hge
      · obtain ⟨r, hr⟩ := he1
        have hd : (st.buffer ++ c).drop e = '_' :: ("_JSON_END__".toList ++ r) := by
          rw [← hr]; rfl
        obtain ⟨t, ht⟩ := substring_swapped_head _ _ (s + 14) e '_' hlt hd
        rw [ht]
        exact hrej t
      · exfalso
        have hsplit := split_at_occurrence START_MARKER (st.buffer ++ c) s hs1
        rw [START_MARKER_length] at hsplit
        have hinf : END_MARKER <:+: (st.buffer ++ c).drop (s + 14) := by
          have : (st.buffer ++ c).drop e =
              ((st.buffer ++ c).drop (s + 14)).drop (e - (s + 14)) := by
            rw [List.drop_drop]; congr 1; omega
          rw [this] at he1
          exact he1.isInfix.trans (List.drop_suffix _ _).isInfix
        apply hno (st.fullText ++ (st.buffer ++ c).take s)
          ((st.buffer ++ c).drop (s + 14) ++ rest)
        · conv_lhs => rw [hsplit]
          simp [List.append_assoc]
        · exact hinf.trans ⟨[], rest, by simp⟩
    rw [hstuck]
    exact ⟨rfl, rfl⟩

theorem runFrom_unterminated {J : Type} (h : JsonHost J)
    (hrej : ∀ s, h.parse ('_' :: s) = none)
    (cs : List (List Char)) (st : DecoderState J)
    (hno : NoEndAfterStart (st.fullText ++ st.buffer ++ cs.flatten)) :
    (runFrom h st cs).fullText ++ (runFrom h st cs).buffer =
        st.fullText ++ st.buffer ++ cs.flatten ∧
      payloadsOf (runFrom h st cs).events = payloadsOf st.events := by
  induction cs generalizing st with
  | nil => simp [runFrom]
  | cons c cs ih =>
    rw [runFrom_cons]
    have hno2 : NoEndAfterStart (st.fullText ++ (st.buffer ++ c) ++ cs.flatten) := by
      simpa [List.flatten_cons, List.append_assoc] using hno
    obtain ⟨h1, h2⟩ := step_unterminated h hrej st c cs.flatten hno2
    have hno3 : NoEndAfterStart
        ((step h st c).fullText ++ (step h st c).buffer ++ cs.flatten) := by
      rw [h1]; exact hno2
    obtain ⟨h3, h4⟩ := ih (step h st c) hno3
    refine ⟨?_, h4.trans h2⟩
    rw [h3, h1]
    simp [List.flatten_cons, List.append_assoc]

theorem runFrom_stuck {J : Type} (h : JsonHost J) (cs : List (List Char))
    (st : DecoderState J) (s : Nat)
    (hs : indexOf START_MARKER st.buffer = some s)
    (hp : ∀ e, indexOf END_MARKER (st.buffer ++ cs.flatten) = some e →
      h.parse (substring (st.buffer ++ cs.flatten) (s + 14) e) = none) :
    runFrom h st cs = { st with buffer := st.buffer ++ cs.flatten } := by
  induction cs generalizing st with
  | nil =>
    cases st
    simp [runFrom]
  | cons c cs ih =>
    rw [runFrom_cons]
    have hs2 : indexOf START_MARKER (st.buffer ++ c) = some s :=
      indexOf_append_of_some _ _ _ _ hs
    have hstep : step h st c = { st with buffer := st.buffer ++ c } := by
      apply step_stuck h st c s hs2
      intro e he
      have he2 : indexOf END_MARKER (st.buffer ++ (c :: cs).flatten) = some e := by
        rw [List.flatten_cons, ← List.append_assoc]
        exact indexOf_append_of_some _ _ _ _ he
      have hpe := hp e he2
      rw [List.flatten_cons, ← List.append_assoc] at hpe
      have b1 := indexOf_some_bound _ _ _ hs2
      have b2 := indexOf_some_bound _ _ _ he
      rw [START_MARKER_length] at b1
      rw [substring_append_left _ _ _ _ b1 (by omega)] at hpe
      exact hpe
    rw [hstep]
    rw [ih { st with buffer := st.buffer ++ c } hs2
      (by simpa [List.flatten_cons, List.append_assoc] using hp)]
    simp [List.flatten_cons, List.append_assoc]

theorem shape_parts (a j b : List Char) :
    (a ++ START_MARKER ++ j ++ END_MARKER ++ b).take a.length = a ∧
    substring (a ++ START_MARKER ++ j ++ END_MARKER ++ b)
      (a.length + 14) (a.length + 14 + j.length) = j ∧
    (a ++ START_MARKER ++ j ++ END_MARKER ++ b).drop (a.length + 14 + j.length + 12) = b := by
  refine ⟨?_, ?_, ?_⟩
  · simp [List.append_assoc, List.take_left']
  · rw [substring_of_le _ _ _ (Nat.le_add_right _ _)]
    have e1 : a ++ START_MARKER ++ j ++ END_MARKER ++ b =
        (a ++ START_MARKER ++ j) ++ (END_MARKER ++ b) := by simp [List.append_assoc]
    have l1 : (a ++ START_MARKER ++ j).length = a.length + 14 + j.length := by
      rw [List.length_append, List.length_append, START_MARKER_length]
    rw [e1, ← l1, List.take_left']
    · have e2 : a ++ START_MARKER ++ j = (a ++ START_MARKER) ++ j := rfl
      have l2 : (a ++ START_MARKER).length = a.length + 14 := by
        simp [START_MARKER_length]
      rw [e2, ← l2, List.drop_left']
      rfl
    · rfl
  · have e1 : a ++ START_MARKER ++ j ++ END_MARKER ++ b =
        (a ++ START_MARKER ++ j ++ END_MARKER) ++ b := rfl
    have l1 : (a ++ START_MARKER ++ j ++ END_MARKER).length =
        a.length + 14 + j.length + 12 := by
      rw [List.length_append, List.length_append, List.length_append,
        START_MARKER_length, END_MARKER_length]
    rw [e1, ← l1, List.drop_left']
    rfl


theorem literalHost_rejects_underscore (s : List Char) :
    literalHost.parse ('_' :: s) = none := by
  have h1 : ('_' :: s) ≠ "null".toList := by
    intro hc
    have := List.head_eq_of_cons_eq hc
    exact absurd this (by decide)
  have h2 : readDigits ('_' :: s) = none := by
    have : Char.isDigit '_' = false := by decide
    simp [readDigits, this]
  simp [literalHost, h1, h2]

theorem noEndAfterStart_of_no_end (t : List Char)
    (h : indexOf END_MARKER t = none) : NoEndAfterStart t := by
  intro x y hxy hinf
  apply (indexOf_none_iff _ _).mp h
  rw [hxy]
  exact hinf.trans (List.suffix_append _ _).isInfix

/-! ## The decoding loop -/

/-- C1 (amended): chunk-boundary independence holds for text without a
complete `__JSON_START__` marker. For every such text and any two ways of
splitting it into chunks, the loop ends with the same display text, which is
the text itself, and with the same payloads, namely none. -/
theorem chunking_independent_on_marker_free_text {J : Type} (h : JsonHost J)
    (text : List Char) (cs1 cs2 : List (List Char))
    (h1 : cs1.flatten = text) (h2 : cs2.flatten = text)
    (hfree : ¬ START_MARKER <:+: text) :
    (sendMessage h cs1).fullText = (sendMessage h cs2).fullText ∧
      payloadsOf (sendMessage h cs1).events = payloadsOf (sendMessage h cs2).events ∧
      (sendMessage h cs1).fullText = text ∧
      payloadsOf (sendMessage h cs1).events = [] := by
  have r1 := runFrom_without_start h cs1 (DecoderState.init J) rfl (h1 ▸ hfree)
  have r2 := runFrom_without_start h cs2 (DecoderState.init J) rfl (h2 ▸ hfree)
  simp only [sendMessage, r1, r2]
  simp [DecoderState.init, h1, h2, payloadsOf_map_textDelta]

/-- The amended C1 at the text `hello`, whole and split after two characters. -/
theorem chunking_independent_on_marker_free_text_witness :
    (sendMessage literalHost ["hello".toList]).fullText =
        (sendMessage literalHost ["he".toList, "llo".toList]).fullText ∧
      payloadsOf (sendMessage literalHost ["hello".toList]).events =
        payloadsOf (sendMessage literalHost ["he".toList, "llo".toList]).events ∧
      (sendMessage literalHost ["hello".toList]).fullText = "hello".toList ∧
      payloadsOf (sendMessage literalHost ["hello".toList]).events = [] :=
  chunking_independent_on_marker_free_text literalHost "hello".toList
    ["hello".toList] ["he".toList, "llo".toList] (by decide) (by decide)
    ((indexOf_none_iff _ _).mp (by decide))

/-- C1 as stated fails: the text `a__JSON_START__1__JSON_END__` delivered in
one chunk ends with display text `a` and the payload `1`; split inside the
START marker it ends with the whole text displayed and no payload. -/
theorem chunking_changes_result :
    ["a__JSON_START__1__JSON_END__".toList].flatten =
        ["a__JSON_".toList, "START__1__JSON_END__".toList].flatten ∧
      (sendMessage literalHost ["a__JSON_START__1__JSON_END__".toList]).fullText =
        "a".toList ∧
      (sendMessage literalHost
          ["a__JSON_".toList, "START__1__JSON_END__".toList]).fullText =
        "a__JSON_START__1__JSON_END__".toList ∧
      payloadsOf (sendMessage literalHost
          ["a__JSON_START__1__JSON_END__".toList]).events = [JsonLit.number 1] ∧
      payloadsOf (sendMessage literalHost
          ["a__JSON_".toList, "START__1__JSON_END__".toList]).events = [] := by
  decide

/-- C2 (amended): when the START marker is split across two consecutive
chunks `x ++ p` and `q ++ y` (`p ++ q` is the marker), neither chunk holds a
complete START marker and the buffer was empty before them, the loop emits
no payload for them and appends both chunks, every character of the marker
included, to the display text; the buffer is empty afterwards. -/
theorem split_start_marker_is_shown_as_text {J : Type} (h : JsonHost J)
    (pre : List (List Char)) (x p q y : List Char)
    (hbuf : (sendMessage h pre).buffer = [])
    (hpq : p ++ q = START_MARKER)
    (h1 : ¬ START_MARKER <:+: x ++ p) (h2 : ¬ START_MARKER <:+: q ++ y) :
    (sendMessage h (pre ++ [x ++ p, q ++ y])).fullText =
        (sendMessage h pre).fullText ++ x ++ START_MARKER ++ y ∧
      (sendMessage h (pre ++ [x ++ p, q ++ y])).buffer = [] ∧
      payloadsOf (sendMessage h (pre ++ [x ++ p, q ++ y])).events =
        payloadsOf (sendMessage h pre).events := by
  have hs1 : indexOf START_MARKER ((sendMessage h pre).buffer ++ (x ++ p)) = none := by
    rw [hbuf, List.nil_append]
    exact (indexOf_none_iff _ _).mpr h1
  have hs2 : indexOf START_MARKER
      ((step h (sendMessage h pre) (x ++ p)).buffer ++ (q ++ y)) = none := by
    rw [step_without_start h _ _ hs1]
    exact (indexOf_none_iff _ _).mpr h2
  have hrun : sendMessage h (pre ++ [x ++ p, q ++ y]) =
      step h (step h (sendMessage h pre) (x ++ p)) (q ++ y) := by
    simp only [sendMessage, runFrom_append]
    rfl
  rw [hrun, step_without_start h _ _ hs2, step_without_start h _ _ hs1]
  refine ⟨?_, rfl, ?_⟩
  · simp only [hbuf, List.nil_append, List.append_assoc, ← hpq]
  · simp [payloadsOf_append, payloadsOf]

/-- The amended C2 at the chunks `x__JSON_ST` and `ART__7__JSON_END__`. -/
theorem split_start_marker_is_shown_as_text_witness :
    (sendMessage literalHost
        ([] ++ ["x".toList ++ "__JSON_ST".toList,
          "ART__".toList ++ "7__JSON_END__".toList])).fullText =
        (sendMessage literalHost []).fullText ++ "x".toList ++ START_MARKER ++
          "7__JSON_END__".toList ∧
      (sendMessage literalHost
        ([] ++ ["x".toList ++ "__JSON_ST".toList,
          "ART__".toList ++ "7__JSON_END__".toList])).buffer = [] ∧
      payloadsOf (sendMessage literalHost
        ([] ++ ["x".toList ++ "__JSON_ST".toList,
          "ART__".toList ++ "7__JSON_END__".toList])).events =
        payloadsOf (sendMessage literalHost []).events :=
  split_start_marker_is_shown_as_text literalHost [] "x".toList "__JSON_ST".toList
    "ART__".toList "7__JSON_END__".toList (by decide) (by decide)
    ((indexOf_none_iff _ _).mp (by decide)) ((indexOf_none_iff _ _).mp (by decide))

/-- C2 as stated fails: with the chunks `x__JSON_ST` and `ART__7__JSON_END__`
the first ends with a proper prefix of the START marker, the second begins
with the rest and carries the parsable span `7` and the END marker; the loop
emits no payload and the display text holds the marker characters. -/
theorem split_start_marker_leaks :
    literalHost.parse "7".toList = some (JsonLit.number 7) ∧
      payloadsOf (sendMessage literalHost
        ["x__JSON_ST".toList, "ART__7__JSON_END__".toList]).events = [] ∧
      (sendMessage literalHost
        ["x__JSON_ST".toList, "ART__7__JSON_END__".toList]).fullText =
        "x__JSON_START__7__JSON_END__".toList := by
  decide

/-- C3 as stated fails: the single chunk `a__JSON_START__b` holds the START
marker and no END marker; at stream end the display text is empty and the
whole chunk is still in the buffer. -/
theorem unterminated_payload_not_flushed :
    indexOf START_MARKER ["a__JSON_START__b".toList].flatten = some 1 ∧
      indexOf END_MARKER ["a__JSON_START__b".toList].flatten = none ∧
      (sendMessage literalHost ["a__JSON_START__b".toList]).fullText = [] ∧
      (sendMessage literalHost ["a__JSON_START__b".toList]).buffer =
        "a__JSON_START__b".toList := by
  decide


/-- A malformed payload blocks the loop. Let the chunks `pre` hold no START
marker, let the next chunk `c` hold a whole START marker, the first one right
after its text `a2`, and let the stream from `c` on be
`a2 ++ START ++ j ++ END ++ b` with the first END marker right after a span
`j` that fails to parse. Then the loop emits no payload and never appends the
span, and it ends with display text equal to the chunks before `c` only: the
text `a2`, the span and the text `b` all stay in the buffer. -/
theorem malformed_payload_blocks_buffer {J : Type} (h : JsonHost J)
    (pre post : List (List Char)) (c a2 j b : List Char)
    (hpre : ¬ START_MARKER <:+: pre.flatten)
    (hs : indexOf START_MARKER c = some a2.length)
    (htotal : c ++ post.flatten = a2 ++ START_MARKER ++ j ++ END_MARKER ++ b)
    (he : indexOf END_MARKER (c ++ post.flatten) = some (a2.length + 14 + j.length))
    (hbad : h.parse j = none) :
    (sendMessage h (pre ++ c :: post)).fullText = pre.flatten ∧
      (sendMessage h (pre ++ c :: post)).buffer =
        a2 ++ START_MARKER ++ j ++ END_MARKER ++ b ∧
      payloadsOf (sendMessage h (pre ++ c :: post)).events = [] := by
  have hrun : sendMessage h (pre ++ c :: post) =
      runFrom h (sendMessage h pre) (c :: post) := by
    simp only [sendMessage, runFrom_append]
  have hpre2 : sendMessage h pre = ⟨pre.flatten, [], pre.map StreamEvent.textDelta⟩ := by
    have := runFrom_without_start h pre (DecoderState.init J) rfl hpre
    simpa [sendMessage, DecoderState.init] using this
  have hjs : substring (a2 ++ START_MARKER ++ j ++ END_MARKER ++ b)
      (a2.length + 14) (a2.length + 14 + j.length) = j := (shape_parts a2 j b).2.1
  have hfail : ∀ e, indexOf END_MARKER (c ++ post.flatten) = some e →
      h.parse (substring (c ++ post.flatten) (a2.length + 14) e) = none := by
    intro e he2
    have hee : e = a2.length + 14 + j.length := by
      rw [he] at he2
      exact (Option.some.inj he2).symm
    rw [htotal, hee, hjs]
    exact hbad
  have hs1 : indexOf START_MARKER (([] : List Char) ++ c) = some a2.length := by
    simpa using hs
  have hstep : step h ⟨pre.flatten, [], pre.map StreamEvent.textDelta⟩ c =
      ⟨pre.flatten, c, pre.map StreamEvent.textDelta⟩ := by
    rw [step_stuck h _ c a2.length hs1]
    · simp
    · intro e he1
      have he2 : indexOf END_MARKER (c ++ post.flatten) = some e :=
        indexOf_append_of_some _ _ post.flatten _ (by simpa using he1)
      have b1 := indexOf_some_bound _ _ _ hs
      have b2 := indexOf_some_bound _ _ _ he2
      have b3 : e + END_MARKER.length ≤ c.length :=
        indexOf_some_bound _ _ _ (by simpa using he1)
      rw [START_MARKER_length] at b1
      have := substring_append_left c post.flatten (a2.length + 14) e b1 (by omega)
      simp only [List.nil_append]
      rw [← this]
      exact hfail e he2
  have hall : runFrom h (sendMessage h pre) (c :: post) =
      ⟨pre.flatten, c ++ post.flatten, pre.map StreamEvent.textDelta⟩ := by
    rw [runFrom_cons, hpre2, hstep]
    exact runFrom_stuck h post ⟨pre.flatten, c, pre.map StreamEvent.textDelta⟩
      a2.length hs hfail
  rw [hrun, hall]
  exact ⟨rfl, htotal, payloadsOf_map_textDelta pre⟩

/-- The blocked loop at the chunks `hi `, `a__JSON_START__x`, `y__JSON_END__b`. -/
theorem malformed_payload_blocks_buffer_witness :
    (sendMessage literalHost (["hi ".toList] ++
        "a__JSON_START__x".toList :: ["y__JSON_END__b".toList])).fullText =
        ["hi ".toList].flatten ∧
      (sendMessage literalHost (["hi ".toList] ++
        "a__JSON_START__x".toList :: ["y__JSON_END__b".toList])).buffer =
        "a".toList ++ START_MARKER ++ "xy".toList ++ END_MARKER ++ "b".toList ∧
      payloadsOf (sendMessage literalHost (["hi ".toList] ++
        "a__JSON_START__x".toList :: ["y__JSON_END__b".toList])).events = [] :=
  malformed_payload_blocks_buffer literalHost ["hi ".toList] ["y__JSON_END__b".toList]
    "a__JSON_START__x".toList "a".toList "xy".toList "b".toList
    ((indexOf_none_iff _ _).mp (by decide)) (by decide) (by decide) (by decide)
    (by decide)

/-- C4, the code at the failing input: the single chunk
`a__JSON_START__x__JSON_END__b` (texts `a` and `b` around the unparsable span
`x`) emits no payload and ends with an empty display text, not with `ab`;
the whole chunk is left in the buffer. -/
theorem malformed_payload_hides_text :
    literalHost.parse "x".toList = none ∧
      (sendMessage literalHost ["a__JSON_START__x__JSON_END__b".toList]).fullText = [] ∧
      (sendMessage literalHost ["a__JSON_START__x__JSON_END__b".toList]).buffer =
        "a__JSON_START__x__JSON_END__b".toList ∧
      payloadsOf (sendMessage literalHost
        ["a__JSON_START__x__JSON_END__b".toList]).events = [] := by
  decide

/-- C5 as stated fails: after the first chunk `a__JSON_START__` the buffer
holds the START marker and no END marker, and the text `a` that precedes the
marker has not been appended: the display text is empty. -/
theorem text_before_start_not_appended :
    indexOf START_MARKER
        (step literalHost (DecoderState.init JsonLit) "a__JSON_START__".toList).buffer =
        some 1 ∧
      indexOf END_MARKER
        (step literalHost (DecoderState.init JsonLit) "a__JSON_START__".toList).buffer =
        none ∧
      (step literalHost (DecoderState.init JsonLit) "a__JSON_START__".toList).fullText =
        [] := by
  decide

/-- C6 (amended): whenever, after appending a chunk, the buffer has the shape
`a ++ START ++ j ++ END ++ b` where the first START marker of the buffer is
the one right after `a`, the first END marker is the one right after `j`,
and `j` parses to a value on which the rendering block does not throw, that
iteration appends exactly `a` to the display text, yields exactly one payload,
the parse of `j`, and leaves exactly `b` in the buffer. -/
theorem well_formed_payload_extraction {J : Type} (h : JsonHost J)
    (st : DecoderState J) (chunk a j b : List Char) (v : J)
    (hshape : st.buffer ++ chunk = a ++ START_MARKER ++ j ++ END_MARKER ++ b)
    (hs : indexOf START_MARKER (st.buffer ++ chunk) = some a.length)
    (he : indexOf END_MARKER (st.buffer ++ chunk) = some (a.length + 14 + j.length))
    (hp : h.parse j = some v) (hr : h.renderThrows v = false) :
    step h st chunk =
      { fullText := st.fullText ++ a
        buffer := b
        events := st.events ++
          [StreamEvent.textDelta a, StreamEvent.structuredPayload v] } := by
  obtain ⟨p1, p2, p3⟩ := shape_parts a j b
  have hp2 : h.parse (substring (st.buffer ++ chunk) (a.length + 14)
      (a.length + 14 + j.length)) = some v := by
    rw [hshape, p2]; exact hp
  rw [step_payload h st chunk _ _ v hs he hp2 hr, hshape, p1, p3]

/-- The amended C6 at the buffer `ab__JSON_START__42__JSON_END__cd`. -/
theorem well_formed_payload_extraction_witness :
    step literalHost (DecoderState.init JsonLit)
        "ab__JSON_START__42__JSON_END__cd".toList =
      { fullText := (DecoderState.init JsonLit).fullText ++ "ab".toList
        buffer := "cd".toList
        events := (DecoderState.init JsonLit).events ++
          [StreamEvent.textDelta "ab".toList,
           StreamEvent.structuredPayload (JsonLit.number 42)] } :=
  well_formed_payload_extraction literalHost (DecoderState.init JsonLit)
    "ab__JSON_START__42__JSON_END__cd".toList "ab".toList "42".toList "cd".toList
    (JsonLit.number 42) (by decide) (by decide) (by decide) (by decide) (by decide)

/-- C6 as stated fails: with `a = __JSON_START`, which holds neither marker,
`j = 1` and `b` empty, the first END marker of the buffer is the one right
after `j` and `j` parses, yet the first START marker of the buffer begins at
index 0; the span handed to the parser is `JSON_START__1`, nothing is
appended, no payload is yielded and the buffer is kept whole. -/
theorem overlapping_start_blocks_extraction :
    indexOf START_MARKER "__JSON_START".toList = none ∧
      indexOf END_MARKER "__JSON_START".toList = none ∧
      indexOf END_MARKER
          ("__JSON_START".toList ++ START_MARKER ++ "1".toList ++ END_MARKER ++ []) =
        some ("__JSON_START".toList.length + 14 + "1".toList.length) ∧
      literalHost.parse "1".toList = some (JsonLit.number 1) ∧
      step literalHost (DecoderState.init JsonLit)
          ("__JSON_START".toList ++ START_MARKER ++ "1".toList ++ END_MARKER ++ []) =
        { fullText := []
          buffer := "__JSON_START__JSON_START__1__JSON_END__".toList
          events := [] } := by
  decide

/-- C7, the code at the failing input: after the chunks `hi ` and
`a__JSON_START__1__JSON_END__b` the display text is `hi a` and the text `b`
that followed the END marker is left in the buffer when the stream ends. -/
theorem text_after_final_payload_is_lost :
    (sendMessage literalHost
        ["hi ".toList, "a__JSON_START__1__JSON_END__b".toList]).fullText =
        "hi a".toList ∧
      (sendMessage literalHost
        ["hi ".toList, "a__JSON_START__1__JSON_END__b".toList]).buffer = "b".toList ∧
      payloadsOf (sendMessage literalHost
        ["hi ".toList, "a__JSON_START__1__JSON_END__b".toList]).events =
        [JsonLit.number 1] := by
  decide


/-! ## Risk scores -/

theorem orDefault_zero (x : Option ℚ) : orDefault x 0 = x.getD 0 := by
  cases x with
  | none => rfl
  | some q =>
    by_cases hq : q = 0
    · simp [orDefault, hq]
    · simp [orDefault, hq]

theorem mathRound_eq_round (x : ℚ) : mathRound x = round x := by
  rw [round_eq]; rfl

/-- C9, the code at the failing input: the record `{current_ratio: 0,
beta: 0, debt_equity: 6, ownership: 0}` has the numeric beta 0, for which
`round (clamp 0 100 (0 * 50))` is 0, and its market risk is 50, the value
of the fallback beta 1, in exact arithmetic and in binary64 alike. -/
theorem market_risk_of_zero_beta :
    parseFloat scanNothing (numericMetrics 0 0 6 0).beta = some 0 ∧
      round (max (0 : ℚ) (min 100 (0 * 50))) = 0 ∧
      (calculateRiskScores scanNothing (numericMetrics 0 0 6 0)).market_risk = 50 ∧
      Binary64.parseFloat Binary64.scanNothing (numericMetrics 0 0 6 0).beta =
        Number.finite 0 ∧
      (Binary64.calculateRiskScores Binary64.scanNothing
        (numericMetrics 0 0 6 0)).market_risk = Number.finite 50 := by
  refine ⟨rfl, by norm_num, ?_, by decide!, by decide!⟩
  norm_num [calculateRiskScores, numericMetrics, parseFloat, orDefault, mathRound]

theorem mathRound_bounds (y : ℚ) (h0 : 0 ≤ y) (h1 : y ≤ 100) :
    0 ≤ mathRound y ∧ mathRound y ≤ 100 := by
  unfold mathRound
  constructor
  · apply Int.floor_nonneg.mpr
    linarith
  · have : ⌊y + 1 / 2⌋ < 101 := by
      apply Int.floor_lt.mpr
      push_cast
      linarith
    omega

theorem clamp_bounds (x : ℚ) : 0 ≤ max 0 (min 100 x) ∧ max 0 (min 100 x) ≤ 100 :=
  ⟨le_max_left _ _, max_le (by norm_num) (min_le_left _ _)⟩

/-- C12: for every metrics record, whatever its four fields hold, each of
the four values returned by `calculateRiskScores` is an integer between 0
and 100. -/
theorem risk_scores_in_range (scan : List Char → Option ℚ) (m : Metrics) :
    (0 ≤ (calculateRiskScores scan m).liquidity_risk ∧
        (calculateRiskScores scan m).liquidity_risk ≤ 100) ∧
      (0 ≤ (calculateRiskScores scan m).market_risk ∧
        (calculateRiskScores scan m).market_risk ≤ 100) ∧
      (0 ≤ (calculateRiskScores scan m).credit_risk ∧
        (calculateRiskScores scan m).credit_risk ≤ 100) ∧
      (0 ≤ (calculateRiskScores scan m).governance_risk ∧
        (calculateRiskScores scan m).governance_risk ≤ 100) := by
  simp only [calculateRiskScores]
  exact ⟨mathRound_bounds _ (clamp_bounds _).1 (clamp_bounds _).2,
    mathRound_bounds _ (clamp_bounds _).1 (clamp_bounds _).2,
    mathRound_bounds _ (clamp_bounds _).1 (clamp_bounds _).2,
    mathRound_bounds _ (clamp_bounds _).1 (clamp_bounds _).2⟩

/-- C13: for every metrics record in which each of `current_ratio`, `beta`,
`debt_equity` and `ownership` parses to no number (absent, `null`, or a
string without a number), `calculateRiskScores` returns liquidity 100,
market 50, credit 0 and governance 100. -/
theorem risk_scores_of_missing_fields (scan : List Char → Option ℚ) (m : Metrics)
    (hcr : parseFloat scan m.current_ratio = none)
    (hbeta : parseFloat scan m.beta = none)
    (hde : parseFloat scan m.debt_equity = none)
    (hown : parseFloat scan m.ownership = none) :
    calculateRiskScores scan m =
      { liquidity_risk := 100, market_risk := 50, credit_risk := 0,
        governance_risk := 100 } := by
  simp only [calculateRiskScores, hcr, hbeta, hde, hown, orDefault, mathRound]
  norm_num

/-- C13 at the record whose four fields are absent, `null`, the string
`n/a` and the empty string. -/
theorem risk_scores_of_missing_fields_witness :
    calculateRiskScores scanNothing
        { current_ratio := JSValue.undefined, beta := JSValue.null,
          debt_equity := JSValue.string "n/a".toList,
          ownership := JSValue.string [], others := [] } =
      { liquidity_risk := 100, market_risk := 50, credit_risk := 0,
        governance_risk := 100 } :=
  risk_scores_of_missing_fields scanNothing _ rfl rfl rfl rfl

/-- C14: two metrics records that agree on `current_ratio`, `beta`,
`debt_equity` and `ownership` get the same scores from `calculateRiskScores`,
whatever their other fields hold. -/
theorem risk_scores_depend_on_four_fields (scan : List Char → Option ℚ)
    (m1 m2 : Metrics)
    (hcr : m1.current_ratio = m2.current_ratio) (hbeta : m1.beta = m2.beta)
    (hde : m1.debt_equity = m2.debt_equity) (hown : m1.ownership = m2.ownership) :
    calculateRiskScores scan m1 = calculateRiskScores scan m2 := by
  simp only [calculateRiskScores, hcr, hbeta, hde, hown]

/-- C14 at two records that differ in their other fields only. -/
theorem risk_scores_depend_on_four_fields_witness :
    calculateRiskScores scanNothing (numericMetrics 1.5 1 0 20) =
      calculateRiskScores scanNothing
        { numericMetrics 1.5 1 0 20 with
          others := [("ticker".toList, JSValue.string "ACME".toList)] } :=
  risk_scores_depend_on_four_fields scanNothing _ _ rfl rfl rfl rfl

/-- C15: for a score that parses to the number `s`, `getColorByScore` is
`#10b981` when `s ≤ 40`, `#f59e0b` when `40 < s ≤ 70` and `#ef4444` when
`s > 70`; for an input that parses to no number it is `#94a3b8`. -/
theorem getColorByScore_buckets (scan : List Char → Option ℚ) (score : JSValue) :
    (∀ s : ℚ, parseFloat scan score = some s → s ≤ 40 →
        getColorByScore scan score = "#10b981".toList) ∧
      (∀ s : ℚ, parseFloat scan score = some s → 40 < s → s ≤ 70 →
        getColorByScore scan score = "#f59e0b".toList) ∧
      (∀ s : ℚ, parseFloat scan score = some s → 70 < s →
        getColorByScore scan score = "#ef4444".toList) ∧
      (parseFloat scan score = none →
        getColorByScore scan score = "#94a3b8".toList) := by
  refine ⟨?_, ?_, ?_, ?_⟩
  · intro s hs h40
    simp only [getColorByScore, hs, h40, if_true]
  · intro s hs h40 h70
    simp only [getColorByScore, hs, not_le.mpr h40, h70, if_true, if_false]
  · intro s hs h70
    have h40 : ¬ s ≤ 40 := by
      intro h; linarith
    simp only [getColorByScore, hs, h40, not_le.mpr h70, if_false]
  · intro hn
    simp only [getColorByScore, hn]

/-- C15 at the score 55, in the middle bucket. -/
theorem getColorByScore_buckets_witness :
    getColorByScore scanNothing (JSValue.number 55) = "#f59e0b".toList :=
  (getColorByScore_buckets scanNothing (JSValue.number 55)).2.1 55 rfl
    (by norm_num) (by norm_num)

/-- C16: the bar colour of a stability score `v` is `#10b981` when `v ≥ 60`,
`#f59e0b` when `40 ≤ v < 60` and `#ef4444` when `v < 40`. -/
theorem backgroundColor_buckets (v : ℚ) :
    (60 ≤ v → backgroundColor v = "#10b981".toList) ∧
      (40 ≤ v → v < 60 → backgroundColor v = "#f59e0b".toList) ∧
      (v < 40 → backgroundColor v = "#ef4444".toList) := by
  refine ⟨?_, ?_, ?_⟩
  · intro h60
    simp only [backgroundColor, ge_iff_le, h60, if_true]
  · intro h40 h60
    simp only [backgroundColor, ge_iff_le, not_le.mpr h60, h40, if_true, if_false]
  · intro h40
    have h60 : ¬ (60 : ℚ) ≤ v := by
      intro h; linarith
    simp only [backgroundColor, ge_iff_le, h60, not_le.mpr h40, if_false]

/-- C16 at the stability score 45, in the warning bucket. -/
theorem backgroundColor_buckets_witness :
    backgroundColor 45 = "#f59e0b".toList :=
  (backgroundColor_buckets 45).2.1 (by norm_num) (by norm_num)


theorem two_slope_lower (x t : ℚ) (ht : 0 < t) :
    5 ≤ (if x ≤ t then 60 + ((t - x) / t) * 40 else max 5 (60 - ((x - t) / t) * 60)) := by
  split_ifs with h
  · have : 0 ≤ (t - x) / t := div_nonneg (by linarith) (le_of_lt ht)
    linarith
  · exact le_max_left _ _

theorem two_slope_upper (x t : ℚ) (ht : 0 < t) (hx : 0 ≤ x) :
    (if x ≤ t then 60 + ((t - x) / t) * 40 else max 5 (60 - ((x - t) / t) * 60)) ≤ 100 := by
  split_ifs with h
  · have : (t - x) / t ≤ 1 := by
      rw [div_le_one ht]
      linarith
    linarith
  · have : 0 ≤ (x - t) / t := div_nonneg (by linarith) (le_of_lt ht)
    exact max_le (by norm_num) (by linarith)

/-- C17, the code at the failing input: the record `{current_ratio: 1,
beta: 1, debt_equity: -1, ownership: 10}` has `deScore` 120, outside
[5, 100]; the branch for a debt-to-equity of at most 2.0 has no upper
clamp. -/
theorem stability_score_above_range :
    (drawStabilityBenchmarking scanNothing (numericMetrics 1 1 (-1) 10)).deScore = 120 ∧
      ¬ (drawStabilityBenchmarking scanNothing (numericMetrics 1 1 (-1) 10)).deScore
        ≤ 100 := by
  decide!

/-- C18: each stability score is exactly 60 at its reference value:
`crScore` at current ratio 1.2, `deScore` at debt-to-equity 2.0, `betaScore`
at beta 1.3 and `ownScore` at ownership 10. -/
theorem stability_scores_at_target (scan : List Char → Option ℚ) (m : Metrics) :
    (parseFloat scan m.current_ratio = some 1.2 →
        (drawStabilityBenchmarking scan m).crScore = 60) ∧
      (parseFloat scan m.debt_equity = some 2.0 →
        (drawStabilityBenchmarking scan m).deScore = 60) ∧
      (parseFloat scan m.beta = some 1.3 →
        (drawStabilityBenchmarking scan m).betaScore = 60) ∧
      (parseFloat scan m.ownership = some 10 →
        (drawStabilityBenchmarking scan m).ownScore = 60) := by
  refine ⟨?_, ?_, ?_, ?_⟩
  · intro h
    simp only [drawStabilityBenchmarking, h, orDefault]
    norm_num
  · intro h
    simp only [drawStabilityBenchmarking, h, orDefault]
    norm_num
  · intro h
    simp only [drawStabilityBenchmarking, h, orDefault]
    norm_num
  · intro h
    simp only [drawStabilityBenchmarking, h, orDefault]
    norm_num

/-- C18 at the record `{current_ratio: 1.2, beta: 1.3, debt_equity: 2,
ownership: 10}`: the beta score is 60. -/
theorem stability_scores_at_target_witness :
    (drawStabilityBenchmarking scanNothing (numericMetrics 1.2 1.3 2 10)).betaScore = 60 :=
  (stability_scores_at_target scanNothing (numericMetrics 1.2 1.3 2 10)).2.2.1 rfl

/-- C19 (amended): for every metrics record whose beta parses to no number,
the two consumers substitute different values: `drawStabilityBenchmarking`
takes beta 0, which gives the beta score 100, and `calculateRiskScores` takes
beta 1, which gives the market risk 50. -/
theorem beta_fallbacks_differ (scan : List Char → Option ℚ) (m : Metrics)
    (hbeta : parseFloat scan m.beta = none) :
    (drawStabilityBenchmarking scan m).beta = 0 ∧
      calculateRiskScores_beta scan m = 1 ∧
      (drawStabilityBenchmarking scan m).betaScore = 100 ∧
      (calculateRiskScores scan m).market_risk =
        mathRound (max 0 (min 100 (calculateRiskScores_beta scan m * 50))) ∧
      (calculateRiskScores scan m).market_risk = 50 := by
  refine ⟨?_, ?_, ?_, rfl, ?_⟩
  · simp only [drawStabilityBenchmarking, hbeta, orDefault]
  · simp only [calculateRiskScores_beta, hbeta, orDefault]
  · simp only [drawStabilityBenchmarking, hbeta, orDefault]
    norm_num
  · simp only [calculateRiskScores, hbeta, orDefault, mathRound]
    norm_num

/-- The amended C19 at a record without beta. -/
theorem beta_fallbacks_differ_witness :
    (drawStabilityBenchmarking scanNothing
        { numericMetrics 1 1 1 1 with beta := JSValue.undefined }).beta = 0 ∧
      calculateRiskScores_beta scanNothing
        { numericMetrics 1 1 1 1 with beta := JSValue.undefined } = 1 :=
  ⟨(beta_fallbacks_differ scanNothing
      { numericMetrics 1 1 1 1 with beta := JSValue.undefined } rfl).1,
    (beta_fallbacks_differ scanNothing
      { numericMetrics 1 1 1 1 with beta := JSValue.undefined } rfl).2.1⟩

/-- C19 as stated fails: for the record `{current_ratio: 2, debt_equity: 1,
ownership: 5}` without beta, `drawStabilityBenchmarking` substitutes beta 0,
not the value 1 that `calculateRiskScores` substitutes. -/
theorem stability_beta_fallback_is_zero :
    parseFloat scanNothing
        { numericMetrics 2 1 1 5 with beta := JSValue.undefined }.beta = none ∧
      (drawStabilityBenchmarking scanNothing
        { numericMetrics 2 1 1 5 with beta := JSValue.undefined }).beta = 0 ∧
      calculateRiskScores_beta scanNothing
        { numericMetrics 2 1 1 5 with beta := JSValue.undefined } = 1 ∧
      (drawStabilityBenchmarking scanNothing
        { numericMetrics 2 1 1 5 with beta := JSValue.undefined }).beta ≠
      calculateRiskScores_beta scanNothing
        { numericMetrics 2 1 1 5 with beta := JSValue.undefined } := by
  decide!

/-- C20, the code at the failing input: the number `1e-7` has magnitude
below 2 and `String` writes it `1e-7`; the replace leaves `1-7`, which
`parseFloat` reads as 1, and `formatPercent` returns `100.0%`, whereas 100
times the value rendered to one decimal place is `0.0`. The number 0.137,
written `0.137`, gives `13.7%`. -/
theorem formatPercent_of_exponent_notation :
    |(1 / 10000000 : ℚ)| < 2 ∧
      decimalToString (1 / 10000000) = "1e-7".toList ∧
      stripNonNumeric (toStr decimalToString (JSValue.number (1 / 10000000))) =
        "1-7".toList ∧
      scanDecimal "1-7".toList = some 1 ∧
      formatPercent decimalToString (JSValue.number (1 / 10000000)) false =
        "100.0%".toList ∧
      toFixed (100 * (1 / 10000000)) 1 ++ "%".toList = "0.0%".toList ∧
      formatPercent decimalToString (JSValue.number (137 / 1000)) false =
        "13.7%".toList := by
  decide!


/-! ## Decimal numerals through `formatPercent` -/

theorem isDigit_ne_minus (c : Char) (h : c.isDigit = true) : c ≠ '-' := by
  rintro rfl
  exact absurd h (by decide)

theorem unsigned_split (ip fp : List Char) (hip : ∀ c ∈ ip, c.isDigit = true) :
    (ip ++ (if fp.isEmpty then [] else '.' :: fp)).takeWhile Char.isDigit = ip ∧
      (ip ++ (if fp.isEmpty then [] else '.' :: fp)).dropWhile Char.isDigit =
        (if fp.isEmpty then [] else '.' :: fp) := by
  have hdot : ¬ Char.isDigit '.' = true := by decide
  rw [List.takeWhile_append_of_pos hip, List.dropWhile_append_of_pos hip]
  cases fp with
  | nil => simp
  | cons d ds =>
    simp only [List.isEmpty_cons, Bool.false_eq_true, if_false]
    rw [List.takeWhile_cons_of_neg hdot, List.dropWhile_cons_of_neg hdot]
    simp

theorem unsigned_head (ip fp : List Char) (hip : ∀ c ∈ ip, c.isDigit = true) :
    (ip ++ (if fp.isEmpty then [] else '.' :: fp)).head? ≠ some '-' := by
  cases ip with
  | nil =>
    cases fp with
    | nil => simp
    | cons d ds =>
      simp only [List.nil_append, List.isEmpty_cons, Bool.false_eq_true, if_false,
        List.head?_cons]
      decide
  | cons c cs =>
    simp only [List.cons_append, List.head?_cons, ne_eq, Option.some.injEq]
    exact isDigit_ne_minus c (hip c (List.mem_cons_self c cs))

theorem scanDecimal_unsigned (ip fp : List Char)
    (hip : ∀ c ∈ ip, c.isDigit = true) (hfp : ∀ c ∈ fp, c.isDigit = true)
    (hne : ip ≠ [] ∨ fp ≠ []) (negative : Bool) (t : List Char)
    (hneg : (t.head? = some '-') ↔ negative = true)
    (hr : (if t.head? = some '-' then t.tail else t) =
      ip ++ (if fp.isEmpty then [] else '.' :: fp)) :
    scanDecimal t = some (decimalNumeralValue negative ip fp) := by
  obtain ⟨htake, hdrop⟩ := unsigned_split ip fp hip
  have hfrac : (if (if fp.isEmpty then [] else '.' :: fp).head? = some '.' then
      (if fp.isEmpty then [] else '.' :: fp).tail.takeWhile Char.isDigit else []) = fp := by
    cases fp with
    | nil => simp
    | cons d ds =>
      simp only [List.isEmpty_cons, Bool.false_eq_true, if_false, List.head?_cons,
        if_true, List.tail_cons]
      exact List.takeWhile_eq_self_iff.mpr hfp
  have hempty : (ip.isEmpty && fp.isEmpty) = false := by
    rcases hne with h | h
    · cases ip with
      | nil => exact absurd rfl h
      | cons _ _ => rfl
    · cases fp with
      | nil => exact absurd rfl h
      | cons _ _ => simp
  unfold scanDecimal
  simp only [hr, htake, hdrop, hfrac, hempty, Bool.false_eq_true, if_false]
  cases negative with
  | true =>
    have : t.head? = some '-' := hneg.mpr rfl
    simp [decimalNumeralValue, this]
  | false =>
    have : ¬ t.head? = some '-' := fun h => by
      have := hneg.mp h
      exact absurd this (by decide)
    simp [decimalNumeralValue, this]

theorem scanDecimal_decimalNumeral (negative : Bool) (ip fp : List Char)
    (hip : ∀ c ∈ ip, c.isDigit = true) (hfp : ∀ c ∈ fp, c.isDigit = true)
    (hne : ip ≠ [] ∨ fp ≠ []) :
    scanDecimal (decimalNumeral negative ip fp) =
      some (decimalNumeralValue negative ip fp) := by
  apply scanDecimal_unsigned ip fp hip hfp hne
  · cases negative with
    | true => simp [decimalNumeral]
    | false =>
      have := unsigned_head ip fp hip
      simp only [decimalNumeral, Bool.false_eq_true, if_false, List.nil_append]
      constructor
      · intro h; exact absurd h this
      · intro h; exact absurd h (by decide)
  · cases negative with
    | true => simp [decimalNumeral]
    | false =>
      have := unsigned_head ip fp hip
      simp only [decimalNumeral, Bool.false_eq_true, if_false, List.nil_append]
      rw [if_neg this]

theorem decimalNumeral_chars (negative : Bool) (ip fp : List Char)
    (hip : ∀ c ∈ ip, c.isDigit = true) (hfp : ∀ c ∈ fp, c.isDigit = true) :
    ∀ c ∈ decimalNumeral negative ip fp, c.isDigit = true ∨ c = '.' ∨ c = '-' := by
  intro c hc
  simp only [decimalNumeral, List.mem_append] at hc
  rcases hc with hc | hc | hc
  · cases negative with
    | true =>
      simp only [if_true, List.mem_singleton] at hc
      exact Or.inr (Or.inr hc)
    | false => simp at hc
  · exact Or.inl (hip c hc)
  · cases fp with
    | nil => simp at hc
    | cons d ds =>
      simp only [List.isEmpty_cons, Bool.false_eq_true, if_false, List.mem_cons] at hc
      rcases hc with hc | hc | hc
      · exact Or.inr (Or.inl hc)
      · exact Or.inl (hfp c (hc ▸ List.mem_cons_self d ds))
      · exact Or.inl (hfp c (List.mem_cons_of_mem d hc))

theorem stripNonNumeric_decimalNumeral (negative : Bool) (ip fp : List Char)
    (hip : ∀ c ∈ ip, c.isDigit = true) (hfp : ∀ c ∈ fp, c.isDigit = true) :
    stripNonNumeric (decimalNumeral negative ip fp) = decimalNumeral negative ip fp := by
  unfold stripNonNumeric
  rw [List.filter_eq_self]
  intro c hc
  rcases decimalNumeral_chars negative ip fp hip hfp c hc with h | h | h
  · simp [h]
  · simp [h]
  · simp [h]

/-- The fraction rule on texts. When `String(val)` is a decimal numeral,
written with digits, an optional leading `-` and an optional fraction, and
the number `v` it denotes has `|v| < 2`, then `formatPercent(val)` is
`(100 * v).toFixed(1)` followed by `%`. This covers every string that is
such a numeral and every number that `String` writes in plain notation. -/
theorem formatPercent_of_fraction (numToString : ℚ → List Char) (val : JSValue)
    (negative : Bool) (ip fp : List Char)
    (hip : ∀ c ∈ ip, c.isDigit = true) (hfp : ∀ c ∈ fp, c.isDigit = true)
    (hne : ip ≠ [] ∨ fp ≠ [])
    (hstr : toStr numToString val = decimalNumeral negative ip fp)
    (hval : val ≠ JSValue.null ∧ val ≠ JSValue.undefined)
    (hlt : |decimalNumeralValue negative ip fp| < 2) :
    formatPercent numToString val false =
      toFixed (decimalNumeralValue negative ip fp * 100) 1 ++ "%".toList := by
  have hchars := decimalNumeral_chars negative ip fp hip hfp
  have hpct : ¬ '%' ∈ decimalNumeral negative ip fp := by
    intro hmem
    rcases hchars '%' hmem with h | h | h
    · exact absurd h (by decide)
    · exact absurd h (by decide)
    · exact absurd h (by decide)
  have hna : val ≠ JSValue.string "N/A".toList := by
    intro hv
    rw [hv] at hstr
    have hN : 'N' ∈ decimalNumeral negative ip fp := by
      rw [← hstr]
      show 'N' ∈ "N/A".toList
      decide
    rcases hchars 'N' hN with h | h | h
    · exact absurd h (by decide)
    · exact absurd h (by decide)
    · exact absurd h (by decide)
  unfold formatPercent
  rw [if_neg (by
    rintro (h | h | h)
    · exact hval.1 h
    · exact hval.2 h
    · exact hna h)]
  rw [hstr, stripNonNumeric_decimalNumeral negative ip fp hip hfp,
    scanDecimal_decimalNumeral negative ip fp hip hfp hne]
  simp only [hlt, hpct, not_false_eq_true, and_self, if_true, Bool.false_eq_true,
    false_and, if_false, List.nil_append]

/-- The fraction rule at the string `0.137`: the result is `13.7%`. -/
theorem formatPercent_of_fraction_witness :
    formatPercent decimalToString (JSValue.string "0.137".toList) false =
      toFixed (decimalNumeralValue false "0".toList "137".toList * 100) 1 ++ "%".toList :=
  formatPercent_of_fraction decimalToString (JSValue.string "0.137".toList) false
    "0".toList "137".toList (by decide) (by decide) (by decide) (by decide)
    (by decide) (by decide!)


/-! ## Invariants of the decoding loop -/

/-- C24: for every decoder state and every incoming chunk, the display text
before a loop iteration is a prefix of the display text after it. -/
theorem fullText_append_only {J : Type} (h : JsonHost J) (st : DecoderState J)
    (chunk : List Char) : st.fullText <+: (step h st chunk).fullText := by
  cases hs : indexOf START_MARKER (st.buffer ++ chunk) with
  | none =>
    rw [step_without_start h st chunk hs]
    exact List.prefix_append _ _
  | some s =>
    cases he : indexOf END_MARKER (st.buffer ++ chunk) with
    | none =>
      simp only [step, hs, he]
      exact List.prefix_refl _
    | some e =>
      cases hp : h.parse (substring (st.buffer ++ chunk) (s + 14) e) with
      | none =>
        simp only [step, hs, he, hp]
        exact List.prefix_refl _
      | some v =>
        cases hr : h.renderThrows v with
        | true =>
          simp only [step, hs, he, hp, hr, if_true]
          exact List.prefix_append _ _
        | false =>
          simp only [step, hs, he, hp, hr, Bool.false_eq_true, if_false]
          exact List.prefix_append _ _

theorem runFrom_chunks_without_start {J : Type} (h : JsonHost J)
    (cs : List (List Char)) (st : DecoderState J) (hb : st.buffer = [])
    (hfree : ∀ c ∈ cs, ¬ START_MARKER <:+: c) :
    runFrom h st cs =
      { fullText := st.fullText ++ cs.flatten
        buffer := []
        events := st.events ++ cs.map StreamEvent.textDelta } := by
  induction cs generalizing st with
  | nil =>
    cases st
    simp_all [runFrom]
  | cons c cs ih =>
    rw [runFrom_cons]
    have hs : indexOf START_MARKER (st.buffer ++ c) = none := by
      rw [hb, List.nil_append]
      exact (indexOf_none_iff _ _).mpr (hfree c (List.mem_cons_self c cs))
    rw [step_without_start h st c hs,
      ih _ rfl (fun d hd => hfree d (List.mem_cons_of_mem c hd))]
    simp [hb, List.append_assoc]

/-- C25: for every sequence of chunks none of which contains
`__JSON_START__`, the loop emits no payload, the buffer is empty after every
chunk, and the final display text is the concatenation of all chunks in
arrival order. -/
theorem marker_free_chunks_pass_through {J : Type} (h : JsonHost J)
    (cs : List (List Char)) (hfree : ∀ c ∈ cs, ¬ START_MARKER <:+: c) :
    payloadsOf (sendMessage h cs).events = [] ∧
      (∀ k : ℕ, (sendMessage h (cs.take k)).buffer = []) ∧
      (sendMessage h cs).fullText = cs.flatten := by
  have hrun := runFrom_chunks_without_start h cs (DecoderState.init J) rfl hfree
  refine ⟨?_, ?_, ?_⟩
  · simp only [sendMessage, hrun]
    simp [DecoderState.init, payloadsOf_map_textDelta]
  · intro k
    have hk := runFrom_chunks_without_start h (cs.take k) (DecoderState.init J) rfl
      (fun c hc => hfree c (List.mem_of_mem_take hc))
    simp only [sendMessage, hk]
  · simp only [sendMessage, hrun]
    simp [DecoderState.init]

/-- C25 at the chunks `ab`, `__JSON_` and `START`: no chunk holds the whole
marker. -/
theorem marker_free_chunks_pass_through_witness :
    payloadsOf (sendMessage literalHost
        ["ab".toList, "__JSON_".toList, "START".toList]).events = [] ∧
      (∀ k : ℕ, (sendMessage literalHost
        (["ab".toList, "__JSON_".toList, "START".toList].take k)).buffer = []) ∧
      (sendMessage literalHost
        ["ab".toList, "__JSON_".toList, "START".toList]).fullText =
        ["ab".toList, "__JSON_".toList, "START".toList].flatten :=
  marker_free_chunks_pass_through literalHost
    ["ab".toList, "__JSON_".toList, "START".toList]
    (by
      intro c hc
      simp only [List.mem_cons, List.mem_singleton, List.not_mem_nil, or_false] at hc
      rcases hc with rfl | rfl | rfl
      · exact (indexOf_none_iff _ _).mp (by decide)
      · exact (indexOf_none_iff _ _).mp (by decide)
      · exact (indexOf_none_iff _ _).mp (by decide))


theorem take_through_occurrence (pat b : List Char) (s : Nat) (hp : pat <+: b.drop s)
    (hs : s ≤ b.length) : b.take (s + pat.length) = b.take s ++ pat := by
  have hsplit := split_at_occurrence pat b s hp
  have hlen : (b.take s ++ pat).length = s + pat.length := by
    rw [List.length_append, List.length_take, Nat.min_eq_left hs]
  conv_lhs => rw [hsplit, ← hlen]
  rw [List.take_left']
  rfl

theorem payload_requires_start_before_end {J : Type} (h : JsonHost J)
    (hempty : h.parse [] = none) (hrej : ∀ s, h.parse ('_' :: s) = none)
    (b : List Char) (s e : Nat) (v : J)
    (he : indexOf END_MARKER b = some e)
    (hp : h.parse (substring b (s + 14) e) = some v) : s + 14 < e := by
  obtain ⟨he1, _, _⟩ := (indexOf_some_iff _ _ _).mp he
  rcases Nat.lt_trichotomy e (s + 14) with hlt | heq | hgt
  · obtain ⟨r, hr⟩ := he1
    have hd : b.drop e = '_' :: ("_JSON_END__".toList ++ r) := by
      rw [← hr]; rfl
    obtain ⟨t, ht⟩ := substring_swapped_head b _ (s + 14) e '_' hlt hd
    rw [ht, hrej t] at hp
    exact absurd hp (by simp)
  · have hnil : substring b (s + 14) e = [] := by
      rw [heq, substring_of_le _ _ _ (Nat.le_refl _), List.drop_take]
      simp
    rw [hnil, hempty] at hp
    exact absurd hp (by simp)
  · exact hgt

theorem payload_split (b : List Char) (s e : Nat)
    (hs : indexOf START_MARKER b = some s) (he : indexOf END_MARKER b = some e)
    (hse : s + 14 ≤ e) :
    b = b.take s ++ (START_MARKER ++ substring b (s + 14) e ++ END_MARKER) ++
      b.drop (e + 12) := by
  obtain ⟨hs1, hs2, _⟩ := (indexOf_some_iff _ _ _).mp hs
  obtain ⟨he1, he2, _⟩ := (indexOf_some_iff _ _ _).mp he
  have hsplit := split_at_occurrence END_MARKER b e he1
  rw [END_MARKER_length] at hsplit
  have htake := take_through_occurrence START_MARKER b s hs1 hs2
  rw [START_MARKER_length] at htake
  have h1 : b.take e = b.take s ++ START_MARKER ++ (b.take e).drop (s + 14) := by
    have : (b.take e).take (s + 14) = b.take (s + 14) := by
      rw [List.take_take, Nat.min_eq_left hse]
    rw [← htake, ← this, List.take_append_drop]
  rw [substring_of_le _ _ _ hse]
  conv_lhs => rw [hsplit, h1]
  simp [List.append_assoc]

theorem step_conserves {J : Type} (h : JsonHost J)
    (hempty : h.parse [] = none) (hrej : ∀ s, h.parse ('_' :: s) = none)
    (hrender : ∀ v, h.renderThrows v = false)
    (st : DecoderState J) (chunk total : List Char) (pieces : List (List Char))
    (hp : List.Forall₂ (Contributes h) st.events pieces)
    (hc : pieces.flatten ++ st.buffer = total) :
    ∃ pieces2 : List (List Char),
      List.Forall₂ (Contributes h) (step h st chunk).events pieces2 ∧
        pieces2.flatten ++ (step h st chunk).buffer = total ++ chunk := by
  cases hs : indexOf START_MARKER (st.buffer ++ chunk) with
  | none =>
    rw [step_without_start h st chunk hs]
    refine ⟨pieces ++ [st.buffer ++ chunk], ?_, ?_⟩
    · exact List.rel_append hp (List.Forall₂.cons rfl List.Forall₂.nil)
    · simp [← hc, List.append_assoc]
  | some s =>
    cases he : indexOf END_MARKER (st.buffer ++ chunk) with
    | none =>
      refine ⟨pieces, ?_, ?_⟩
      · simp only [step, hs, he]
        exact hp
      · simp only [step, hs, he]
        rw [← hc, List.append_assoc]
    | some e =>
      cases hpar : h.parse (substring (st.buffer ++ chunk) (s + 14) e) with
      | none =>
        refine ⟨pieces, ?_, ?_⟩
        · simp only [step, hs, he, hpar]
          exact hp
        · simp only [step, hs, he, hpar]
          rw [← hc, List.append_assoc]
      | some v =>
        have hse := payload_requires_start_before_end h hempty hrej _ s e v he hpar
        have hsplit := payload_split (st.buffer ++ chunk) s e hs he (Nat.le_of_lt hse)
        rw [step_payload h st chunk s e v hs he hpar (hrender v)]
        refine ⟨pieces ++ [(st.buffer ++ chunk).take s,
          START_MARKER ++ substring (st.buffer ++ chunk) (s + 14) e ++ END_MARKER], ?_, ?_⟩
        · exact List.rel_append hp
            (List.Forall₂.cons rfl (List.Forall₂.cons ⟨_, hpar, rfl⟩ List.Forall₂.nil))
        · rw [← hc]
          simp only [List.flatten_append, List.flatten_cons, List.flatten_nil,
            List.append_nil, List.append_assoc]
          congr 1
          conv_rhs => rw [hsplit]
          simp [List.append_assoc]

theorem runFrom_conserves {J : Type} (h : JsonHost J)
    (hempty : h.parse [] = none) (hrej : ∀ s, h.parse ('_' :: s) = none)
    (hrender : ∀ v, h.renderThrows v = false)
    (cs : List (List Char)) (st : DecoderState J) (total : List Char)
    (pieces : List (List Char))
    (hp : List.Forall₂ (Contributes h) st.events pieces)
    (hc : pieces.flatten ++ st.buffer = total) :
    ∃ pieces2 : List (List Char),
      List.Forall₂ (Contributes h) (runFrom h st cs).events pieces2 ∧
        pieces2.flatten ++ (runFrom h st cs).buffer = total ++ cs.flatten := by
  induction cs generalizing st total pieces with
  | nil => exact ⟨pieces, hp, by simpa [runFrom] using hc⟩
  | cons c cs ih =>
    obtain ⟨p2, hp2, hc2⟩ := step_conserves h hempty hrej hrender st c total pieces hp hc
    obtain ⟨p3, hp3, hc3⟩ := ih (step h st c) (total ++ c) p2 hp2 hc2
    exact ⟨p3, hp3, by simpa [runFrom_cons, List.append_assoc] using hc3⟩

/-- Conservation on a host whose rendering never throws. When `JSON.parse`
rejects the empty text and every text beginning with an underscore, and the
rendering block throws on no parsed value, then after any sequence of chunks
the received text is the concatenation, in order, of what the events account
for, followed by the buffer; and a payload is consumed only when the START
marker lies wholly before the END marker. -/
theorem conservation_when_rendering_succeeds {J : Type} (h : JsonHost J)
    (hempty : h.parse [] = none) (hrej : ∀ s, h.parse ('_' :: s) = none)
    (hrender : ∀ v, h.renderThrows v = false) (cs : List (List Char)) :
    ∃ pieces : List (List Char),
      List.Forall₂ (Contributes h) (sendMessage h cs).events pieces ∧
        pieces.flatten ++ (sendMessage h cs).buffer = cs.flatten := by
  have := runFrom_conserves h hempty hrej hrender cs (DecoderState.init J) [] []
    List.Forall₂.nil rfl
  simpa [sendMessage] using this

/-- C26, the code at the failing input: on the chunks
`a__JSON_START__null__JSON_END__` and `b` the span `null` parses, the text
`a` is appended, reading `chart_data` of `null` throws and the buffer is not
cut; the same happens again on the second chunk. The events account for `aa`
and the buffer holds both chunks whole, so events and buffer together are
not the received text. -/
theorem null_payload_breaks_conservation :
    literalHost.parse [] = none ∧
      (sendMessage literalHost
        ["a__JSON_START__null__JSON_END__".toList, "b".toList]).events =
        [StreamEvent.textDelta "a".toList, StreamEvent.textDelta "a".toList] ∧
      (sendMessage literalHost
        ["a__JSON_START__null__JSON_END__".toList, "b".toList]).buffer =
        "a__JSON_START__null__JSON_END__b".toList ∧
      ["a".toList, "a".toList].flatten ++
          (sendMessage literalHost
            ["a__JSON_START__null__JSON_END__".toList, "b".toList]).buffer ≠
        ["a__JSON_START__null__JSON_END__".toList, "b".toList].flatten := by
  decide


/-! ## Rounding, clamping and order -/

theorem mathRound_mono {x y : ℚ} (hxy : x ≤ y) : mathRound x ≤ mathRound y := by
  unfold mathRound
  exact Int.floor_mono (by linarith)

theorem mathRound_zero : mathRound 0 = 0 := by
  unfold mathRound
  norm_num

theorem mathRound_hundred : mathRound 100 = 100 := by
  unfold mathRound
  norm_num

/-- C27: for every rational `x`, rounding the clamped value gives the same
integer as clamping the rounded value, `Math.round` being round-half-up; so
each of the four scores of `calculateRiskScores` is also the clamp to
[0, 100] of the rounded raw value. -/
theorem round_clamp_commute (scan : List Char → Option ℚ) (m : Metrics) :
    (∀ x : ℚ, mathRound (max 0 (min 100 x)) = max 0 (min 100 (mathRound x))) ∧
      (calculateRiskScores scan m).liquidity_risk =
        max 0 (min 100 (mathRound
          (100 - (orDefault (parseFloat scan m.current_ratio) 0 / 1.5) * 100))) ∧
      (calculateRiskScores scan m).market_risk =
        max 0 (min 100 (mathRound (orDefault (parseFloat scan m.beta) 1 * 50))) ∧
      (calculateRiskScores scan m).credit_risk =
        max 0 (min 100 (mathRound
          ((orDefault (parseFloat scan m.debt_equity) 0 / 3) * 100))) ∧
      (calculateRiskScores scan m).governance_risk =
        max 0 (min 100 (mathRound
          (100 - (orDefault (parseFloat scan m.ownership) 0 / 20) * 100))) := by
  have key : ∀ x : ℚ, mathRound (max 0 (min 100 x)) = max 0 (min 100 (mathRound x)) := by
    intro x
    rcases le_total x 0 with h0 | h0
    · have h1 : min 100 x = x := min_eq_right (by linarith)
      have h2 : mathRound x ≤ 0 := by
        have := mathRound_mono h0
        rwa [mathRound_zero] at this
      rw [h1, max_eq_left h0, mathRound_zero, min_eq_right (by omega), max_eq_left h2]
    · rcases le_total x 100 with h1 | h1
      · have h2 : 0 ≤ mathRound x := by
          have := mathRound_mono h0
          rwa [mathRound_zero] at this
        have h3 : mathRound x ≤ 100 := by
          have := mathRound_mono h1
          rwa [mathRound_hundred] at this
        rw [min_eq_right h1, max_eq_right h0, min_eq_right h3, max_eq_right h2]
      · have h2 : (100 : ℤ) ≤ mathRound x := by
          have := mathRound_mono h1
          rwa [mathRound_hundred] at this
        rw [min_eq_left h1, max_eq_right (by norm_num), mathRound_hundred,
          min_eq_left h2, max_eq_right (by norm_num)]
  refine ⟨key, ?_, ?_, ?_, ?_⟩
  · simp only [calculateRiskScores, key]
  · simp only [calculateRiskScores, key]
  · simp only [calculateRiskScores, key]
  · simp only [calculateRiskScores, key]

/-- Monotonicity away from the fallback: for two metrics records whose
betas parse to numbers `b1 ≤ b2` with `b1` not 0, the market risk of the
first is at most the market risk of the second. -/
theorem market_risk_monotone (scan : List Char → Option ℚ) (m1 m2 : Metrics)
    (b1 b2 : ℚ) (h1 : parseFloat scan m1.beta = some b1)
    (h2 : parseFloat scan m2.beta = some b2) (hle : b1 ≤ b2) (hne : b1 ≠ 0) :
    (calculateRiskScores scan m1).market_risk ≤
      (calculateRiskScores scan m2).market_risk := by
  have e1 : (calculateRiskScores scan m1).market_risk =
      mathRound (max 0 (min 100 (b1 * 50))) := by
    simp only [calculateRiskScores, h1, orDefault, hne, if_false]
  by_cases hb2 : b2 = 0
  · have hneg : b1 < 0 := lt_of_le_of_ne (hb2 ▸ hle) hne
    have hz : max 0 (min 100 (b1 * 50)) = 0 := by
      have : b1 * 50 ≤ 0 := by linarith
      rw [min_eq_right (by linarith), max_eq_left this]
    rw [e1, hz, mathRound_zero]
    simp only [calculateRiskScores]
    exact (mathRound_bounds _ (clamp_bounds _).1 (clamp_bounds _).2).1
  · have e2 : (calculateRiskScores scan m2).market_risk =
        mathRound (max 0 (min 100 (b2 * 50))) := by
      simp only [calculateRiskScores, h2, orDefault, hb2, if_false]
    rw [e1, e2]
    apply mathRound_mono
    exact max_le_max (le_refl 0) (min_le_min (le_refl 100) (by linarith))

/-- The monotonicity at betas 0.5 and 1.5. -/
theorem market_risk_monotone_witness :
    (calculateRiskScores scanNothing (numericMetrics 1 0.5 1 1)).market_risk ≤
      (calculateRiskScores scanNothing (numericMetrics 1 1.5 1 1)).market_risk :=
  market_risk_monotone scanNothing (numericMetrics 1 0.5 1 1) (numericMetrics 1 1.5 1 1)
    0.5 1.5 rfl rfl (by norm_num) (by norm_num)

/-- C23, the code at the failing input: with all other fields equal,
beta 0 gives market risk 50 and the larger beta 0.5 gives market risk 25, in
exact arithmetic and in binary64 alike. -/
theorem market_risk_drops_after_zero_beta :
    (0 : ℚ) ≤ 0.5 ∧
      (calculateRiskScores scanNothing (numericMetrics 1 0 1 1)).market_risk = 50 ∧
      (calculateRiskScores scanNothing (numericMetrics 1 0.5 1 1)).market_risk = 25 ∧
      ¬ (calculateRiskScores scanNothing (numericMetrics 1 0 1 1)).market_risk ≤
        (calculateRiskScores scanNothing (numericMetrics 1 0.5 1 1)).market_risk ∧
      (Binary64.calculateRiskScores Binary64.scanNothing
        (numericMetrics 1 0 1 1)).market_risk = Number.finite 50 ∧
      (Binary64.calculateRiskScores Binary64.scanNothing
        (numericMetrics 1 0.5 1 1)).market_risk = Number.finite 25 := by
  decide!

/-! ## Digits written and read back -/

theorem digitsValue_foldl (ds : List Char) (a : ℕ) :
    ds.foldl (fun n d => 10 * n + (d.toNat - 48)) a =
      a * 10 ^ ds.length + digitsValue ds := by
  induction ds generalizing a with
  | nil => simp [digitsValue]
  | cons c cs ih =>
    simp only [List.foldl_cons, List.length_cons, digitsValue]
    rw [ih (10 * a + (c.toNat - 48)), ih (10 * 0 + (c.toNat - 48))]
    ring

theorem digitsValue_cons (c : Char) (ds : List Char) :
    digitsValue (c :: ds) = (c.toNat - 48) * 10 ^ ds.length + digitsValue ds := by
  have := digitsValue_foldl ds (10 * 0 + (c.toNat - 48))
  simpa [digitsValue] using this

theorem digitsValue_append (as bs : List Char) :
    digitsValue (as ++ bs) = digitsValue as * 10 ^ bs.length + digitsValue bs := by
  unfold digitsValue
  rw [List.foldl_append, digitsValue_foldl bs]
  rfl

theorem digitsValue_zeros (k : ℕ) : digitsValue (List.replicate k '0') = 0 := by
  induction k with
  | zero => rfl
  | succ k ih =>
    have h0 : '0'.toNat - 48 = 0 := by decide
    rw [List.replicate_succ, digitsValue_cons, ih, h0]
    simp

theorem digitChar_spec (d : ℕ) (hd : d < 10) :
    (Nat.digitChar d).isDigit = true ∧ (Nat.digitChar d).toNat - 48 = d := by
  interval_cases d <;> decide

theorem toDigitsCore_spec (fuel : ℕ) : ∀ (n : ℕ) (ds : List Char), n < fuel →
    digitsValue (Nat.toDigitsCore 10 fuel n ds) = n * 10 ^ ds.length + digitsValue ds ∧
      ((∀ c ∈ ds, c.isDigit = true) →
        ∀ c ∈ Nat.toDigitsCore 10 fuel n ds, c.isDigit = true) := by
  induction fuel with
  | zero => intro n ds h; omega
  | succ fuel ih =>
    intro n ds h
    have hd := digitChar_spec (n % 10) (Nat.mod_lt n (by norm_num))
    unfold Nat.toDigitsCore
    by_cases h0 : n / 10 = 0
    · simp only [h0, if_true]
      have hn : n % 10 = n := by omega
      constructor
      · rw [digitsValue_cons, hd.2, hn]
      · intro hds c hc
        rcases List.mem_cons.mp hc with rfl | hc
        · exact hd.1
        · exact hds c hc
    · simp only [h0, if_false]
      obtain ⟨ih1, ih2⟩ := ih (n / 10) (Nat.digitChar (n % 10) :: ds) (by omega)
      constructor
      · rw [ih1, digitsValue_cons, hd.2, List.length_cons, pow_succ]
        have hn : n * 10 ^ ds.length = (10 * (n / 10) + n % 10) * 10 ^ ds.length := by
          rw [Nat.div_add_mod]
        rw [hn]
        ring
      · intro hds
        apply ih2
        intro c hc
        rcases List.mem_cons.mp hc with rfl | hc
        · exact hd.1
        · exact hds c hc

theorem toDigits_spec (n : ℕ) :
    digitsValue (Nat.toDigits 10 n) = n ∧ ∀ c ∈ Nat.toDigits 10 n, c.isDigit = true := by
  obtain ⟨h1, h2⟩ := toDigitsCore_spec (n + 1) n [] (Nat.lt_succ_self n)
  refine ⟨?_, h2 (by simp)⟩
  simpa [Nat.toDigits, digitsValue] using h1

/-- The text written by `toFixed` for a number that is not negative, with at
least one decimal, reads back as the rounded number of units over `10^f`. -/
theorem scanDecimal_toFixed (x : ℚ) (f : ℕ) (hx : 0 ≤ x) (hf : 1 ≤ f) :
    scanDecimal (toFixed x f) =
      some ((⌊x * 10 ^ f + 1 / 2⌋.toNat : ℚ) / 10 ^ f) := by
  obtain ⟨hv, hdig⟩ := toDigits_spec ⌊x * 10 ^ f + 1 / 2⌋.toNat
  set m := List.replicate (f + 1 - (Nat.toDigits 10 ⌊x * 10 ^ f + 1 / 2⌋.toNat).length) '0' ++
    Nat.toDigits 10 ⌊x * 10 ^ f + 1 / 2⌋.toNat with hm
  have hmdig : ∀ c ∈ m, c.isDigit = true := by
    intro c hc
    rcases List.mem_append.mp hc with hc | hc
    · rw [List.eq_of_mem_replicate hc]
      decide
    · exact hdig c hc
  have hmval : digitsValue m = ⌊x * 10 ^ f + 1 / 2⌋.toNat := by
    rw [hm, digitsValue_append, digitsValue_zeros, hv]
    simp
  have hmlen : f + 1 ≤ m.length := by
    rw [hm, List.length_append, List.length_replicate]
    omega
  have hfix : toFixed x f =
      decimalNumeral false (m.take (m.length - f)) (m.drop (m.length - f)) := by
    have hf0 : f ≠ 0 := by omega
    have hnotneg : ¬ x < 0 := not_lt.mpr hx
    have hdrop : (m.drop (m.length - f)).isEmpty = false := by
      cases hd : m.drop (m.length - f) with
      | nil =>
        have := congrArg List.length hd
        rw [List.length_drop] at this
        simp at this
        omega
      | cons _ _ => rfl
    simp only [toFixed, abs_of_nonneg hx, ← hm, hf0, if_false, hnotneg, decimalNumeral,
      Bool.false_eq_true, List.nil_append, hdrop]
  have hval : decimalNumeralValue false (m.take (m.length - f)) (m.drop (m.length - f)) =
      (⌊x * 10 ^ f + 1 / 2⌋.toNat : ℚ) / 10 ^ f := by
    have hlen : (m.drop (m.length - f)).length = f := by
      rw [List.length_drop]; omega
    have hsum := digitsValue_append (m.take (m.length - f)) (m.drop (m.length - f))
    rw [List.take_append_drop, hmval, hlen] at hsum
    simp only [decimalNumeralValue, Bool.false_eq_true, if_false, hlen]
    rw [hsum]
    push_cast
    field_simp
  rw [hfix, scanDecimal_decimalNumeral false _ _
    (fun c hc => hmdig c (List.mem_of_mem_take hc))
    (fun c hc => hmdig c (List.mem_of_mem_drop hc))
    (Or.inr (by
      intro hnil
      have := congrArg List.length hnil
      rw [List.length_drop] at this
      simp at this
      omega)), hval]


/-! ## Formatting -/

theorem not_sentinel_of_numeral (numToString : ℚ → List Char) (val : JSValue)
    (negative : Bool) (ip fp : List Char)
    (hip : ∀ c ∈ ip, c.isDigit = true) (hfp : ∀ c ∈ fp, c.isDigit = true)
    (hstr : toStr numToString val = decimalNumeral negative ip fp)
    (hval : val ≠ JSValue.null ∧ val ≠ JSValue.undefined) :
    ¬ (val = JSValue.null ∨ val = JSValue.undefined ∨
      val = JSValue.string "N/A".toList) := by
  have hchars := decimalNumeral_chars negative ip fp hip hfp
  rintro (h | h | h)
  · exact hval.1 h
  · exact hval.2 h
  · rw [h] at hstr
    have hN : 'N' ∈ decimalNumeral negative ip fp := by
      rw [← hstr]
      show 'N' ∈ "N/A".toList
      decide
    rcases hchars 'N' hN with h | h | h
    · exact absurd h (by decide)
    · exact absurd h (by decide)
    · exact absurd h (by decide)

theorem formatPercent_of_numeral (numToString : ℚ → List Char) (val : JSValue)
    (negative : Bool) (ip fp : List Char)
    (hip : ∀ c ∈ ip, c.isDigit = true) (hfp : ∀ c ∈ fp, c.isDigit = true)
    (hne : ip ≠ [] ∨ fp ≠ [])
    (hstr : toStr numToString val = decimalNumeral negative ip fp)
    (hval : val ≠ JSValue.null ∧ val ≠ JSValue.undefined) :
    formatPercent numToString val false =
      toFixed (if |decimalNumeralValue negative ip fp| < 2
        then decimalNumeralValue negative ip fp * 100
        else decimalNumeralValue negative ip fp) 1 ++ "%".toList := by
  have hchars := decimalNumeral_chars negative ip fp hip hfp
  have hpct : ¬ '%' ∈ decimalNumeral negative ip fp := by
    intro hmem
    rcases hchars '%' hmem with h | h | h
    · exact absurd h (by decide)
    · exact absurd h (by decide)
    · exact absurd h (by decide)
  unfold formatPercent
  rw [if_neg (not_sentinel_of_numeral numToString val negative ip fp hip hfp hstr hval)]
  rw [hstr, stripNonNumeric_decimalNumeral negative ip fp hip hfp,
    scanDecimal_decimalNumeral negative ip fp hip hfp hne]
  simp only [hpct, not_false_eq_true, and_true, Bool.false_eq_true, false_and, if_false,
    List.nil_append]

theorem formatLargeNumber_of_numeral (numToString toLocaleString : ℚ → List Char)
    (val : JSValue) (negative : Bool) (ip fp : List Char)
    (hip : ∀ c ∈ ip, c.isDigit = true) (hfp : ∀ c ∈ fp, c.isDigit = true)
    (hne : ip ≠ [] ∨ fp ≠ [])
    (hstr : toStr numToString val = decimalNumeral negative ip fp)
    (hval : val ≠ JSValue.null ∧ val ≠ JSValue.undefined) :
    formatLargeNumber numToString toLocaleString val =
      if decimalNumeralValue negative ip fp ≥ 1e12 then
        toFixed (decimalNumeralValue negative ip fp / 1e12) 2 ++ "T".toList
      else if decimalNumeralValue negative ip fp ≥ 1e9 then
        toFixed (decimalNumeralValue negative ip fp / 1e9) 2 ++ "B".toList
      else if decimalNumeralValue negative ip fp ≥ 1e6 then
        toFixed (decimalNumeralValue negative ip fp / 1e6) 2 ++ "M".toList
      else toLocaleString (decimalNumeralValue negative ip fp) := by
  unfold formatLargeNumber
  rw [if_neg (not_sentinel_of_numeral numToString val negative ip fp hip hfp hstr hval)]
  rw [hstr, stripNonNumeric_decimalNumeral negative ip fp hip hfp,
    scanDecimal_decimalNumeral negative ip fp hip hfp hne]

/-- Suffix selection on texts. When `String(val)` is a decimal numeral
denoting `v ≥ 1e6`, `formatLargeNumber(val)` is `v/1e12` to two decimals with
`T` when `v ≥ 1e12`, `v/1e9` with `B` when `1e9 ≤ v < 1e12`, and `v/1e6` with
`M` when `1e6 ≤ v < 1e9`. -/
theorem formatLargeNumber_suffix (numToString toLocaleString : ℚ → List Char)
    (val : JSValue) (negative : Bool) (ip fp : List Char)
    (hip : ∀ c ∈ ip, c.isDigit = true) (hfp : ∀ c ∈ fp, c.isDigit = true)
    (hne : ip ≠ [] ∨ fp ≠ [])
    (hstr : toStr numToString val = decimalNumeral negative ip fp)
    (hval : val ≠ JSValue.null ∧ val ≠ JSValue.undefined) :
    (decimalNumeralValue negative ip fp ≥ 1e12 →
        formatLargeNumber numToString toLocaleString val =
          toFixed (decimalNumeralValue negative ip fp / 1e12) 2 ++ "T".toList) ∧
      (decimalNumeralValue negative ip fp ≥ 1e9 →
        decimalNumeralValue negative ip fp < 1e12 →
        formatLargeNumber numToString toLocaleString val =
          toFixed (decimalNumeralValue negative ip fp / 1e9) 2 ++ "B".toList) ∧
      (decimalNumeralValue negative ip fp ≥ 1e6 →
        decimalNumeralValue negative ip fp < 1e9 →
        formatLargeNumber numToString toLocaleString val =
          toFixed (decimalNumeralValue negative ip fp / 1e6) 2 ++ "M".toList) := by
  have hmain := formatLargeNumber_of_numeral numToString toLocaleString val negative ip fp
    hip hfp hne hstr hval
  refine ⟨?_, ?_, ?_⟩
  · intro h12
    rw [hmain, if_pos h12]
  · intro h9 h12
    rw [hmain, if_neg (not_le.mpr h12), if_pos h9]
  · intro h6 h9
    have h12 : ¬ decimalNumeralValue negative ip fp ≥ 1e12 := by
      intro h
      have : (1e9 : ℚ) ≤ 1e12 := by norm_num
      exact absurd (lt_of_lt_of_le h9 (le_trans this h)) (lt_irrefl _)
    rw [hmain, if_neg h12, if_neg (not_le.mpr h9), if_pos h6]

/-- The suffix selection at the number 2500000000: the result is `2.50B`. -/
theorem formatLargeNumber_suffix_witness :
    formatLargeNumber decimalToString decimalToString (JSValue.number 2500000000) =
      "2.50B".toList :=
  ((formatLargeNumber_suffix decimalToString decimalToString (JSValue.number 2500000000)
    false "2500000000".toList [] (by decide) (by decide) (by decide) (by decide!)
    (by decide)).2.1 (by decide!) (by decide!)).trans (by decide!)

/-- C22, the code at the failing input: `String` writes the number `1e21` as
`1e+21`, the replace leaves `121`, and `formatLargeNumber` hands 121 to
`toLocaleString`, whereas `1e21 / 1e12` to two decimals followed by `T` is
`1000000000.00T`. -/
theorem formatLargeNumber_of_exponent_notation (toLocaleString : ℚ → List Char) :
    (1e21 : ℚ) ≥ 1e12 ∧
      decimalToString 1e21 = "1e+21".toList ∧
      stripNonNumeric (toStr decimalToString (JSValue.number 1e21)) = "121".toList ∧
      formatLargeNumber decimalToString toLocaleString (JSValue.number 1e21) =
        toLocaleString 121 ∧
      toFixed ((1e21 : ℚ) / 1e12) 2 ++ "T".toList = "1000000000.00T".toList := by
  have hstr : toStr decimalToString (JSValue.number 1e21) =
      "1e+21".toList := by decide!
  have hscan : scanDecimal (stripNonNumeric "1e+21".toList) = some 121 := by decide!
  refine ⟨by norm_num, by decide!, by decide!, ?_, by decide!⟩
  unfold formatLargeNumber
  rw [if_neg (by simp), hstr, hscan]
  norm_num


theorem toNat_floor_cast (y : ℚ) (hy : 0 ≤ y) : ((⌊y⌋.toNat : ℕ) : ℚ) = (⌊y⌋ : ℚ) := by
  have h0 : 0 ≤ ⌊y⌋ := Int.floor_nonneg.mpr hy
  have : ((⌊y⌋.toNat : ℕ) : ℤ) = ⌊y⌋ := Int.toNat_of_nonneg h0
  exact_mod_cast this

/-- C29 as stated fails: the number 999999999 lies between 1e6 and 1e15 and
is shown as `1000.00M`; the number printed before the suffix is 1000, not
below 1000. -/
theorem large_number_shown_as_thousand :
    (999999999 : ℚ) ≥ 1e6 ∧ (999999999 : ℚ) < 1e15 ∧
      formatLargeNumber decimalToString decimalToString (JSValue.number 999999999) =
        "1000.00M".toList ∧
      scanDecimal "1000.00".toList = some 1000 := by
  decide!

theorem printed_percent_mono (x y : ℚ) (hx : 0 ≤ x) (hxy : x ≤ y) :
    ∃ p q : ℚ, scanDecimal (toFixed x 1) = some p ∧ scanDecimal (toFixed y 1) = some q ∧
      p ≤ q := by
  refine ⟨_, _, scanDecimal_toFixed x 1 hx (le_refl 1),
    scanDecimal_toFixed y 1 (le_trans hx hxy) (le_refl 1), ?_⟩
  rw [toNat_floor_cast _ (by nlinarith), toNat_floor_cast _ (by nlinarith)]
  have hk : ⌊x * 10 ^ 1 + 1 / 2⌋ ≤ ⌊y * 10 ^ 1 + 1 / 2⌋ :=
    Int.floor_mono (by nlinarith)
  have hq : (⌊x * 10 ^ 1 + 1 / 2⌋ : ℚ) ≤ (⌊y * 10 ^ 1 + 1 / 2⌋ : ℚ) := by exact_mod_cast hk
  exact div_le_div_of_nonneg_right hq (by norm_num)

/-- C30 (amended): for two non-negative numbers `a ≤ b` that `String` writes
as decimal numerals and that lie on the same side of 2 (both below 2, or
both at least 2), the percentage printed by `formatPercent(a)` is at most
the percentage printed by `formatPercent(b)`. -/
theorem formatPercent_order_on_one_side (numToString : ℚ → List Char) (a b : ℚ)
    (na nb : Bool) (ia fa ib fb : List Char)
    (hia : ∀ c ∈ ia, c.isDigit = true) (hfa : ∀ c ∈ fa, c.isDigit = true)
    (hnea : ia ≠ [] ∨ fa ≠ [])
    (hib : ∀ c ∈ ib, c.isDigit = true) (hfb : ∀ c ∈ fb, c.isDigit = true)
    (hneb : ib ≠ [] ∨ fb ≠ [])
    (hsa : numToString a = decimalNumeral na ia fa)
    (hva : decimalNumeralValue na ia fa = a)
    (hsb : numToString b = decimalNumeral nb ib fb)
    (hvb : decimalNumeralValue nb ib fb = b)
    (h0 : 0 ≤ a) (hab : a ≤ b) (hside : b < 2 ∨ 2 ≤ a) :
    ∃ x y p q : ℚ,
      formatPercent numToString (JSValue.number a) false = toFixed x 1 ++ "%".toList ∧
        formatPercent numToString (JSValue.number b) false = toFixed y 1 ++ "%".toList ∧
        scanDecimal (toFixed x 1) = some p ∧ scanDecimal (toFixed y 1) = some q ∧
        p ≤ q := by
  have ha := formatPercent_of_numeral numToString (JSValue.number a) na ia fa hia hfa hnea
    hsa ⟨by simp, by simp⟩
  have hb := formatPercent_of_numeral numToString (JSValue.number b) nb ib fb hib hfb hneb
    hsb ⟨by simp, by simp⟩
  rw [hva] at ha
  rw [hvb] at hb
  have hb0 : 0 ≤ b := le_trans h0 hab
  rcases hside with hlt | hge
  · have ha2 : |a| < 2 := by rw [abs_of_nonneg h0]; linarith
    have hb2 : |b| < 2 := by rw [abs_of_nonneg hb0]; exact hlt
    rw [if_pos ha2] at ha
    rw [if_pos hb2] at hb
    obtain ⟨p, q, hp, hq, hpq⟩ := printed_percent_mono (a * 100) (b * 100)
      (by linarith) (by linarith)
    exact ⟨a * 100, b * 100, p, q, ha, hb, hp, hq, hpq⟩
  · have ha2 : ¬ |a| < 2 := by rw [abs_of_nonneg h0]; linarith
    have hb2 : ¬ |b| < 2 := by rw [abs_of_nonneg hb0]; linarith
    rw [if_neg ha2] at ha
    rw [if_neg hb2] at hb
    obtain ⟨p, q, hp, hq, hpq⟩ := printed_percent_mono a b h0 hab
    exact ⟨a, b, p, q, ha, hb, hp, hq, hpq⟩

/-- The amended C30 at the numbers 0.25 and 0.5, both below 2. -/
theorem formatPercent_order_on_one_side_witness :
    ∃ x y p q : ℚ,
      formatPercent decimalToString (JSValue.number (1 / 4)) false =
          toFixed x 1 ++ "%".toList ∧
        formatPercent decimalToString (JSValue.number (1 / 2)) false =
          toFixed y 1 ++ "%".toList ∧
        scanDecimal (toFixed x 1) = some p ∧ scanDecimal (toFixed y 1) = some q ∧
        p ≤ q :=
  formatPercent_order_on_one_side decimalToString (1 / 4) (1 / 2) false false
    "0".toList "25".toList "0".toList "5".toList (by decide) (by decide) (by decide)
    (by decide) (by decide) (by decide) (by decide!) (by decide!) (by decide!)
    (by decide!) (by norm_num) (by norm_num) (Or.inl (by norm_num))

/-- C30 as stated fails: for the numbers 1.9 and 2, `formatPercent` prints
`190.0%` and `2.0%`; the first percentage is 190 and the second is 2. -/
theorem formatPercent_order_breaks_at_two :
    (0 : ℚ) ≤ 19 / 10 ∧ (19 / 10 : ℚ) ≤ 2 ∧
      formatPercent decimalToString (JSValue.number (19 / 10)) false = "190.0%".toList ∧
      formatPercent decimalToString (JSValue.number 2) false = "2.0%".toList ∧
      scanDecimal "190.0".toList = some 190 ∧
      scanDecimal "2.0".toList = some 2 ∧
      ¬ (190 : ℚ) ≤ 2 := by
  decide!


/-! ## What stays in the buffer -/

theorem parse_fails_without_end_after_start {J : Type} (h : JsonHost J)
    (hrej : ∀ s, h.parse ('_' :: s) = none) (x b rest : List Char) (s e : Nat)
    (hs : indexOf START_MARKER b = some s) (he : indexOf END_MARKER b = some e)
    (hno : NoEndAfterStart (x ++ b ++ rest)) :
    h.parse (substring b (s + 14) e) = none := by
  obtain ⟨hs1, _, _⟩ := (indexOf_some_iff _ _ _).mp hs
  obtain ⟨he1, _, _⟩ := (indexOf_some_iff _ _ _).mp he
  rcases Nat.lt_or_ge e (s + 14) with hlt | hge
  · obtain ⟨r, hr⟩ := he1
    have hd : b.drop e = '_' :: ("_JSON_END__".toList ++ r) := by
      rw [← hr]; rfl
    obtain ⟨t, ht⟩ := substring_swapped_head _ _ (s + 14) e '_' hlt hd
    rw [ht]
    exact hrej t
  · exfalso
    have hsplit := split_at_occurrence START_MARKER b s hs1
    rw [START_MARKER_length] at hsplit
    have hinf : END_MARKER <:+: b.drop (s + 14) := by
      have : b.drop e = (b.drop (s + 14)).drop (e - (s + 14)) := by
        rw [List.drop_drop]; congr 1; omega
      rw [this] at he1
      exact he1.isInfix.trans (List.drop_suffix _ _).isInfix
    apply hno (x ++ b.take s) (b.drop (s + 14) ++ rest)
    · conv_lhs => rw [hsplit]
      simp [List.append_assoc]
    · exact hinf.trans ⟨[], rest, by simp⟩

/-- C3 (amended): let a chunk `c` hold a whole START marker, let no chunk
before it hold one, and let the concatenation of all chunks have no END
marker after a START marker, on a host whose `JSON.parse` rejects every text
beginning with an underscore. When the stream completes the buffer is not
appended to the display text: the display text is exactly the chunks that
came before `c`, the buffer is `c` followed by all later chunks, whole, and
no payload is emitted. -/
theorem unterminated_payload_stays_in_buffer {J : Type} (h : JsonHost J)
    (hrej : ∀ s, h.parse ('_' :: s) = none)
    (pre post : List (List Char)) (c : List Char)
    (hpre : ∀ d ∈ pre, ¬ START_MARKER <:+: d)
    (hc : START_MARKER <:+: c)
    (hno : NoEndAfterStart (pre ++ c :: post).flatten) :
    (sendMessage h (pre ++ c :: post)).fullText = pre.flatten ∧
      (sendMessage h (pre ++ c :: post)).buffer = c ++ post.flatten ∧
      START_MARKER <:+: (sendMessage h (pre ++ c :: post)).buffer ∧
      payloadsOf (sendMessage h (pre ++ c :: post)).events = [] := by
  have hno2 : NoEndAfterStart (pre.flatten ++ c ++ post.flatten) := by
    simpa [List.flatten_append, List.flatten_cons, List.append_assoc] using hno
  have hrun : sendMessage h (pre ++ c :: post) =
      runFrom h (sendMessage h pre) (c :: post) := by
    simp only [sendMessage, runFrom_append]
  have hpre2 : sendMessage h pre = ⟨pre.flatten, [], pre.map StreamEvent.textDelta⟩ := by
    have := runFrom_chunks_without_start h pre (DecoderState.init J) rfl hpre
    simpa [sendMessage, DecoderState.init] using this
  obtain ⟨s, hs⟩ : ∃ s, indexOf START_MARKER c = some s := by
    cases hi : indexOf START_MARKER c with
    | none => exact absurd hc ((indexOf_none_iff _ _).mp hi)
    | some s => exact ⟨s, rfl⟩
  have hstep : step h ⟨pre.flatten, [], pre.map StreamEvent.textDelta⟩ c =
      ⟨pre.flatten, c, pre.map StreamEvent.textDelta⟩ := by
    rw [step_stuck h _ c s (by simpa using hs)]
    · simp
    · intro e he
      have he1 : indexOf END_MARKER c = some e := by simpa using he
      simpa using parse_fails_without_end_after_start h hrej pre.flatten c post.flatten
        s e hs he1 hno2
  have hall : runFrom h (sendMessage h pre) (c :: post) =
      ⟨pre.flatten, c ++ post.flatten, pre.map StreamEvent.textDelta⟩ := by
    rw [runFrom_cons, hpre2, hstep]
    apply runFrom_stuck h post ⟨pre.flatten, c, pre.map StreamEvent.textDelta⟩ s hs
    intro e he
    have hs2 : indexOf START_MARKER (c ++ post.flatten) = some s :=
      indexOf_append_of_some _ _ _ _ hs
    exact parse_fails_without_end_after_start h hrej pre.flatten (c ++ post.flatten) []
      s e hs2 he (by simpa [List.append_assoc] using hno2)
  rw [hrun, hall]
  exact ⟨rfl, rfl, hc.trans ⟨[], post.flatten, by simp⟩, payloadsOf_map_textDelta pre⟩

/-- The amended C3 at the chunks `hi `, `a__JSON_START__` and `b`. -/
theorem unterminated_payload_stays_in_buffer_witness :
    (sendMessage literalHost
        (["hi ".toList] ++ "a__JSON_START__".toList :: ["b".toList])).fullText =
        ["hi ".toList].flatten ∧
      (sendMessage literalHost
        (["hi ".toList] ++ "a__JSON_START__".toList :: ["b".toList])).buffer =
        "a__JSON_START__".toList ++ ["b".toList].flatten ∧
      START_MARKER <:+: (sendMessage literalHost
        (["hi ".toList] ++ "a__JSON_START__".toList :: ["b".toList])).buffer ∧
      payloadsOf (sendMessage literalHost
        (["hi ".toList] ++ "a__JSON_START__".toList :: ["b".toList])).events = [] :=
  unterminated_payload_stays_in_buffer literalHost literalHost_rejects_underscore
    ["hi ".toList] ["b".toList] "a__JSON_START__".toList
    (by
      intro d hd
      simp only [List.mem_singleton] at hd
      rw [hd]
      exact (indexOf_none_iff _ _).mp (by decide))
    ⟨"a".toList, [], by decide⟩
    (noEndAfterStart_of_no_end _ (by decide))

/-- C5 (amended): on a host whose `JSON.parse` rejects the empty text and
every text beginning with an underscore, let a loop iteration leave a START
marker and no END marker in the buffer. Then the text before that START
marker has not been appended: either the iteration appended nothing and kept
the old buffer and the chunk whole, or it consumed a payload that came
earlier, appended only the text before that payload's START marker, and kept
everything after that payload's END marker. In both cases the text before
the START marker is still in the buffer. -/
theorem text_before_start_is_held_back {J : Type} (h : JsonHost J)
    (hempty : h.parse [] = none) (hrej : ∀ t, h.parse ('_' :: t) = none)
    (st : DecoderState J) (chunk : List Char) (s : Nat)
    (hs : indexOf START_MARKER (step h st chunk).buffer = some s)
    (he : indexOf END_MARKER (step h st chunk).buffer = none) :
    ((step h st chunk).fullText = st.fullText ∧
        (step h st chunk).events = st.events ∧
        (step h st chunk).buffer = st.buffer ++ chunk ∨
      ∃ (shown span : List Char) (v : J),
        h.parse span = some v ∧
        ¬ START_MARKER <:+: shown ∧
        st.buffer ++ chunk =
          shown ++ (START_MARKER ++ span ++ END_MARKER) ++ (step h st chunk).buffer ∧
        (step h st chunk).fullText = st.fullText ++ shown ∧
        (step h st chunk).events = st.events ++
          [StreamEvent.textDelta shown, StreamEvent.structuredPayload v]) ∧
      (step h st chunk).buffer.take s ++ START_MARKER <+: (step h st chunk).buffer := by
  have hkept : (step h st chunk).buffer.take s ++ START_MARKER <+:
      (step h st chunk).buffer := by
    obtain ⟨h1, _, _⟩ := (indexOf_some_iff _ _ _).mp hs
    exact ⟨_, (split_at_occurrence START_MARKER _ s h1).symm⟩
  refine ⟨?_, hkept⟩
  cases hs0 : indexOf START_MARKER (st.buffer ++ chunk) with
  | none =>
    rw [step_without_start h st chunk hs0] at hs
    have h0 : indexOf START_MARKER [] = none := by decide
    change indexOf START_MARKER [] = some s at hs
    rw [h0] at hs
    exact absurd hs (by simp)
  | some s0 =>
    cases he0 : indexOf END_MARKER (st.buffer ++ chunk) with
    | none =>
      left
      simp only [step, hs0, he0, and_self]
    | some e =>
      cases hp : h.parse (substring (st.buffer ++ chunk) (s0 + 14) e) with
      | none =>
        have hb : (step h st chunk).buffer = st.buffer ++ chunk := by
          simp only [step, hs0, he0, hp]
        rw [hb, he0] at he
        exact absurd he (by simp)
      | some v =>
        cases hr : h.renderThrows v with
        | true =>
          have hb : (step h st chunk).buffer = st.buffer ++ chunk := by
            simp only [step, hs0, he0, hp, hr, if_true]
          rw [hb, he0] at he
          exact absurd he (by simp)
        | false =>
          right
          have hse := payload_requires_start_before_end h hempty hrej _ s0 e v he0 hp
          have hsplit := payload_split (st.buffer ++ chunk) s0 e hs0 he0 (Nat.le_of_lt hse)
          have hstep := step_payload h st chunk s0 e v hs0 he0 hp hr
          have hshown : ¬ START_MARKER <:+: (st.buffer ++ chunk).take s0 := by
            intro hinf
            obtain ⟨j, hj⟩ : ∃ j, indexOf START_MARKER ((st.buffer ++ chunk).take s0) =
                some j := by
              cases hi : indexOf START_MARKER ((st.buffer ++ chunk).take s0) with
              | none => exact absurd hinf ((indexOf_none_iff _ _).mp hi)
              | some j => exact ⟨j, rfl⟩
            have hj2 := indexOf_append_of_some _ _ ((st.buffer ++ chunk).drop s0) _ hj
            rw [List.take_append_drop, hs0] at hj2
            have hb := indexOf_some_bound _ _ _ hj
            rw [List.length_take, START_MARKER_length] at hb
            have : s0 = j := Option.some.inj hj2
            omega
          refine ⟨(st.buffer ++ chunk).take s0, substring (st.buffer ++ chunk) (s0 + 14) e,
            v, hp, hshown, ?_, ?_, ?_⟩
          · rw [hstep]
            exact hsplit
          · rw [hstep]
          · rw [hstep]

/-- The amended C5 at the first chunk
`a__JSON_START__1__JSON_END__b__JSON_START__c`: the payload `1` is consumed,
`a` is appended, and `b__JSON_START__c` is left in the buffer, where one
character precedes the START marker. -/
theorem text_before_start_is_held_back_witness :
    ((step literalHost (DecoderState.init JsonLit)
          "a__JSON_START__1__JSON_END__b__JSON_START__c".toList).fullText =
          (DecoderState.init JsonLit).fullText ∧
        (step literalHost (DecoderState.init JsonLit)
          "a__JSON_START__1__JSON_END__b__JSON_START__c".toList).events =
          (DecoderState.init JsonLit).events ∧
        (step literalHost (DecoderState.init JsonLit)
          "a__JSON_START__1__JSON_END__b__JSON_START__c".toList).buffer =
          (DecoderState.init JsonLit).buffer ++
            "a__JSON_START__1__JSON_END__b__JSON_START__c".toList ∨
      ∃ (shown span : List Char) (v : JsonLit),
        literalHost.parse span = some v ∧
        ¬ START_MARKER <:+: shown ∧
        (DecoderState.init JsonLit).buffer ++
            "a__JSON_START__1__JSON_END__b__JSON_START__c".toList =
          shown ++ (START_MARKER ++ span ++ END_MARKER) ++
            (step literalHost (DecoderState.init JsonLit)
              "a__JSON_START__1__JSON_END__b__JSON_START__c".toList).buffer ∧
        (step literalHost (DecoderState.init JsonLit)
          "a__JSON_START__1__JSON_END__b__JSON_START__c".toList).fullText =
          (DecoderState.init JsonLit).fullText ++ shown ∧
        (step literalHost (DecoderState.init JsonLit)
          "a__JSON_START__1__JSON_END__b__JSON_START__c".toList).events =
          (DecoderState.init JsonLit).events ++
            [StreamEvent.textDelta shown, StreamEvent.structuredPayload v]) ∧
      (step literalHost (DecoderState.init JsonLit)
          "a__JSON_START__1__JSON_END__b__JSON_START__c".toList).buffer.take 1 ++
          START_MARKER <+:
        (step literalHost (DecoderState.init JsonLit)
          "a__JSON_START__1__JSON_END__b__JSON_START__c".toList).buffer :=
  text_before_start_is_held_back literalHost (by decide) literalHost_rejects_underscore
    (DecoderState.init JsonLit) "a__JSON_START__1__JSON_END__b__JSON_START__c".toList 1
    (by decide) (by decide)

/-! ## Stability scores at the thresholds -/

theorem two_slope_near_threshold (t slope ε : ℚ) (ht : 0 < t) (hslope : 60 / t ≤ slope)
    (hε : 0 < ε) :
    ∃ δ : ℚ, 0 < δ ∧ ∀ x : ℚ, t < x → x < t + δ →
      |(if x ≤ t then 60 + ((t - x) / t) * 40 else max 5 (60 - ((x - t) / t) * 60)) - 60|
        < ε := by
  have hslope0 : 0 < slope := lt_of_lt_of_le (div_pos (by norm_num) ht) hslope
  refine ⟨min (ε / slope) (50 / slope), lt_min (div_pos hε hslope0)
    (div_pos (by norm_num) hslope0), ?_⟩
  intro x hx1 hx2
  have hd1 : x - t < ε / slope := by
    have := lt_of_lt_of_le hx2 (add_le_add_left (min_le_left _ _) t)
    linarith
  have hd2 : x - t < 50 / slope := by
    have := lt_of_lt_of_le hx2 (add_le_add_left (min_le_right _ _) t)
    linarith
  have hpos : 0 < x - t := by linarith
  have hval : (x - t) / t * 60 = (x - t) * (60 / t) := by
    field_simp
  have hle : (x - t) / t * 60 ≤ (x - t) * slope := by
    rw [hval]
    exact mul_le_mul_of_nonneg_left hslope (le_of_lt hpos)
  have hlt1 : (x - t) * slope < ε := by
    have := mul_lt_mul_of_pos_right hd1 hslope0
    rwa [div_mul_cancel₀ _ (ne_of_gt hslope0)] at this
  have hlt2 : (x - t) * slope < 50 := by
    have := mul_lt_mul_of_pos_right hd2 hslope0
    rwa [div_mul_cancel₀ _ (ne_of_gt hslope0)] at this
  have hnonneg : 0 < (x - t) / t * 60 := by
    have : 0 < (x - t) / t := div_pos hpos ht
    linarith
  rw [if_neg (not_le.mpr hx1)]
  have hmax : max 5 (60 - (x - t) / t * 60) = 60 - (x - t) / t * 60 :=
    max_eq_right (by linarith)
  rw [hmax, abs_lt]
  constructor <;> linarith

/-- C28: for every metrics record whose `debt_equity` and `beta` each parse
to no number or to a non-negative number, and so for every record whose four
fields are each missing, non-numeric or non-negative, the four stability
scores lie in [5, 100]. The two branches of `deScore` meet at 60 at
debt-to-equity 2.0: the score is 60 at 2.0, and it tends to 60 as the
debt-to-equity decreases to 2.0 from above. The two branches of `betaScore`
meet at 60 at beta 1.3 in the same way. -/
theorem stability_scores_of_nonnegative_inputs (scan : List Char → Option ℚ)
    (m : Metrics)
    (hde : ∀ q : ℚ, parseFloat scan m.debt_equity = some q → 0 ≤ q)
    (hbeta : ∀ q : ℚ, parseFloat scan m.beta = some q → 0 ≤ q) :
    (5 ≤ (drawStabilityBenchmarking scan m).crScore ∧
        (drawStabilityBenchmarking scan m).crScore ≤ 100) ∧
      (5 ≤ (drawStabilityBenchmarking scan m).deScore ∧
        (drawStabilityBenchmarking scan m).deScore ≤ 100) ∧
      (5 ≤ (drawStabilityBenchmarking scan m).betaScore ∧
        (drawStabilityBenchmarking scan m).betaScore ≤ 100) ∧
      (5 ≤ (drawStabilityBenchmarking scan m).ownScore ∧
        (drawStabilityBenchmarking scan m).ownScore ≤ 100) ∧
      (∀ m2 : Metrics, parseFloat scan m2.debt_equity = some 2.0 →
        (drawStabilityBenchmarking scan m2).deScore = 60) ∧
      (∀ ε : ℚ, 0 < ε → ∃ δ : ℚ, 0 < δ ∧ ∀ (m2 : Metrics) (de : ℚ),
        parseFloat scan m2.debt_equity = some de → 2.0 < de → de < 2.0 + δ →
        |(drawStabilityBenchmarking scan m2).deScore - 60| < ε) ∧
      (∀ m2 : Metrics, parseFloat scan m2.beta = some 1.3 →
        (drawStabilityBenchmarking scan m2).betaScore = 60) ∧
      (∀ ε : ℚ, 0 < ε → ∃ δ : ℚ, 0 < δ ∧ ∀ (m2 : Metrics) (beta : ℚ),
        parseFloat scan m2.beta = some beta → 1.3 < beta → beta < 1.3 + δ →
        |(drawStabilityBenchmarking scan m2).betaScore - 60| < ε) := by
  have hnonneg : ∀ x : Option ℚ, (∀ q : ℚ, x = some q → 0 ≤ q) → 0 ≤ orDefault x 0 := by
    intro x hx
    cases x with
    | none => simp [orDefault]
    | some q =>
      by_cases hq : q = 0
      · simp [orDefault, hq]
      · simpa [orDefault, hq] using hx q rfl
  have hde0 := hnonneg _ hde
  have hbeta0 := hnonneg _ hbeta
  refine ⟨?_, ?_, ?_, ?_, ?_, ?_, ?_, ?_⟩
  · simp only [drawStabilityBenchmarking]
    exact ⟨le_max_left _ _, max_le (by norm_num) (min_le_left _ _)⟩
  · simp only [drawStabilityBenchmarking]
    exact ⟨two_slope_lower _ _ (by norm_num), two_slope_upper _ _ (by norm_num) hde0⟩
  · simp only [drawStabilityBenchmarking]
    exact ⟨two_slope_lower _ _ (by norm_num), two_slope_upper _ _ (by norm_num) hbeta0⟩
  · simp only [drawStabilityBenchmarking]
    exact ⟨le_max_left _ _, max_le (by norm_num) (min_le_left _ _)⟩
  · intro m2 h
    simp only [drawStabilityBenchmarking, h, orDefault]
    norm_num
  · intro ε hε
    obtain ⟨δ, hδ, hall⟩ := two_slope_near_threshold 2.0 30 ε (by norm_num) (by norm_num) hε
    refine ⟨δ, hδ, ?_⟩
    intro m2 de hparse h1 h2
    have hne : de ≠ 0 := by
      intro h0
      rw [h0] at h1
      norm_num at h1
    have := hall de h1 h2
    simpa only [drawStabilityBenchmarking, hparse, orDefault, hne, if_false] using this
  · intro m2 h
    simp only [drawStabilityBenchmarking, h, orDefault]
    norm_num
  · intro ε hε
    obtain ⟨δ, hδ, hall⟩ := two_slope_near_threshold 1.3 50 ε (by norm_num) (by norm_num) hε
    refine ⟨δ, hδ, ?_⟩
    intro m2 beta hparse h1 h2
    have hne : beta ≠ 0 := by
      intro h0
      rw [h0] at h1
      norm_num at h1
    have := hall beta h1 h2
    simpa only [drawStabilityBenchmarking, hparse, orDefault, hne, if_false] using this

/-- C28 at the record `{current_ratio: 3, beta: 4, debt_equity: 0}` without
ownership: the solvency score and the beta score lie in [5, 100]. -/
theorem stability_scores_of_nonnegative_inputs_witness :
    (5 ≤ (drawStabilityBenchmarking scanNothing
          { numericMetrics 3 4 0 1 with ownership := JSValue.undefined }).deScore ∧
        (drawStabilityBenchmarking scanNothing
          { numericMetrics 3 4 0 1 with ownership := JSValue.undefined }).deScore ≤ 100) ∧
      (5 ≤ (drawStabilityBenchmarking scanNothing
          { numericMetrics 3 4 0 1 with ownership := JSValue.undefined }).betaScore ∧
        (drawStabilityBenchmarking scanNothing
          { numericMetrics 3 4 0 1 with ownership := JSValue.undefined }).betaScore ≤ 100) :=
  have hw := stability_scores_of_nonnegative_inputs scanNothing
    { numericMetrics 3 4 0 1 with ownership := JSValue.undefined }
    (by intro q hq; cases hq; norm_num) (by intro q hq; cases hq; norm_num)
  ⟨hw.2.1, hw.2.2.1⟩

/-! ## The mantissa of an abbreviated number -/

theorem printed_mantissa_range (x : ℚ) (h1 : 1 ≤ x) (h2 : x < 1000) :
    ∃ p : ℚ, scanDecimal (toFixed x 2) = some p ∧ 1 ≤ p ∧ p ≤ 1000 ∧ |p - x| < 1 / 100 := by
  have hx0 : (0 : ℚ) ≤ x * 10 ^ 2 + 1 / 2 := by nlinarith
  refine ⟨_, scanDecimal_toFixed x 2 (by linarith) (by norm_num), ?_, ?_, ?_⟩
  · rw [toNat_floor_cast _ hx0]
    have hk : (100 : ℤ) ≤ ⌊x * 10 ^ 2 + 1 / 2⌋ := by
      apply Int.le_floor.mpr
      push_cast
      nlinarith
    have hq : (100 : ℚ) ≤ (⌊x * 10 ^ 2 + 1 / 2⌋ : ℚ) := by exact_mod_cast hk
    rw [le_div_iff₀ (by norm_num)]
    linarith
  · rw [toNat_floor_cast _ hx0]
    have hk : ⌊x * 10 ^ 2 + 1 / 2⌋ < 100001 := by
      apply Int.floor_lt.mpr
      push_cast
      nlinarith
    have hk2 : ⌊x * 10 ^ 2 + 1 / 2⌋ ≤ 100000 := by omega
    have hq : (⌊x * 10 ^ 2 + 1 / 2⌋ : ℚ) ≤ 100000 := by exact_mod_cast hk2
    rw [div_le_iff₀ (by norm_num)]
    linarith
  · rw [toNat_floor_cast _ hx0]
    have hlo := Int.floor_le (x * 10 ^ 2 + 1 / 2)
    have hhi := Int.lt_floor_add_one (x * 10 ^ 2 + 1 / 2)
    rw [abs_lt]
    constructor
    · rw [lt_sub_iff_add_lt, lt_div_iff₀ (by norm_num)]
      linarith
    · rw [sub_lt_iff_lt_add, div_lt_iff₀ (by norm_num)]
      linarith

theorem toFixed_two_of_thousand (x : ℚ) (h1 : 999995 / 1000 ≤ x) (h2 : x < 1000) :
    toFixed x 2 = "1000.00".toList := by
  have hx0 : 0 ≤ x := by linarith
  have hfl : ⌊|x| * 10 ^ 2 + 1 / 2⌋ = 100000 := by
    rw [abs_of_nonneg hx0, Int.floor_eq_iff]
    constructor
    · push_cast
      linarith
    · push_cast
      linarith
  unfold toFixed
  simp only [hfl]
  rw [if_neg (not_lt.mpr hx0)]
  decide

/-- C29 (amended): for every number `n` with `1e6 ≤ n < 1e15` that `String`
writes as a plain decimal numeral, `formatLargeNumber` prints a numeric part
followed by the suffix chosen by the thresholds: `T` and the mantissa
`n / 1e12` from 1e12 up, `B` and `n / 1e9` from 1e9 up, `M` and `n / 1e6`
otherwise. The mantissa is at least 1 and less than 1000; the number printed
differs from it by less than 0.01 and is at least 1.00 and at most 1000.00;
for a mantissa from 999.995 up the numeric part printed is `1000.00`. -/
theorem large_number_mantissa_range (numToString toLocaleString : ℚ → List Char)
    (n : ℚ) (negative : Bool) (ip fp : List Char)
    (hip : ∀ c ∈ ip, c.isDigit = true) (hfp : ∀ c ∈ fp, c.isDigit = true)
    (hne : ip ≠ [] ∨ fp ≠ [])
    (hstr : numToString n = decimalNumeral negative ip fp)
    (hvalue : decimalNumeralValue negative ip fp = n)
    (hlo : n ≥ 1e6) (hhi : n < 1e15) :
    ∃ (body : List Char) (p : ℚ),
      scanDecimal body = some p ∧ 1 ≤ p ∧ p ≤ 1000 ∧
        ((n ≥ 1e12 ∧
            formatLargeNumber numToString toLocaleString (JSValue.number n) =
              body ++ "T".toList ∧
            1 ≤ n / 1e12 ∧ n / 1e12 < 1000 ∧ |p - n / 1e12| < 1 / 100 ∧
            (999995 / 1000 ≤ n / 1e12 → body = "1000.00".toList)) ∨
          (n ≥ 1e9 ∧ n < 1e12 ∧
            formatLargeNumber numToString toLocaleString (JSValue.number n) =
              body ++ "B".toList ∧
            1 ≤ n / 1e9 ∧ n / 1e9 < 1000 ∧ |p - n / 1e9| < 1 / 100 ∧
            (999995 / 1000 ≤ n / 1e9 → body = "1000.00".toList)) ∨
          (n ≥ 1e6 ∧ n < 1e9 ∧
            formatLargeNumber numToString toLocaleString (JSValue.number n) =
              body ++ "M".toList ∧
            1 ≤ n / 1e6 ∧ n / 1e6 < 1000 ∧ |p - n / 1e6| < 1 / 100 ∧
            (999995 / 1000 ≤ n / 1e6 → body = "1000.00".toList))) := by
  have hmain := formatLargeNumber_of_numeral numToString toLocaleString (JSValue.number n)
    negative ip fp hip hfp hne hstr ⟨by simp, by simp⟩
  rw [hvalue] at hmain
  by_cases h12 : n ≥ 1e12
  · have hx1 : 1 ≤ n / 1e12 := by
      rw [le_div_iff₀ (by norm_num)]; linarith
    have hx2 : n / 1e12 < 1000 := by
      rw [div_lt_iff₀ (by norm_num)]; norm_num at hhi ⊢; linarith
    obtain ⟨p, hp, hp1, hp2, hp3⟩ := printed_mantissa_range _ hx1 hx2
    exact ⟨toFixed (n / 1e12) 2, p, hp, hp1, hp2,
      Or.inl ⟨h12, by rw [hmain, if_pos h12], hx1, hx2, hp3,
        fun h => toFixed_two_of_thousand _ h hx2⟩⟩
  · by_cases h9 : n ≥ 1e9
    · have hx1 : 1 ≤ n / 1e9 := by
        rw [le_div_iff₀ (by norm_num)]; linarith
      have hx2 : n / 1e9 < 1000 := by
        rw [div_lt_iff₀ (by norm_num)]; norm_num at h12 ⊢; linarith
      obtain ⟨p, hp, hp1, hp2, hp3⟩ := printed_mantissa_range _ hx1 hx2
      exact ⟨toFixed (n / 1e9) 2, p, hp, hp1, hp2,
        Or.inr (Or.inl ⟨h9, not_le.mp h12, by rw [hmain, if_neg h12, if_pos h9],
          hx1, hx2, hp3, fun h => toFixed_two_of_thousand _ h hx2⟩)⟩
    · have hx1 : 1 ≤ n / 1e6 := by
        rw [le_div_iff₀ (by norm_num)]; linarith
      have hx2 : n / 1e6 < 1000 := by
        rw [div_lt_iff₀ (by norm_num)]; norm_num at h9 ⊢; linarith
      obtain ⟨p, hp, hp1, hp2, hp3⟩ := printed_mantissa_range _ hx1 hx2
      exact ⟨toFixed (n / 1e6) 2, p, hp, hp1, hp2,
        Or.inr (Or.inr ⟨hlo, not_le.mp h9,
          by rw [hmain, if_neg h12, if_neg h9, if_pos hlo], hx1, hx2, hp3,
          fun h => toFixed_two_of_thousand _ h hx2⟩)⟩

/-- The amended C29 at the number 999995000: the mantissa is 999.995 and the
text is `1000.00M`. -/
theorem large_number_mantissa_range_witness :
    ∃ (body : List Char) (p : ℚ),
      scanDecimal body = some p ∧ 1 ≤ p ∧ p ≤ 1000 ∧
        (((999995000 : ℚ) ≥ 1e12 ∧
            formatLargeNumber decimalToString decimalToString (JSValue.number 999995000) =
              body ++ "T".toList ∧
            1 ≤ (999995000 : ℚ) / 1e12 ∧ (999995000 : ℚ) / 1e12 < 1000 ∧
            |p - 999995000 / 1e12| < 1 / 100 ∧
            (999995 / 1000 ≤ (999995000 : ℚ) / 1e12 → body = "1000.00".toList)) ∨
          ((999995000 : ℚ) ≥ 1e9 ∧ (999995000 : ℚ) < 1e12 ∧
            formatLargeNumber decimalToString decimalToString (JSValue.number 999995000) =
              body ++ "B".toList ∧
            1 ≤ (999995000 : ℚ) / 1e9 ∧ (999995000 : ℚ) / 1e9 < 1000 ∧
            |p - 999995000 / 1e9| < 1 / 100 ∧
            (999995 / 1000 ≤ (999995000 : ℚ) / 1e9 → body = "1000.00".toList)) ∨
          ((999995000 : ℚ) ≥ 1e6 ∧ (999995000 : ℚ) < 1e9 ∧
            formatLargeNumber decimalToString decimalToString (JSValue.number 999995000) =
              body ++ "M".toList ∧
            1 ≤ (999995000 : ℚ) / 1e6 ∧ (999995000 : ℚ) / 1e6 < 1000 ∧
            |p - 999995000 / 1e6| < 1 / 100 ∧
            (999995 / 1000 ≤ (999995000 : ℚ) / 1e6 → body = "1000.00".toList))) :=
  large_number_mantissa_range decimalToString decimalToString 999995000
    false "999995000".toList [] (by decide) (by decide) (by decide) (by decide!)
    (by decide!) (by decide!) (by decide!)

/-! ## Rounding to binary64 -/

theorem pow2_eq (e : ℤ) : pow2 e = (2 : ℚ) ^ e := by
  unfold pow2
  split_ifs with h
  · obtain ⟨n, rfl⟩ := Int.eq_ofNat_of_zero_le h
    simp
  · obtain ⟨n, rfl⟩ : ∃ n : ℕ, e = -(n : ℤ) := ⟨(-e).toNat, by omega⟩
    simp [zpow_neg]

theorem pow2_pos (e : ℤ) : 0 < pow2 e := by
  rw [pow2_eq]
  positivity

theorem bitLengthAux_zero (fuel : ℕ) : bitLengthAux fuel 0 = 0 := by
  cases fuel <;> simp [bitLengthAux]

theorem bitLengthAux_spec : ∀ (fuel n : ℕ), n ≤ fuel → 0 < n →
    2 ^ (bitLengthAux fuel n - 1) ≤ n ∧ n < 2 ^ bitLengthAux fuel n ∧
      1 ≤ bitLengthAux fuel n := by
  intro fuel
  induction fuel with
  | zero =>
    intro n h1 h2
    omega
  | succ fuel ih =>
    intro n h1 h2
    have hn : n ≠ 0 := by omega
    simp only [bitLengthAux, hn, if_false]
    by_cases h : n / 2 = 0
    · rw [h, bitLengthAux_zero]
      have : n = 1 := by omega
      subst this
      simp
    · obtain ⟨ha, hb, hc⟩ := ih (n / 2) (by omega) (by omega)
      refine ⟨?_, ?_, by omega⟩
      · have : bitLengthAux fuel (n / 2) + 1 - 1 = (bitLengthAux fuel (n / 2) - 1) + 1 := by
          omega
        rw [this, pow_succ]
        omega
      · rw [pow_succ]
        omega

theorem bitLength_spec (n : ℕ) (h : 0 < n) :
    2 ^ (bitLength n - 1) ≤ n ∧ n < 2 ^ bitLength n ∧ 1 ≤ bitLength n :=
  bitLengthAux_spec n n le_rfl h

/-- For a positive `x`, `floorLog2 x` is the integer `k` with
`2^k ≤ x < 2^(k+1)`. -/
theorem floorLog2_spec (x : ℚ) (hx : 0 < x) :
    pow2 (floorLog2 x) ≤ x ∧ x < pow2 (floorLog2 x + 1) := by
  have hnum : 0 < x.num := Rat.num_pos.mpr hx
  have hden : 0 < x.den := x.den_pos
  obtain ⟨na, nb, nc⟩ := bitLength_spec x.num.natAbs (by omega)
  obtain ⟨da, db, dc⟩ := bitLength_spec x.den hden
  set a := bitLength x.num.natAbs with ha
  set b := bitLength x.den with hb
  have hxeq : x = (x.num.natAbs : ℚ) / (x.den : ℚ) := by
    have h1 : ((x.num.natAbs : ℤ) : ℚ) = (x.num : ℚ) := by
      rw [Int.natAbs_of_nonneg (le_of_lt hnum)]
    have h2 : ((x.num.natAbs : ℕ) : ℚ) = ((x.num.natAbs : ℤ) : ℚ) :=
      (Int.cast_natCast x.num.natAbs).symm
    rw [h2, h1]
    exact (Rat.num_div_den x).symm
  have hdq : (0 : ℚ) < (x.den : ℚ) := by exact_mod_cast hden
  have na' : (2 : ℚ) ^ (a - 1) ≤ (x.num.natAbs : ℚ) := by exact_mod_cast na
  have nb' : (x.num.natAbs : ℚ) < (2 : ℚ) ^ a := by exact_mod_cast nb
  have da' : (2 : ℚ) ^ (b - 1) ≤ (x.den : ℚ) := by exact_mod_cast da
  have db' : (x.den : ℚ) < (2 : ℚ) ^ b := by exact_mod_cast db
  have hupper : x < (2 : ℚ) ^ ((a : ℤ) - (b : ℤ) + 1) := by
    have he : ((a : ℤ) - (b : ℤ) + 1) = (a : ℤ) - ((b - 1 : ℕ) : ℤ) := by omega
    rw [he, zpow_sub₀ (by norm_num), zpow_natCast, zpow_natCast, hxeq]
    rw [div_lt_div_iff₀ hdq (by positivity)]
    calc (x.num.natAbs : ℚ) * 2 ^ (b - 1) < 2 ^ a * 2 ^ (b - 1) :=
          mul_lt_mul_of_pos_right nb' (by positivity)
      _ ≤ 2 ^ a * (x.den : ℚ) := mul_le_mul_of_nonneg_left da' (by positivity)
  have hlower : (2 : ℚ) ^ ((a : ℤ) - (b : ℤ) - 1) ≤ x := by
    have he : ((a : ℤ) - (b : ℤ) - 1) = ((a - 1 : ℕ) : ℤ) - (b : ℤ) := by omega
    rw [he, zpow_sub₀ (by norm_num), zpow_natCast, zpow_natCast]
    rw [hxeq, div_le_div_iff₀ (by positivity) hdq]
    calc (2 : ℚ) ^ (a - 1) * (x.den : ℚ) ≤ (x.num.natAbs : ℚ) * (x.den : ℚ) :=
          mul_le_mul_of_nonneg_right na' (le_of_lt hdq)
      _ ≤ (x.num.natAbs : ℚ) * 2 ^ b :=
          mul_le_mul_of_nonneg_left (le_of_lt db') (by positivity)
  unfold floorLog2
  simp only [← ha, ← hb]
  split_ifs with h
  · exact ⟨h, by rw [pow2_eq]; exact hupper⟩
  · refine ⟨by rw [pow2_eq]; exact hlower, ?_⟩
    have : (a : ℤ) - (b : ℤ) - 1 + 1 = (a : ℤ) - (b : ℤ) := by ring
    rw [this]
    exact not_le.mp h

theorem roundHalfEven_cases (x : ℚ) :
    roundHalfEven x = ⌊x⌋ ∧ x - ⌊x⌋ ≤ 1 / 2 ∨ roundHalfEven x = ⌊x⌋ + 1 ∧ 1 / 2 ≤ x - ⌊x⌋ := by
  unfold roundHalfEven
  simp only
  split_ifs with h1 h2 h3
  · exact Or.inl ⟨rfl, le_of_lt h1⟩
  · exact Or.inr ⟨rfl, le_of_lt h2⟩
  · exact Or.inl ⟨rfl, not_lt.mp h2⟩
  · exact Or.inr ⟨rfl, not_lt.mp h1⟩

theorem roundHalfEven_abs_sub (x : ℚ) : |(roundHalfEven x : ℚ) - x| ≤ 1 / 2 := by
  have h1 := Int.floor_le x
  have h2 := Int.lt_floor_add_one x
  rw [abs_le]
  rcases roundHalfEven_cases x with ⟨h, hh⟩ | ⟨h, hh⟩
  · rw [h]; constructor <;> linarith
  · rw [h]; push_cast; constructor <;> linarith

theorem roundHalfEven_nonneg (x : ℚ) (hx : 0 ≤ x) : 0 ≤ roundHalfEven x := by
  have h0 : 0 ≤ ⌊x⌋ := Int.floor_nonneg.mpr hx
  rcases roundHalfEven_cases x with ⟨h, _⟩ | ⟨h, _⟩ <;> omega

theorem roundHalfEven_nonpos (x : ℚ) (hx : x ≤ 0) : roundHalfEven x ≤ 0 := by
  rcases eq_or_lt_of_le hx with h0 | hneg
  · subst h0
    unfold roundHalfEven
    norm_num
  · have h1 : ⌊x⌋ < 0 := Int.floor_lt.mpr (by exact_mod_cast hneg)
    rcases roundHalfEven_cases x with ⟨h, _⟩ | ⟨h, _⟩ <;> omega

/-- What rounding to binary64 gives: a finite value of the same sign within
`(|x| + 1) / 2^53` of `x`, or the infinity on the side of `x` for a
magnitude from `2^1023` up; never `NaN`. -/
theorem numberValue_spec (x : ℚ) :
    (∃ v : ℚ, numberValue x = Number.finite v ∧ |v - x| ≤ (|x| + 1) / 2 ^ 53 ∧
        (0 ≤ x → 0 ≤ v) ∧ (x ≤ 0 → v ≤ 0)) ∨
      (numberValue x = Number.infinity (decide (x < 0)) ∧ (2 : ℚ) ^ 1023 ≤ |x|) := by
  by_cases hx : x = 0
  · subst hx
    left
    exact ⟨0, by simp [numberValue], by norm_num, by simp, by simp⟩
  have hpos : 0 < |x| := abs_pos.mpr hx
  obtain ⟨hk, _⟩ := floorLog2_spec |x| hpos
  set e : ℤ := max (floorLog2 |x| - 52) (-1074) with he
  set m : ℤ := roundHalfEven (x / pow2 e) with hm
  have hP : 0 < pow2 e := pow2_pos e
  have herr : |(m : ℚ) * pow2 e - x| ≤ pow2 e / 2 := by
    have h1 := roundHalfEven_abs_sub (x / pow2 e)
    have h2 : (m : ℚ) * pow2 e - x = ((m : ℚ) - x / pow2 e) * pow2 e := by
      field_simp
    rw [h2, abs_mul, abs_of_pos hP]
    calc |(m : ℚ) - x / pow2 e| * pow2 e ≤ 1 / 2 * pow2 e :=
          mul_le_mul_of_nonneg_right h1 (le_of_lt hP)
      _ = pow2 e / 2 := by ring
  have hPle : pow2 e / 2 ≤ (|x| + 1) / 2 ^ 53 := by
    rcases max_cases (floorLog2 |x| - 52) (-1074) with ⟨h1, _⟩ | ⟨h1, _⟩
    · have h2 : pow2 e = pow2 (floorLog2 |x|) / 2 ^ 52 := by
        rw [he, h1, pow2_eq, pow2_eq, zpow_sub₀ (by norm_num)]
        norm_num
      rw [h2]
      have : pow2 (floorLog2 |x|) / 2 ^ 52 / 2 = pow2 (floorLog2 |x|) / 2 ^ 53 := by
        rw [div_div]; norm_num
      rw [this]
      apply div_le_div_of_nonneg_right _ (by positivity)
      linarith
    · have h2 : pow2 e = 1 / 2 ^ 1074 := by
        rw [he, h1, pow2_eq, zpow_neg]
        norm_num
      rw [h2]
      have h3 : (1 : ℚ) / 2 ^ 1074 / 2 ≤ 1 / 2 ^ 53 := by
        rw [div_div]
        apply one_div_le_one_div_of_le (by positivity)
        have : (2 : ℚ) ^ 53 ≤ 2 ^ 1074 := pow_le_pow_right₀ (by norm_num) (by norm_num)
        linarith [show (0 : ℚ) < 2 ^ 1074 by positivity]
      calc (1 : ℚ) / 2 ^ 1074 / 2 ≤ 1 / 2 ^ 53 := h3
        _ ≤ (|x| + 1) / 2 ^ 53 := by
          apply div_le_div_of_nonneg_right _ (by positivity)
          linarith
  have hfin : |(m : ℚ) * pow2 e - x| ≤ (|x| + 1) / 2 ^ 53 := le_trans herr hPle
  have hval : numberValue x =
      if pow2 1024 ≤ |(m : ℚ) * pow2 e| then Number.infinity (decide (x < 0))
      else Number.finite (m * pow2 e) := by
    unfold numberValue
    rw [if_neg hx]
  by_cases hover : pow2 1024 ≤ |(m : ℚ) * pow2 e|
  · right
    rw [hval, if_pos hover]
    refine ⟨rfl, ?_⟩
    have h1024 : pow2 1024 = 2 * 2 ^ 1023 := by
      rw [pow2_eq]
      norm_num
    rw [h1024] at hover
    have hT : (1 : ℚ) ≤ 2 ^ 1023 := one_le_pow₀ (by norm_num)
    have htri : |(m : ℚ) * pow2 e| ≤ |x| + (|x| + 1) / 2 ^ 53 := by
      have := abs_sub_abs_le_abs_sub ((m : ℚ) * pow2 e) x
      linarith
    have hsmall : (|x| + 1) / 2 ^ 53 ≤ (|x| + 1) / 2 := by
      have h53 : (2 : ℚ) ^ 1 ≤ 2 ^ 53 := pow_le_pow_right₀ (by norm_num) (by norm_num)
      rw [pow_one] at h53
      have hnn : (0 : ℚ) ≤ |x| + 1 := add_nonneg (abs_nonneg x) zero_le_one
      exact div_le_div_of_nonneg_left hnn (by norm_num) h53
    by_contra hlt
    push_neg at hlt
    linarith
  · left
    rw [hval, if_neg hover]
    refine ⟨_, rfl, hfin, ?_, ?_⟩
    · intro h0
      have : 0 ≤ m := roundHalfEven_nonneg _ (div_nonneg h0 (le_of_lt hP))
      have : (0 : ℚ) ≤ (m : ℚ) := by exact_mod_cast this
      positivity
    · intro h0
      have : m ≤ 0 := roundHalfEven_nonpos _ (div_nonpos_of_nonpos_of_nonneg h0 (le_of_lt hP))
      have : (m : ℚ) ≤ 0 := by exact_mod_cast this
      exact mul_nonpos_of_nonpos_of_nonneg this (le_of_lt hP)

theorem tracks_numberValue (x : ℚ) : Tracks (numberValue x) x (1 / 2 ^ 53) (2 ^ 1023) := by
  rcases numberValue_spec x with ⟨v, hv, herr, _, _⟩ | ⟨hv, hbig⟩
  · rw [hv]
    simp only [Tracks]
    have h0 := abs_nonneg x
    calc |v - x| ≤ (|x| + 1) / 2 ^ 53 := herr
      _ = 1 / 2 ^ 53 * (|x| + 1) := by ring
      _ ≤ 1 / 2 ^ 53 * (|x| + 1000) := by
        apply mul_le_mul_of_nonneg_left _ (by positivity)
        linarith
  · rw [hv]
    simp only [Tracks]
    by_cases hx : x < 0
    · simp only [hx, decide_True, if_true]
      rw [abs_of_neg hx] at hbig
      linarith
    · simp only [hx, decide_False, Bool.false_eq_true, if_false]
      rw [abs_of_nonneg (not_lt.mp hx)] at hbig
      exact hbig

theorem tracks_mono (w : Number) (x E T E2 T2 : ℚ) (h : Tracks w x E T) (hE : E ≤ E2)
    (hT : T2 ≤ T) : Tracks w x E2 T2 := by
  cases w with
  | nan => exact h
  | infinity s =>
    cases s
    · simp only [Tracks, Bool.false_eq_true, if_false] at h ⊢
      linarith
    · simp only [Tracks, if_true] at h ⊢
      linarith
  | finite v =>
    simp only [Tracks] at h ⊢
    have h0 : 0 ≤ |x| + 1000 := by positivity
    exact le_trans h (mul_le_mul_of_nonneg_right hE h0)

theorem tracks_times_hundred (w : Number) (x T : ℚ) (hT : 1000 ≤ T)
    (hbig : 4 * T ≤ 2 ^ 1023) (h : Tracks w x (1 / 2 ^ 53) (4 * T)) :
    Tracks (w.times 100) (x * 100) (102 / 2 ^ 53) (2 * T) := by
  cases w with
  | nan => exact h
  | infinity s =>
    cases s
    · simp only [Tracks, Number.times, Bool.false_eq_true, if_false] at h ⊢
      norm_num
      linarith
    · simp only [Tracks, Number.times, if_true] at h ⊢
      norm_num
      linarith
  | finite v =>
    simp only [Tracks] at h
    simp only [Number.times]
    have hx100 : |x * 100| = |x| * 100 := by rw [abs_mul]; norm_num
    have hv100 : |v * 100| = |v| * 100 := by rw [abs_mul]; norm_num
    rw [abs_le] at h
    obtain ⟨h1, h2⟩ := h
    rcases numberValue_spec (v * 100) with ⟨v2, hv2, herr, _, _⟩ | ⟨hv2, hover⟩
    · rw [hv2]
      simp only [Tracks]
      rw [hx100]
      rw [hv100, abs_le] at herr
      obtain ⟨h3, h4⟩ := herr
      rw [abs_le]
      rcases abs_cases x with ⟨hx1, hx2⟩ | ⟨hx1, hx2⟩ <;>
        rcases abs_cases v with ⟨hv1, hv2⟩ | ⟨hv1, hv2⟩ <;>
        rw [hx1] at h1 h2 ⊢ <;> rw [hv1] at h3 h4 <;>
        norm_num at h1 h2 h3 h4 ⊢ <;>
        constructor <;> linarith
    · rw [hv2]
      simp only [Tracks]
      rw [hv100] at hover
      by_cases hneg : v * 100 < 0
      · simp only [hneg, decide_True, if_true]
        have hv0 : v < 0 := by linarith
        rw [abs_of_neg hv0] at hover
        rcases abs_cases x with ⟨hx1, hx2⟩ | ⟨hx1, hx2⟩ <;>
          rw [hx1] at h1 h2 <;>
          norm_num at h1 h2 <;>
          linarith
      · simp only [hneg, decide_False, Bool.false_eq_true, if_false]
        have hv0 : 0 ≤ v := by linarith
        rw [abs_of_nonneg hv0] at hover
        rcases abs_cases x with ⟨hx1, hx2⟩ | ⟨hx1, hx2⟩ <;>
          rw [hx1] at h1 h2 <;>
          norm_num at h1 h2 <;>
          linarith

theorem tracks_subtractedFrom_hundred (w : Number) (x T : ℚ) (hT : 1000 ≤ T)
    (hbig : 4 * T ≤ 2 ^ 1023) (h : Tracks w x (102 / 2 ^ 53) (2 * T)) :
    Tracks (w.subtractedFrom 100) (100 - x) (114 / 2 ^ 53) T := by
  cases w with
  | nan => exact h
  | infinity s =>
    cases s
    · simp only [Tracks, Number.subtractedFrom, Bool.false_eq_true, if_false, Bool.not_false,
        if_true] at h ⊢
      linarith
    · simp only [Tracks, Number.subtractedFrom, if_true, Bool.not_true, Bool.false_eq_true,
        if_false] at h ⊢
      linarith
  | finite v =>
    simp only [Tracks] at h
    simp only [Number.subtractedFrom]
    rw [abs_le] at h
    obtain ⟨h1, h2⟩ := h
    rcases numberValue_spec (100 - v) with ⟨v2, hv2, herr, _, _⟩ | ⟨hv2, hover⟩
    · rw [hv2]
      simp only [Tracks]
      rw [abs_le] at herr
      obtain ⟨h3, h4⟩ := herr
      rw [abs_le]
      rcases abs_cases x with ⟨hx1, hx2⟩ | ⟨hx1, hx2⟩ <;>
        rcases abs_cases (100 - v) with ⟨hv1, hv2⟩ | ⟨hv1, hv2⟩ <;>
        rcases abs_cases (100 - x) with ⟨hy1, hy2⟩ | ⟨hy1, hy2⟩ <;>
        rw [hx1] at h1 h2 <;> rw [hv1] at h3 h4 <;> rw [hy1] <;>
        norm_num at h1 h2 h3 h4 ⊢ <;>
        constructor <;> linarith
    · rw [hv2]
      simp only [Tracks]
      by_cases hneg : 100 - v < 0
      · simp only [hneg, decide_True, if_true]
        rw [abs_of_neg hneg] at hover
        rcases abs_cases x with ⟨hx1, hx2⟩ | ⟨hx1, hx2⟩ <;>
          rw [hx1] at h1 h2 <;>
          norm_num at h1 h2 <;>
          linarith
      · simp only [hneg, decide_False, Bool.false_eq_true, if_false]
        rw [abs_of_nonneg (not_lt.mp hneg)] at hover
        rcases abs_cases x with ⟨hx1, hx2⟩ | ⟨hx1, hx2⟩ <;>
          rw [hx1] at h1 h2 <;>
          norm_num at h1 h2 <;>
          linarith

theorem clampRound_of_le_zero (x : ℚ) (hx : x ≤ 0) : clampRound x = 0 := by
  unfold clampRound mathRound
  rw [min_eq_right (by linarith), max_eq_left hx]
  norm_num

theorem clampRound_of_ge_hundred (x : ℚ) (hx : 100 - 1 / 10 ^ 9 ≤ x) : clampRound x = 100 := by
  unfold clampRound mathRound
  have h1 : 100 - 1 / 10 ^ 9 ≤ min 100 x := le_min (by norm_num) hx
  have h2 : min 100 x ≤ 100 := min_le_left _ _
  rw [max_eq_right (by linarith [show (0 : ℚ) ≤ 100 - 1 / 10 ^ 9 by norm_num])]
  have h3 : (199 : ℚ) / 2 ≤ 100 - 1 / 10 ^ 9 := by norm_num
  rw [Int.floor_eq_iff]
  constructor
  · push_cast
    linarith
  · push_cast
    linarith

theorem orDefault_zero_of_finite (q : ℚ) :
    (Number.finite q).orDefault 0 = Number.finite q := by
  by_cases hq : q = 0
  · simp [Number.orDefault, hq]
  · simp [Number.orDefault, hq]

/-- A clamped and rounded Number that stands for `x` is the clamped and
rounded value of the formula at a point within `1e-9` of `x`. -/
theorem clampRound_of_tracks (w : Number) (x T : ℚ) (hT : 1000 ≤ T)
    (h : Tracks w x (114 / 2 ^ 53) T) :
    ∃ v : ℚ, |v - x| ≤ 1 / 10 ^ 9 ∧
      (Number.mathMax 0 (Number.mathMin 100 w)).mathRound = Number.finite (clampRound v) := by
  cases w with
  | nan => exact absurd h (by simp [Tracks])
  | infinity s =>
    cases s
    · simp only [Tracks, Bool.false_eq_true, if_false] at h
      refine ⟨x, by simp, ?_⟩
      simp only [Number.mathMin, Number.mathMax, Number.mathRound, clampRound]
      rw [min_eq_left (by linarith)]
    · simp only [Tracks, if_true] at h
      refine ⟨x, by simp, ?_⟩
      rw [clampRound_of_le_zero x (by linarith)]
      simp only [Number.mathMin, Number.mathMax, Number.mathRound, mathRound]
      norm_num
  | finite v =>
    simp only [Tracks] at h
    rw [abs_le] at h
    obtain ⟨h1, h2⟩ := h
    by_cases hhi : 5000 < x
    · refine ⟨x, by simp, ?_⟩
      rw [abs_of_pos (by linarith)] at h1 h2
      norm_num at h1 h2
      have hv : 100 ≤ v := by linarith
      simp only [Number.mathMin, Number.mathMax, Number.mathRound, clampRound]
      rw [min_eq_left hv, min_eq_left (by linarith)]
    · by_cases hlo : x < -5000
      · refine ⟨x, by simp, ?_⟩
        rw [abs_of_neg (by linarith)] at h1 h2
        norm_num at h1 h2
        have hv : v ≤ 0 := by linarith
        simp only [Number.mathMin, Number.mathMax, Number.mathRound, clampRound]
        rw [min_eq_right (by linarith), min_eq_right (by linarith), max_eq_left hv,
          max_eq_left (by linarith)]
      · refine ⟨v, ?_, rfl⟩
        have hx : |x| ≤ 5000 := abs_le.mpr ⟨by linarith, by linarith⟩
        rw [abs_le]
        norm_num at h1 h2 ⊢
        constructor <;> linarith

theorem tracks_quotient_scaled (q d T : ℚ) (hT : 1000 ≤ T) (hbig : 4 * T ≤ 2 ^ 1023) :
    Tracks (((Number.finite q).divideBy d).times 100) (q / d * 100) (114 / 2 ^ 53) T := by
  have h1 : Tracks ((Number.finite q).divideBy d) (q / d) (1 / 2 ^ 53) (4 * T) :=
    tracks_mono _ _ _ _ _ _ (tracks_numberValue (q / d)) le_rfl hbig
  have h2 := tracks_times_hundred _ _ T hT hbig h1
  exact tracks_mono _ _ _ _ _ _ h2 (by norm_num) (by linarith)

theorem tracks_complement_scaled (q d T : ℚ) (hT : 1000 ≤ T) (hbig : 4 * T ≤ 2 ^ 1023) :
    Tracks ((((Number.finite q).divideBy d).times 100).subtractedFrom 100)
      (100 - q / d * 100) (114 / 2 ^ 53) T := by
  have h1 : Tracks ((Number.finite q).divideBy d) (q / d) (1 / 2 ^ 53) (4 * T) :=
    tracks_mono _ _ _ _ _ _ (tracks_numberValue (q / d)) le_rfl hbig
  have h2 := tracks_times_hundred _ _ T hT hbig h1
  exact tracks_subtractedFrom_hundred _ _ T hT hbig h2

theorem threshold_exists : ∃ T : ℚ, 1000 ≤ T ∧ 4 * T ≤ 2 ^ 1023 :=
  ⟨1000, le_rfl, by norm_num⟩

/-! ## The risk formulas in binary64 -/

/-- C8 (amended): for every metrics record, `liquidity_risk` is
`Math.round(Math.max(0, Math.min(100, 100 - (c / 1.5) * 100)))` with the
quotient, the product and the difference each rounded to binary64, where `c`
is the number parsed from `current_ratio`, and `0` when that parse gives no
number. For a finite `c` the result is the clamped and rounded value of the
formula at a point within `1e-9` of its exact value. A current ratio of 1.5
gives 0; a current ratio of 0, a missing one and every negative one give
100. -/
theorem liquidity_risk_formula (scan : List Char → Number) (m : Metrics) :
    (Binary64.calculateRiskScores scan m).liquidity_risk =
        (Number.mathMax 0 (Number.mathMin 100
          (((((Binary64.parseFloat scan m.current_ratio).orDefault 0).divideBy 1.5).times
            100).subtractedFrom 100))).mathRound ∧
      (∀ q : ℚ, Binary64.parseFloat scan m.current_ratio = Number.finite q →
        ∃ v : ℚ, |v - (100 - q / 1.5 * 100)| ≤ 1 / 10 ^ 9 ∧
          (Binary64.calculateRiskScores scan m).liquidity_risk =
            Number.finite (clampRound v)) ∧
      (Binary64.parseFloat scan m.current_ratio = Number.finite 1.5 →
        (Binary64.calculateRiskScores scan m).liquidity_risk = Number.finite 0) ∧
      (Binary64.parseFloat scan m.current_ratio = Number.finite 0 →
        (Binary64.calculateRiskScores scan m).liquidity_risk = Number.finite 100) ∧
      (Binary64.parseFloat scan m.current_ratio = Number.nan →
        (Binary64.calculateRiskScores scan m).liquidity_risk = Number.finite 100) ∧
      (∀ q : ℚ, q < 0 → Binary64.parseFloat scan m.current_ratio = Number.finite q →
        (Binary64.calculateRiskScores scan m).liquidity_risk = Number.finite 100) ∧
      (Binary64.parseFloat scan m.current_ratio = Number.infinity true →
        (Binary64.calculateRiskScores scan m).liquidity_risk = Number.finite 100) := by
  have hmain : (Binary64.calculateRiskScores scan m).liquidity_risk =
      (Number.mathMax 0 (Number.mathMin 100
        (((((Binary64.parseFloat scan m.current_ratio).orDefault 0).divideBy 1.5).times
          100).subtractedFrom 100))).mathRound := rfl
  have hnear : ∀ q : ℚ, Binary64.parseFloat scan m.current_ratio = Number.finite q →
      ∃ v : ℚ, |v - (100 - q / 1.5 * 100)| ≤ 1 / 10 ^ 9 ∧
        (Binary64.calculateRiskScores scan m).liquidity_risk =
          Number.finite (clampRound v) := by
    intro q hq
    obtain ⟨T, hT, hbig⟩ := threshold_exists
    rw [hmain, hq, orDefault_zero_of_finite]
    exact clampRound_of_tracks _ _ T hT (tracks_complement_scaled q 1.5 T hT hbig)
  refine ⟨hmain, hnear, ?_, ?_, ?_, ?_, ?_⟩
  · intro h
    rw [hmain, h]
    decide!
  · intro h
    rw [hmain, h]
    decide!
  · intro h
    rw [hmain, h]
    decide!
  · intro q hq h
    obtain ⟨v, hv, hval⟩ := hnear q h
    have hge : 100 - 1 / 10 ^ 9 ≤ v := by
      rw [abs_le] at hv
      have : q / 1.5 * 100 ≤ 0 := by
        have : q / 1.5 ≤ 0 := div_nonpos_of_nonpos_of_nonneg (le_of_lt hq) (by norm_num)
        linarith
      linarith
    rw [hval, clampRound_of_ge_hundred v hge]
    norm_num
  · intro h
    rw [hmain, h]
    decide!

/-- The amended C8 at the record `{current_ratio: 1.5, beta: 1,
debt_equity: 0, ownership: 20}`: the liquidity risk is 0. -/
theorem liquidity_risk_formula_witness :
    (Binary64.calculateRiskScores Binary64.scanNothing
      (numericMetrics 1.5 1 0 20)).liquidity_risk = Number.finite 0 :=
  (liquidity_risk_formula Binary64.scanNothing (numericMetrics 1.5 1 0 20)).2.2.1
    (by decide!)

/-- C8 as stated, with the formula in exact arithmetic, fails. At current
ratio 1.4775 the number parsed is the binary64 value `d` written by that
numeral; the formula at `d` gives a value below 1.5 and rounds to 1, and the
program, whose difference is exactly 1.5, returns 2. At current ratio 0.7275
the formula at the numeral gives 51.5 and rounds to 52, and the program,
whose difference is 51.49999999999999, returns 51. -/
theorem liquidity_risk_off_exact_formula :
    (Binary64.calculateRiskScores Binary64.scanNothing
        (numericMetrics 1.4775 1 0 0)).liquidity_risk = Number.finite 2 ∧
      Binary64.parseFloat Binary64.scanNothing (numericMetrics 1.4775 1 0 0).current_ratio =
        Number.finite (1663517112359977 / 1125899906842624) ∧
      clampRound (100 - 1663517112359977 / 1125899906842624 / 1.5 * 100) = 1 ∧
      (Binary64.calculateRiskScores Binary64.scanNothing
        (numericMetrics 0.7275 1 0 0)).liquidity_risk = Number.finite 51 ∧
      clampRound (100 - 0.7275 / 1.5 * 100) = 52 :=
  ⟨by decide!, by decide!, by decide!, by decide!, by decide!⟩

/-- C10 (amended): for every metrics record, `credit_risk` is
`Math.round(Math.max(0, Math.min(100, (d / 3) * 100)))` with the quotient and
the product each rounded to binary64, where `d` is the number parsed from
`debt_equity`, and `0` when that parse gives no number. For a finite `d` the
result is the clamped and rounded value of the formula at a point within
`1e-9` of its exact value. A debt-to-equity of 0 and a missing one give 0;
every debt-to-equity from 3 up, 6 among them, gives 100. -/
theorem credit_risk_formula (scan : List Char → Number) (m : Metrics) :
    (Binary64.calculateRiskScores scan m).credit_risk =
        (Number.mathMax 0 (Number.mathMin 100
          ((((Binary64.parseFloat scan m.debt_equity).orDefault 0).divideBy 3).times
            100))).mathRound ∧
      (∀ q : ℚ, Binary64.parseFloat scan m.debt_equity = Number.finite q →
        ∃ v : ℚ, |v - q / 3 * 100| ≤ 1 / 10 ^ 9 ∧
          (Binary64.calculateRiskScores scan m).credit_risk =
            Number.finite (clampRound v)) ∧
      (Binary64.parseFloat scan m.debt_equity = Number.finite 0 →
        (Binary64.calculateRiskScores scan m).credit_risk = Number.finite 0) ∧
      (Binary64.parseFloat scan m.debt_equity = Number.nan →
        (Binary64.calculateRiskScores scan m).credit_risk = Number.finite 0) ∧
      (∀ q : ℚ, 3 ≤ q → Binary64.parseFloat scan m.debt_equity = Number.finite q →
        (Binary64.calculateRiskScores scan m).credit_risk = Number.finite 100) ∧
      (Binary64.parseFloat scan m.debt_equity = Number.finite 6 →
        (Binary64.calculateRiskScores scan m).credit_risk = Number.finite 100) ∧
      (Binary64.parseFloat scan m.debt_equity = Number.infinity false →
        (Binary64.calculateRiskScores scan m).credit_risk = Number.finite 100) := by
  have hmain : (Binary64.calculateRiskScores scan m).credit_risk =
      (Number.mathMax 0 (Number.mathMin 100
        ((((Binary64.parseFloat scan m.debt_equity).orDefault 0).divideBy 3).times
          100))).mathRound := rfl
  have hnear : ∀ q : ℚ, Binary64.parseFloat scan m.debt_equity = Number.finite q →
      ∃ v : ℚ, |v - q / 3 * 100| ≤ 1 / 10 ^ 9 ∧
        (Binary64.calculateRiskScores scan m).credit_risk =
          Number.finite (clampRound v) := by
    intro q hq
    obtain ⟨T, hT, hbig⟩ := threshold_exists
    rw [hmain, hq, orDefault_zero_of_finite]
    exact clampRound_of_tracks _ _ T hT (tracks_quotient_scaled q 3 T hT hbig)
  have hhigh : ∀ q : ℚ, 3 ≤ q → Binary64.parseFloat scan m.debt_equity = Number.finite q →
      (Binary64.calculateRiskScores scan m).credit_risk = Number.finite 100 := by
    intro q hq h
    obtain ⟨v, hv, hval⟩ := hnear q h
    have hge : 100 - 1 / 10 ^ 9 ≤ v := by
      rw [abs_le] at hv
      have : 100 ≤ q / 3 * 100 := by
        have : 1 ≤ q / 3 := by
          rw [le_div_iff₀ (by norm_num)]
          linarith
        linarith
      linarith
    rw [hval, clampRound_of_ge_hundred v hge]
    norm_num
  refine ⟨hmain, hnear, ?_, ?_, hhigh, ?_, ?_⟩
  · intro h
    rw [hmain, h]
    decide!
  · intro h
    rw [hmain, h]
    decide!
  · intro h
    exact hhigh 6 (by norm_num) h
  · intro h
    rw [hmain, h]
    decide!

/-- The amended C10 at the record `{current_ratio: 0, beta: 2,
debt_equity: 6, ownership: 0}`: the credit risk is 100. -/
theorem credit_risk_formula_witness :
    (Binary64.calculateRiskScores Binary64.scanNothing
      (numericMetrics 0 2 6 0)).credit_risk = Number.finite 100 :=
  (credit_risk_formula Binary64.scanNothing (numericMetrics 0 2 6 0)).2.2.2.2.2.1
    (by decide!)

/-- C10 as stated, with the formula in exact arithmetic, fails. At
debt-to-equity 0.015 the number parsed is the binary64 value `d` written by
that numeral; the formula at `d` gives a value below 0.5 and rounds to 0, and
the program, whose product is exactly 0.5, returns 1. At debt-to-equity 0.105
the formula at the numeral gives 3.5 and rounds to 4, and the program, whose
product is 3.4999999999999996, returns 3. -/
theorem credit_risk_off_exact_formula :
    (Binary64.calculateRiskScores Binary64.scanNothing
        (numericMetrics 0 1 0.015 0)).credit_risk = Number.finite 1 ∧
      Binary64.parseFloat Binary64.scanNothing (numericMetrics 0 1 0.015 0).debt_equity =
        Number.finite (1080863910568919 / 72057594037927936) ∧
      clampRound (1080863910568919 / 72057594037927936 / 3 * 100) = 0 ∧
      (Binary64.calculateRiskScores Binary64.scanNothing
        (numericMetrics 0 1 0.105 0)).credit_risk = Number.finite 3 ∧
      clampRound (0.105 / 3 * 100) = 4 :=
  ⟨by decide!, by decide!, by decide!, by decide!, by decide!⟩

/-- C11 (amended): for every metrics record, `governance_risk` is
`Math.round(Math.max(0, Math.min(100, 100 - (o / 20) * 100)))` with the
quotient, the product and the difference each rounded to binary64, where `o`
is the number parsed from `ownership`, and `0` when that parse gives no
number. For a finite `o` the result is the clamped and rounded value of the
formula at a point within `1e-9` of its exact value. An ownership of 20
gives 0; an ownership of 0 and a missing one give 100. -/
theorem governance_risk_formula (scan : List Char → Number) (m : Metrics) :
    (Binary64.calculateRiskScores scan m).governance_risk =
        (Number.mathMax 0 (Number.mathMin 100
          (((((Binary64.parseFloat scan m.ownership).orDefault 0).divideBy 20).times
            100).subtractedFrom 100))).mathRound ∧
      (∀ q : ℚ, Binary64.parseFloat scan m.ownership = Number.finite q →
        ∃ v : ℚ, |v - (100 - q / 20 * 100)| ≤ 1 / 10 ^ 9 ∧
          (Binary64.calculateRiskScores scan m).governance_risk =
            Number.finite (clampRound v)) ∧
      (Binary64.parseFloat scan m.ownership = Number.finite 20 →
        (Binary64.calculateRiskScores scan m).governance_risk = Number.finite 0) ∧
      (Binary64.parseFloat scan m.ownership = Number.finite 0 →
        (Binary64.calculateRiskScores scan m).governance_risk = Number.finite 100) ∧
      (Binary64.parseFloat scan m.ownership = Number.nan →
        (Binary64.calculateRiskScores scan m).governance_risk = Number.finite 100) := by
  have hmain : (Binary64.calculateRiskScores scan m).governance_risk =
      (Number.mathMax 0 (Number.mathMin 100
        (((((Binary64.parseFloat scan m.ownership).orDefault 0).divideBy 20).times
          100).subtractedFrom 100))).mathRound := rfl
  refine ⟨hmain, ?_, ?_, ?_, ?_⟩
  · intro q hq
    obtain ⟨T, hT, hbig⟩ := threshold_exists
    rw [hmain, hq, orDefault_zero_of_finite]
    exact clampRound_of_tracks _ _ T hT (tracks_complement_scaled q 20 T hT hbig)
  · intro h
    rw [hmain, h]
    decide!
  · intro h
    rw [hmain, h]
    decide!
  · intro h
    rw [hmain, h]
    decide!

/-- The amended C11 at the record `{current_ratio: 1.5, beta: 1,
debt_equity: 0, ownership: 20}`: the governance risk is 0. -/
theorem governance_risk_formula_witness :
    (Binary64.calculateRiskScores Binary64.scanNothing
      (numericMetrics 1.5 1 0 20)).governance_risk = Number.finite 0 :=
  (governance_risk_formula Binary64.scanNothing (numericMetrics 1.5 1 0 20)).2.2.1
    (by decide!)

/-- C11 as stated, with the formula in exact arithmetic, fails. At ownership
19.1 the number parsed is the binary64 value `d` written by that numeral; the
formula at `d` gives a value below 4.5 and rounds to 4, and the program,
whose difference is exactly 4.5, returns 5. At ownership 10.9 the formula at
the numeral gives 45.5 and rounds to 46, and the program, whose difference is
45.49999999999999, returns 45. -/
theorem governance_risk_off_exact_formula :
    (Binary64.calculateRiskScores Binary64.scanNothing
        (numericMetrics 0 1 0 19.1)).governance_risk = Number.finite 5 ∧
      Binary64.parseFloat Binary64.scanNothing (numericMetrics 0 1 0 19.1).ownership =
        Number.finite (2688086027586765 / 140737488355328) ∧
      clampRound (100 - 2688086027586765 / 140737488355328 / 20 * 100) = 4 ∧
      (Binary64.calculateRiskScores Binary64.scanNothing
        (numericMetrics 0 1 0 10.9)).governance_risk = Number.finite 45 ∧
      clampRound (100 - 10.9 / 20 * 100) = 46 :=
  ⟨by decide!, by decide!, by decide!, by decide!, by decide!⟩

/-- The four risk scores of the program at current ratio 0.7275, beta 0.29,
debt-to-equity 0.105 and ownership 10.9. -/
theorem risk_scores_near_ties :
    Binary64.calculateRiskScores Binary64.scanNothing (numericMetrics 0.7275 0.29 0.105 10.9) =
      ⟨Number.finite 51, Number.finite 14, Number.finite 3, Number.finite 45⟩ := by
  decide!

/-! ## Literal percentages in binary64 -/

theorem strip_literal_percent (negative : Bool) (ip fp : List Char)
    (hip : ∀ c ∈ ip, c.isDigit = true) (hfp : ∀ c ∈ fp, c.isDigit = true) :
    stripNonNumeric (decimalNumeral negative ip fp ++ "%".toList) =
        decimalNumeral negative ip fp ∧
      decimalNumeral negative ip fp ++ "%".toList ≠ "N/A".toList := by
  have hchars := decimalNumeral_chars negative ip fp hip hfp
  constructor
  · have h1 := stripNonNumeric_decimalNumeral negative ip fp hip hfp
    unfold stripNonNumeric at h1 ⊢
    rw [List.filter_append, h1]
    have h2 : List.filter (fun c => c.isDigit || c == '.' || c == '-') "%".toList = [] := by
      decide
    rw [h2, List.append_nil]
  · intro heq
    have hN : 'N' ∈ decimalNumeral negative ip fp ++ "%".toList := by
      rw [heq]; decide
    rcases List.mem_append.mp hN with hN | hN
    · rcases hchars 'N' hN with h | h | h
      · exact absurd h (by decide)
      · exact absurd h (by decide)
      · exact absurd h (by decide)
    · exact absurd hN (by decide)

/-- C21 (amended): for every string made of a decimal numeral `n` followed by
`%` whose binary64 value `d` is below `1e21` in magnitude, whatever that
magnitude otherwise, `formatPercent` returns `d` written by `toFixed(1)`
followed by `%`; `d` is not multiplied by 100. The value `d` lies within
`(|n| + 1) / 2^53` of `n`, and for `d ≥ 0` the number printed lies within
0.05 of `d`. -/
theorem formatPercent_of_literal_percent (numToString : ℚ → List Char)
    (negative : Bool) (ip fp : List Char)
    (hip : ∀ c ∈ ip, c.isDigit = true) (hfp : ∀ c ∈ fp, c.isDigit = true)
    (hne : ip ≠ [] ∨ fp ≠ []) (d : ℚ)
    (hd : numberValue (decimalNumeralValue negative ip fp) = Number.finite d)
    (hlt : |d| < 1e21) :
    Binary64.formatPercent numToString
        (JSValue.string (decimalNumeral negative ip fp ++ "%".toList)) false =
        toFixed d 1 ++ "%".toList ∧
      |d - decimalNumeralValue negative ip fp| ≤
        (|decimalNumeralValue negative ip fp| + 1) / 2 ^ 53 ∧
      (0 ≤ d → ∃ p : ℚ, scanDecimal (toFixed d 1) = some p ∧ |p - d| ≤ 1 / 20) := by
  obtain ⟨hstrip, hna⟩ := strip_literal_percent negative ip fp hip hfp
  refine ⟨?_, ?_, ?_⟩
  · unfold Binary64.formatPercent
    rw [if_neg (by
      rintro (h | h | h)
      · exact absurd h (by simp)
      · exact absurd h (by simp)
      · exact hna (JSValue.string.inj h))]
    simp only [toStr, hstrip, scanDecimal_decimalNumeral negative ip fp hip hfp hne, hd]
    have hmem : '%' ∈ decimalNumeral negative ip fp ++ "%".toList :=
      List.mem_append.mpr (Or.inr (by decide))
    simp only [hmem, not_true_eq_false, and_false, if_false, Bool.false_eq_true, false_and,
      List.nil_append, Binary64.toFixed, if_neg (not_le.mpr hlt)]
  · rcases numberValue_spec (decimalNumeralValue negative ip fp) with ⟨v, hv, herr, _, _⟩ | ⟨hv, _⟩
    · rw [hd] at hv
      rw [Number.finite.inj hv]
      exact herr
    · rw [hd] at hv
      exact absurd hv (by simp)
  · intro h0
    have hy : (0 : ℚ) ≤ d * 10 ^ 1 + 1 / 2 := by linarith
    refine ⟨_, scanDecimal_toFixed d 1 h0 (le_refl 1), ?_⟩
    rw [toNat_floor_cast _ hy]
    have hlo := Int.floor_le (d * 10 ^ 1 + 1 / 2)
    have hhi := Int.lt_floor_add_one (d * 10 ^ 1 + 1 / 2)
    rw [abs_le]
    constructor
    · rw [le_sub_iff_add_le, le_div_iff₀ (by norm_num)]
      linarith
    · rw [sub_le_iff_le_add, div_le_iff₀ (by norm_num)]
      linarith

/-- The amended C21 at the string `45%`: the result is `45.0%`. -/
theorem formatPercent_of_literal_percent_witness :
    Binary64.formatPercent decimalToString (JSValue.string "45%".toList) false =
      "45.0%".toList :=
  (formatPercent_of_literal_percent decimalToString false "45".toList [] (by decide)
    (by decide) (by decide) 45 (by decide!) (by decide!)).1.trans (by decide!)

/-- C21 as stated fails for a large numeral: the string
`1000000000000000000000%` gives `1e+21%`, the number in exponent notation
and with no decimal place. -/
theorem formatPercent_of_large_literal_percent :
    Binary64.formatPercent decimalToString
      (JSValue.string "1000000000000000000000%".toList) false = "1e+21%".toList := by
  decide!

/-- The string `0.35%` gives `0.3%`: the binary64 value written by `0.35`
lies below 0.35. -/
theorem literal_percent_below_tie :
    Binary64.formatPercent decimalToString (JSValue.string "0.35%".toList) false =
      "0.3%".toList := by
  decide!

end FinancialAnalyst
